import Mathlib

/-!
# Redwood: the `dumb` resolver, the remote tx iterator and the tree store

A shallow embedding of `dumbResolver.ResolveState` (`resolver.dumb.go`) and of
the Go values it works on, of the transaction iterator of
`remotestore/client.go`, and of the keypath-addressed versioned store that
`tree/tree.badger_test.go` exercises, followed by theorems about them.

Modelling decisions.

* A Go `interface{}` holding a JSON-like tree is the inductive type `Value`.
  Numbers are carried as an uninterpreted integer payload: the resolver never
  inspects them.
* A Go `string` is an immutable byte sequence (`List UInt8`); slice expressions
  on it index bytes.
* A Go slice `[]interface{}` is a window on a backing array.  The value
  `Value.seq vis spare` keeps the visible elements (`len = vis.length`) and the
  array slots between the length and the capacity (`cap = vis.length +
  spare.length`), because `append` writes into them and `s[:n]` may expose
  them.
* A Go `map[string]interface{}` is an association list; `m[key]` reads the
  first entry of the key and `m[key] = v` overwrites it or adds one.
* Go maps are mutated in place; the state is taken to be a tree (no map or
  array reachable along two paths), so the mutation is rendered as a pure
  function from the old state to the returned state.
* A runtime panic (slice bounds out of range) is the result `none`.
* A Go map has no entry order and an association list has one: two states are
  compared as trees (`sameTree`), by what every key path reads in them.
-/

namespace Redwood

/-- Dynamic values held by a Go `interface{}`: `nil`, `bool`, number, `string`,
`[]interface{}` (visible elements and spare backing-array slots) and
`map[string]interface{}`. -/
inductive Value where
  | null
  | bool (b : Bool)
  | num (n : Int)
  | str (s : List UInt8)
  | seq (vis : List Value) (spare : List Value)
  | map (kvs : List (String × Value))

/-- A Go `map[string]interface{}`. -/
abbrev GoMap := List (String × Value)

mutual
/-- Decidable equality of values. -/
def Value.decEq : (a b : Value) → Decidable (a = b)
  | .null, .null => isTrue rfl
  | .bool a, .bool b =>
    if h : a = b then isTrue (by rw [h]) else isFalse (by intro e; cases e; exact h rfl)
  | .num a, .num b =>
    if h : a = b then isTrue (by rw [h]) else isFalse (by intro e; cases e; exact h rfl)
  | .str a, .str b =>
    if h : a = b then isTrue (by rw [h]) else isFalse (by intro e; cases e; exact h rfl)
  | .seq a1 a2, .seq b1 b2 =>
    match Value.decEqList a1 b1, Value.decEqList a2 b2 with
    | isTrue h1, isTrue h2 => isTrue (by rw [h1, h2])
    | isFalse h1, _ => isFalse (by intro e; cases e; exact h1 rfl)
    | _, isFalse h2 => isFalse (by intro e; cases e; exact h2 rfl)
  | .map a, .map b =>
    match Value.decEqEntries a b with
    | isTrue h => isTrue (by rw [h])
    | isFalse h => isFalse (by intro e; cases e; exact h rfl)
  | .null, .bool _ => isFalse nofun
  | .null, .num _ => isFalse nofun
  | .null, .str _ => isFalse nofun
  | .null, .seq _ _ => isFalse nofun
  | .null, .map _ => isFalse nofun
  | .bool _, .null => isFalse nofun
  | .bool _, .num _ => isFalse nofun
  | .bool _, .str _ => isFalse nofun
  | .bool _, .seq _ _ => isFalse nofun
  | .bool _, .map _ => isFalse nofun
  | .num _, .null => isFalse nofun
  | .num _, .bool _ => isFalse nofun
  | .num _, .str _ => isFalse nofun
  | .num _, .seq _ _ => isFalse nofun
  | .num _, .map _ => isFalse nofun
  | .str _, .null => isFalse nofun
  | .str _, .bool _ => isFalse nofun
  | .str _, .num _ => isFalse nofun
  | .str _, .seq _ _ => isFalse nofun
  | .str _, .map _ => isFalse nofun
  | .seq _ _, .null => isFalse nofun
  | .seq _ _, .bool _ => isFalse nofun
  | .seq _ _, .num _ => isFalse nofun
  | .seq _ _, .str _ => isFalse nofun
  | .seq _ _, .map _ => isFalse nofun
  | .map _, .null => isFalse nofun
  | .map _, .bool _ => isFalse nofun
  | .map _, .num _ => isFalse nofun
  | .map _, .str _ => isFalse nofun
  | .map _, .seq _ _ => isFalse nofun
/-- Decidable equality of lists of values. -/
def Value.decEqList : (a b : List Value) → Decidable (a = b)
  | [], [] => isTrue rfl
  | [], _ :: _ => isFalse nofun
  | _ :: _, [] => isFalse nofun
  | a :: as, b :: bs =>
    match Value.decEq a b, Value.decEqList as bs with
    | isTrue h1, isTrue h2 => isTrue (by rw [h1, h2])
    | isFalse h1, _ => isFalse (by intro e; cases e; exact h1 rfl)
    | _, isFalse h2 => isFalse (by intro e; cases e; exact h2 rfl)
/-- Decidable equality of map entries. -/
def Value.decEqEntries : (a b : GoMap) → Decidable (a = b)
  | [], [] => isTrue rfl
  | [], _ :: _ => isFalse nofun
  | _ :: _, [] => isFalse nofun
  | (k, a) :: as, (l, b) :: bs =>
    if hk : k = l then
      match Value.decEq a b, Value.decEqEntries as bs with
      | isTrue h1, isTrue h2 => isTrue (by rw [hk, h1, h2])
      | isFalse h1, _ => isFalse (by intro e; cases e; exact h1 rfl)
      | _, isFalse h2 => isFalse (by intro e; cases e; exact h2 rfl)
    else isFalse (by intro e; cases e; exact hk rfl)
end

instance : DecidableEq Value := Value.decEq

/-- The bytes of a string literal (Go strings are byte sequences). -/
def utf8 (s : String) : List UInt8 := s.toUTF8.data.toList

/-- The bounds of a `Range`, a `[2]int64` in Go: `Range[0]` and `Range[1]`. -/
abbrev Range := Int × Int

/-- The fields of `Patch` that `ResolveState` reads: `p.Keys` (`[]string`),
`p.Range` (`*Range`, `nil` when the patch has no range) and `p.Val`
(`interface{}`). -/
structure Patch where
  Keys : List String
  Range : Option Range
  Val : Value

/-- Modelled from the spec: the error kinds a node operation may report
(section 4.C of the specification); the type of the `error` result. -/
inductive ErrorKind where
  | NotFound
  | InvalidRange
  | WrongNodeType
  | ReadOnly
  | Closed
  deriving DecidableEq

/-- The result pair `(interface{}, error)` of `ResolveState`; a `nil` error is
`none`. -/
abbrev Result := Value × Option ErrorKind

namespace GoMap

/-- The index expression `m[key]`: the value stored under the key, the `nil`
interface when the key is missing. -/
def index : GoMap → String → Value
  | [], _ => .null
  | (k, v) :: rest, key => if k = key then v else index rest key

/-- The comma-ok form `v, ok := m[key]`: `none` when the key is missing. -/
def find? : GoMap → String → Option Value
  | [], _ => none
  | (k, v) :: rest, key => if k = key then some v else find? rest key

/-- The assignment `m[key] = val`. -/
def assign : GoMap → String → Value → GoMap
  | [], key, val => [(key, val)]
  | (k, v) :: rest, key, val =>
    if k = key then (k, val) :: rest else (k, v) :: assign rest key val

end GoMap

/-- A slice header seen from its first element: `arr` is the backing array
from that element up to the capacity, `len` the slice length. -/
structure Slice where
  arr : List Value
  len : Nat

/-- The slice held by a value after the assertion `getval().([]interface{})`:
the slice itself when the assertion holds, the zero value (the nil slice, of
length and capacity 0) when it fails. -/
def Value.toSlice : Value → Slice
  | .seq vis spare => ⟨vis ++ spare, vis.length⟩
  | _ => ⟨[], 0⟩

/-- The slice put back in an `interface{}`. -/
def Slice.toValue (s : Slice) : Value :=
  .seq (s.arr.take s.len) (s.arr.drop s.len)

/-- The slice expression `s[:hi]`: it panics unless `0 <= hi <= cap(s)`, and
may therefore reach past `len(s)`. -/
def Slice.upto (s : Slice) (hi : Int) : Option Slice :=
  if 0 ≤ hi ∧ hi ≤ (s.arr.length : Int) then some ⟨s.arr, hi.toNat⟩ else none

/-- The elements of the slice expression `s[lo:]`: it panics unless
`0 <= lo <= len(s)`. -/
def Slice.suffix (s : Slice) (lo : Int) : Option (List Value) :=
  if 0 ≤ lo ∧ lo ≤ (s.len : Int) then some ((s.arr.take s.len).drop lo.toNat) else none

/-- What a call `append(s, ys...)` leaves: the slice it returns, and the
backing array of `s` after the call (every slice sharing that array sees
it). -/
structure Appended where
  out : Slice
  backing : List Value

/-- The built-in `append(s, ys...)`.  When the elements fit in the capacity of
`s` they are written into its backing array, just after `len(s)`; otherwise a
new array is allocated and the old one is left as it was.  The capacity of a
new array is chosen by the Go runtime: `grow cap needed` is the number of
zeroed slots it adds beyond the `needed` ones. -/
def goAppend (grow : Nat → Nat → Nat) (s : Slice) (ys : List Value) : Appended :=
  if s.len + ys.length ≤ s.arr.length then
    let arr := s.arr.take s.len ++ ys ++ s.arr.drop (s.len + ys.length)
    ⟨⟨arr, s.len + ys.length⟩, arr⟩
  else
    let needed := s.len + ys.length
    ⟨⟨s.arr.take s.len ++ ys ++ List.replicate (grow s.arr.length needed) .null, needed⟩,
      s.arr⟩

/-- The string slice expression `s[:hi]`: it panics unless `0 <= hi <= len(s)`. -/
def strUpto (s : List UInt8) (hi : Int) : Option (List UInt8) :=
  if 0 ≤ hi ∧ hi ≤ (s.length : Int) then some (s.take hi.toNat) else none

/-- The string slice expression `s[lo:]`: it panics unless `0 <= lo <= len(s)`. -/
def strSuffix (s : List UInt8) (lo : Int) : Option (List UInt8) :=
  if 0 ≤ lo ∧ lo ≤ (s.length : Int) then some (s.drop lo.toNat) else none

/-- Lines 72-76: the string written over the string `s` by a ranged patch of
value `v`. -/
def spliceString (s : List UInt8) (r : Range) (v : List UInt8) : Option Value :=
  if (s.length : Int) < r.2 then
    (strUpto s r.1).map fun a => .str (a ++ v)
  else
    (strUpto s r.1).bind fun a => (strSuffix s r.2).map fun b => .str (a ++ v ++ b)

/-- Lines 89-105: the slice written by a ranged patch over the slice `s`.
`elems` is `seq` when the patch value is a sequence (`append(.., seq...)`) and
the one element `v` otherwise (`append(.., v)`).  The second `append` reads
`s[Range[1]:]` after the first one has run, from the array the first one may
have written into. -/
def spliceSlice (grow : Nat → Nat → Nat) (s : Slice) (r : Range) (elems : List Value) :
    Option Value :=
  if (s.len : Int) < r.2 then
    (s.upto r.1).map fun x0 => (goAppend grow x0 elems).out.toValue
  else
    (s.upto r.1).bind fun x0 =>
      let x := goAppend grow x0 elems
      (Slice.suffix ⟨x.backing, s.len⟩ r.2).map fun tail =>
        (goAppend grow x.out tail).out.toValue

/-- Lines 63-113: the closure installed as `setval` when `p.Range != nil`,
as a function of the current `getval()` and of the value to set; the result is
the last value handed to `old_setval`, `none` when the closure panics.  When
the target is neither `nil` nor a slice, line 86 hands `val` to `old_setval`
and the code goes on with the nil slice `s`, so that a second `old_setval`
(or a panic) follows. -/
def setvalRange (grow : Nat → Nat → Nat) (r : Range) (cur val : Value) : Option Value :=
  match val with
  | .str v =>
    match cur with
    | .null => some val
    | .str s => spliceString s r v
    | _ => some val
  | _ =>
    match cur with
    | .null => some val
    | _ =>
      spliceSlice grow cur.toSlice r
        (match val with
         | .seq vis _ => vis
         | v => [v])

/-- Line 117, `setval(p.Val)`, at the place the key walk stopped: plain
assignment without a range, the ranged closure with one. -/
def setval (grow : Nat → Nat → Nat) (p : Patch) (cur : Value) : Option Value :=
  match p.Range with
  | none => some p.Val
  | some r => setvalRange grow r cur p.Val

/-- Lines 42-57: the map the walk moves into under `key`: the map stored there,
or a fresh empty map stored there when the entry is missing, `nil` or not a
map. -/
def childMap (m : GoMap) (key : String) : GoMap :=
  match m.index key with
  | .map c => c
  | _ => []

/-- Lines 34-58 and 117: the loop over `p.Keys` from the map `m`, then the
final `setval` on `m[key]` of the last key.  Returns the map `m` as the loop
and the assignment leave it. -/
def walkKeys (f : Value → Option Value) : GoMap → String → List String → Option GoMap
  | m, key, [] => (f (m.index key)).map fun v => m.assign key v
  | m, key, k :: ks =>
    (walkKeys f (childMap m key) k ks).map fun c => m.assign key (.map c)

/-- Lines 19-32: the map the walk starts from: the state when it is a map, a
fresh map otherwise. -/
def rootMap : Value → GoMap
  | .map m => m
  | _ => []

/-- The method `dumbResolver.ResolveState(state, p)`.  `none` is a runtime
panic; otherwise the returned state and error. -/
def ResolveState (grow : Nat → Nat → Nat) (state : Value) (p : Patch) : Option Result :=
  match p.Keys with
  | [] => (setval grow p state).map fun s => (s, none)
  | key :: rest =>
    (walkKeys (setval grow p) (rootMap state) key rest).map fun m => (.map m, none)

/-- Reading a key path: the value reached by following the keys through nested
maps, `none` when a key is missing or a non-map is met on the way. -/
def Value.at? : Value → List String → Option Value
  | v, [] => some v
  | .map m, k :: ks =>
    match GoMap.find? m k with
    | some c => Value.at? c ks
    | none => none
  | _, _ :: _ => none

/-- The value `getval()` returns once the loop over the keys has stopped on the
last key, the walk starting from the map `m`. -/
def cursor : GoMap → String → List String → Value
  | m, key, [] => m.index key
  | m, key, k :: ks => cursor (childMap m key) k ks

/-- The map `m` once the loop has run and `v` has been assigned under the last
key. -/
def place (v : Value) : GoMap → String → List String → GoMap
  | m, key, [] => m.assign key v
  | m, key, k :: ks => m.assign key (.map (place v (childMap m key) k ks))

/-- The target of a key path: what `getval()` returns just before line 117. -/
def target (state : Value) : List String → Value
  | [] => state
  | key :: rest => cursor (rootMap state) key rest

/-- The state in which `v` has been assigned at a key path. -/
def put (state v : Value) : List String → Value
  | [] => v
  | key :: rest => .map (place v (rootMap state) key rest)

/-- The elements at positions `lo .. hi-1` of a sequence. -/
def readRange (xs : List Value) (lo hi : Nat) : List Value :=
  (xs.drop lo).take (hi - lo)

/-- The growth policy that allocates exactly the needed capacity. -/
def exactFit : Nat → Nat → Nat := fun _ _ => 0

/-! ### Concrete states and patches used in the examples -/

/-- The tree of the slice tests: `foo/slice` holds four elements in an array of
capacity four. -/
def sliceState : Value :=
  .map [("foo", .map [("bar", .map [("baz", .num 123)]),
                      ("slice", .seq [.num 1, .num 2, .num 3, .num 4] [])])]

/-- The patch `.foo.slice[1:3] = [5,6,7,8]`. -/
def slicePatch : Patch :=
  ⟨["foo", "slice"], some (1, 3), .seq [.num 5, .num 6, .num 7, .num 8] []⟩

/-- A slice of three elements in a backing array of capacity four, which is
how `encoding/json` (appending element by element) builds a three-element
array. -/
def spareState : Value :=
  .map [("k", .seq [.num 1, .num 2, .num 3] [.null])]

/-- The patch `.k[1:2] = [5,6]`. -/
def sparePatch : Patch :=
  ⟨["k"], some (1, 2), .seq [.num 5, .num 6] []⟩

/-- The tree of the string test: `foo/string = "abcdefgh"`. -/
def stringState : Value :=
  .map [("foo", .map [("string", .str (utf8 "abcdefgh"))])]

/-- The patch `.foo.string[3:6] = "xx"`. -/
def stringPatch : Patch :=
  ⟨["foo", "string"], some (3, 6), .str (utf8 "xx")⟩

/-- The commit hash of the git demo. -/
def commit1Hash : String := "2d4518de34a9583d61b32c9bf3b4cf0bdc1c8734"

/-- The state left by the genesis patch of the git demo (the `Validator`
subtree left out). -/
def genesisState : Value :=
  .map [("demo", .map [("Content-Type", .str (utf8 "link")),
          ("value", .str (utf8 "state:somegitprovider.org/gitdemo/refs/heads/master/worktree"))]),
        ("Merge-Type", .map [("Content-Type", .str (utf8 "resolver/dumb")),
          ("value", .map [])]),
        ("refs", .map [("heads", .map [])]),
        ("commits", .map [])]

/-- The first patch of the commit transaction, `.commits.<hash> = {...}`
(message and timestamp only). -/
def commitPatch : Patch :=
  ⟨["commits", commit1Hash], none,
    .map [("message", .str (utf8 "First commit\n")),
          ("timestamp", .str (utf8 "2020-05-26T16:42:24-05:00"))]⟩

/-- The second patch of the commit transaction, `.refs.heads.master = {...}`. -/
def headPatch : Patch :=
  ⟨["refs", "heads", "master"], none,
    .map [("HEAD", .str (utf8 commit1Hash)),
          ("worktree", .map [("Content-Type", .str (utf8 "link")),
            ("value", .str (utf8
              "state:somegitprovider.org/gitdemo/commits/2d4518de34a9583d61b32c9bf3b4cf0bdc1c8734/files"))])]⟩

/-- A two-element sequence under the key `k`. -/
def shortState : Value := .map [("k", .seq [.num 1, .num 2] [])]

/-- The patch `.k[1:5] = [9]`, whose range ends beyond the sequence. -/
def overrunPatch : Patch := ⟨["k"], some (1, 5), .seq [.num 9] []⟩

/-- The patch `.k[1:5] = "xx"`: a string over a range that ends beyond the
two-element sequence of `shortState`. -/
def stringOverSeqPatch : Patch := ⟨["k"], some (1, 5), .str (utf8 "xx")⟩

/-- The patch `.k[1:5] = 9`: a single value over a range that ends beyond the
two-element sequence of `shortState`. -/
def valueOverrunPatch : Patch := ⟨["k"], some (1, 5), .num 9⟩

/-- The patch `.k[3:1] = [9]`, whose range ends before it starts. -/
def invertedPatch : Patch := ⟨["k"], some (3, 1), .seq [.num 9] []⟩

/-- The patch `.k[3:3] = [9]`, whose range starts beyond the two elements of
`roomyState`. -/
def beyondPatch : Patch := ⟨["k"], some (3, 3), .seq [.num 9] []⟩

/-- Two elements under the key `k` in an array of capacity four. -/
def roomyState : Value := .map [("k", .seq [.num 1, .num 2] [.null, .null])]

/-! ### Concrete patches with negative bounds, and a sequence with spare capacity -/

/-- The patch `.foo.string[-5:-2] = "xx"`: counted from the end of
`"abcdefgh"` its bounds are `[3,6)`. -/
def negativeStringPatch : Patch :=
  ⟨["foo", "string"], some (-5, -2), .str (utf8 "xx")⟩

/-- The patch `.foo.slice[-3:-1] = [5,6,7,8]`: counted from the end of a
four-element sequence its bounds are `[1,3)`. -/
def negativeSlicePatch : Patch :=
  ⟨["foo", "slice"], some (-3, -1), .seq [.num 5, .num 6, .num 7, .num 8] []⟩

/-- The patch `.foo.string[3:20] = "xx"`, whose range ends beyond the string. -/
def stringOverrunPatch : Patch :=
  ⟨["foo", "string"], some (3, 20), .str (utf8 "xx")⟩

/-- The splice as the specification words it: `s[0..lo)` followed by `R`
followed by `s[hi..L)`. -/
def pureSplice (s : List Value) (lo hi : Nat) (R : List Value) : List Value :=
  s.take lo ++ R ++ s.drop hi

/-- A four-element sequence held in an array of capacity eight, as `append`
leaves it after growing a three-element array by one element. -/
def wideState : Value :=
  .map [("k", .seq [.num 1, .num 2, .num 3, .num 4] [.null, .null, .null, .null])]

/-- The patch `.k[1:3] = [5,6,7,8]`. -/
def widePatch : Patch :=
  ⟨["k"], some (1, 3), .seq [.num 5, .num 6, .num 7, .num 8] []⟩

/-! ### The remote transaction iterator (`remotestore/client.go`) -/

/-- A Go channel as a `select` or a `close` finds it: the nil channel (the zero
value of a channel field), a channel made by `make` and still open, with the
value of a sender blocked on it if there is one, or a closed channel. -/
inductive Chan (α : Type) where
  | nilChan
  | made (sender : Option α)
  | closed
  deriving DecidableEq

/-- What a receive case yields when it can proceed: the value of the blocked
sender, or the zero value (`none`) of a closed channel.  The outer `none` means
the case cannot proceed now. -/
def Chan.ready {α : Type} : Chan α → Option (Option α)
  | .nilChan => none
  | .made none => none
  | .made (some v) => some (some v)
  | .closed => some none

/-- The built-in `close(c)`: it panics (`none`) on the nil channel and on a
closed channel. -/
def Chan.close {α : Type} : Chan α → Option (Chan α)
  | .nilChan => none
  | .made _ => some .closed
  | .closed => none

/-- The struct `txIterator`: `ch chan *redwood.Tx`, `chCancel chan struct{}`,
`err error`. -/
structure txIterator (Tx E : Type) where
  ch : Chan Tx
  chCancel : Chan Unit
  err : Option E

/-- How a call of `Next` goes: it returns a transaction or `nil`, it waits for
another goroutine to send or close, or it blocks forever because every channel
of its `select` is nil. -/
inductive NextOutcome (Tx : Type) where
  | returned (tx : Option Tx)
  | waits
  | blocksForever
  deriving DecidableEq

/-- The method `txIterator.Next`: a `select` over a receive from `i.ch`
(return the transaction) and a receive from `i.chCancel` (return `nil`).  The
result lists the outcomes the `select` allows; a nil channel is never ready. -/
def txIterator.Next {Tx E : Type} (i : txIterator Tx E) : List (NextOutcome Tx) :=
  match i.ch.ready, i.chCancel.ready with
  | some tx, some _ => [.returned tx, .returned none]
  | some tx, none => [.returned tx]
  | none, some _ => [.returned none]
  | none, none =>
    match i.ch, i.chCancel with
    | .nilChan, .nilChan => [.blocksForever]
    | _, _ => [.waits]

/-- The method `txIterator.Cancel`: `close(i.chCancel)`; `none` is a panic. -/
def txIterator.Cancel {Tx E : Type} (i : txIterator Tx E) : Option (txIterator Tx E) :=
  i.chCancel.close.map fun c => { i with chCancel := c }

/-- The method `txIterator.Error`. -/
def txIterator.Error {Tx E : Type} (i : txIterator Tx E) : Option E := i.err

/-- The method `client.AllTxsForStateURI`, as a function of what
`c.client.AllTxs` returns.  On an error it returns `&txIterator{err: err}`,
a fresh struct whose channel fields keep their zero value; otherwise it returns
`txIter`, whose channels were made at lines 137-138.  The goroutine of lines
146-166, which feeds and closes `txIter.ch`, runs concurrently and is not part
of the embedding. -/
def AllTxsForStateURI {Tx E Stream : Type} (allTxs : Except E Stream) : txIterator Tx E :=
  match allTxs with
  | .error err => { ch := .nilChan, chCancel := .nilChan, err := some err }
  | .ok _ => { ch := .made none, chCancel := .made none, err := none }

/-! ### The keypath-addressed versioned store (package `tree`)

The package is exercised by `tree/tree.badger_test.go`; its implementation is
not among the sources, so the definitions of this section follow the
specification (sections 3, 4.A-4.F and 6) and the expectations of the tests.

A keypath is kept as the list of its components (the parts between
separators); a stored value is kept as its node type and scalar payload, not
as tagged bytes; the ordered key-value store is the list of its entries.  The
iterators read the keys in the order of their flat byte strings
(`Keypath.bytes`); the direct children of a node are read in the order of
their last components, which is the same order among siblings. -/

/-- Modelled from the spec: the scalar value kinds of section 3 (string, bytes,
uint64, int64, float64, bool, null), numeric kinds already canonical; a float64
is carried as its 64-bit pattern. -/
inductive Scalar where
  | string (s : String)
  | bytes (b : List UInt8)
  | uint64 (n : Nat)
  | int64 (i : Int)
  | float64 (bits : Nat)
  | bool (b : Bool)
  | null
  deriving DecidableEq

/-- Modelled from the spec: an in-memory tree value: a scalar, an ordered
sequence (`S` in the tests) or a map (`M`).  A Go map has no order; it is
represented by the list of its entries. -/
inductive TreeValue where
  | scalar (s : Scalar)
  | S (xs : List TreeValue)
  | M (kvs : List (String × TreeValue))

mutual
/-- Decidable equality of tree values. -/
def TreeValue.decEq : (a b : TreeValue) → Decidable (a = b)
  | .scalar a, .scalar b =>
    if h : a = b then isTrue (by rw [h]) else isFalse (by intro e; cases e; exact h rfl)
  | .S a, .S b =>
    match TreeValue.decEqList a b with
    | isTrue h => isTrue (by rw [h])
    | isFalse h => isFalse (by intro e; cases e; exact h rfl)
  | .M a, .M b =>
    match TreeValue.decEqEntries a b with
    | isTrue h => isTrue (by rw [h])
    | isFalse h => isFalse (by intro e; cases e; exact h rfl)
  | .scalar _, .S _ => isFalse nofun
  | .scalar _, .M _ => isFalse nofun
  | .S _, .scalar _ => isFalse nofun
  | .S _, .M _ => isFalse nofun
  | .M _, .scalar _ => isFalse nofun
  | .M _, .S _ => isFalse nofun
/-- Decidable equality of lists of tree values. -/
def TreeValue.decEqList : (a b : List TreeValue) → Decidable (a = b)
  | [], [] => isTrue rfl
  | [], _ :: _ => isFalse nofun
  | _ :: _, [] => isFalse nofun
  | a :: as, b :: bs =>
    match TreeValue.decEq a b, TreeValue.decEqList as bs with
    | isTrue h1, isTrue h2 => isTrue (by rw [h1, h2])
    | isFalse h1, _ => isFalse (by intro e; cases e; exact h1 rfl)
    | _, isFalse h2 => isFalse (by intro e; cases e; exact h2 rfl)
/-- Decidable equality of map entries. -/
def TreeValue.decEqEntries : (a b : List (String × TreeValue)) → Decidable (a = b)
  | [], [] => isTrue rfl
  | [], _ :: _ => isFalse nofun
  | _ :: _, [] => isFalse nofun
  | (k, a) :: as, (l, b) :: bs =>
    if hk : k = l then
      match TreeValue.decEq a b, TreeValue.decEqEntries as bs with
      | isTrue h1, isTrue h2 => isTrue (by rw [hk, h1, h2])
      | isFalse h1, _ => isFalse (by intro e; cases e; exact h1 rfl)
      | _, isFalse h2 => isFalse (by intro e; cases e; exact h2 rfl)
    else isFalse (by intro e; cases e; exact hk rfl)
end

instance : DecidableEq TreeValue := TreeValue.decEq

/-- Modelled from the spec: one component of a keypath: a map key, or the index
of a sequence element (the 8-byte big-endian integer of section 3). -/
inductive Part where
  | index (n : Nat)
  | key (k : String)
  deriving DecidableEq

/-- Modelled from the spec: the collation of components.  Indices sort in
numeric order (section 3), keys in lexicographic order of their characters,
and an index sorts before a key. -/
def Part.enc : Part → ℕ ⊕ₗ List ℕ
  | .index n => toLex (Sum.inl n)
  | .key k => toLex (Sum.inr (k.data.map Char.toNat))

instance : LinearOrder Part :=
  LinearOrder.lift' Part.enc (by
    intro a b h
    cases a with
    | index n =>
      cases b with
      | index m => simpa [Part.enc] using h
      | key k => simp [Part.enc] at h
    | key k =>
      cases b with
      | index m => simp [Part.enc] at h
      | key l =>
        simp only [Part.enc, EmbeddingLike.apply_eq_iff_eq, Sum.inr.injEq] at h
        have hd : k.data = l.data :=
          List.map_injective_iff.mpr
            (fun a b h => by rw [← Char.ofNat_toNat a, ← Char.ofNat_toNat b, h]) h
        rw [String.ext hd])

/-- Modelled from the spec: a keypath, as the list of its components; the empty
keypath is the root.  Lists of components compare lexicographically, so that a
keypath sorts before the keypaths it is a prefix of (the invariant of section
3); `Keypath.bytes` is the flat byte string by which the store orders its
keys. -/
abbrev Keypath := List Part

/-- Modelled from the spec: the components of a byte string, the runs between
its `/` separators. -/
def splitSlash : List Char → List (List Char)
  | [] => [[]]
  | c :: cs =>
    if c = '/' then [] :: splitSlash cs
    else
      match splitSlash cs with
      | [] => [[c]]
      | p :: ps => (c :: p) :: ps

/-- Modelled from the spec: the keypath written as a byte string, such as
`tree.Keypath("data/flox")`; the empty string is the root. -/
def Keypath.ofString (s : String) : Keypath :=
  if s.data = [] then [] else (splitSlash s.data).map fun cs => Part.key (String.mk cs)

/-- Modelled from the spec: `Push(p)`, the keypath `self + "/" + p` (no `/` if
self is empty), section 4.A.  Its components are those of the bytes so
formed. -/
def Keypath.Push (self : Keypath) (p : String) : Keypath :=
  if self = [] then Keypath.ofString p
  else self ++ (splitSlash p.data).map fun cs => Part.key (String.mk cs)

/-- Modelled from the spec: `PushIndex(n)`, section 4.A. -/
def Keypath.PushIndex (self : Keypath) (n : Nat) : Keypath := self ++ [Part.index n]

/-- Modelled from the spec: `StartsWith`, section 4.A: a prefix that ends on a
component boundary. -/
def Keypath.StartsWith (self pre : Keypath) : Bool := decide (pre <+: self)

/-- Modelled from the spec: a version, the opaque 32-byte identifier of section
3, read as a number. -/
abbrev Version := Nat

/-- Modelled from the spec: what the store keeps under a key (sections 3 and
4.B): the node type, with the length for a slice and the payload for a
value. -/
inductive Stored where
  | map
  | slice (len : Nat)
  | value (s : Scalar)
  deriving DecidableEq

/-- Modelled from the spec: one entry of the ordered key-value store, its key
being `version || keypath` (section 6). -/
structure Entry where
  version : Version
  keypath : Keypath
  node : Stored
  deriving DecidableEq

/-- Modelled from the spec: the versioned store, as the entries of its
key-value store. -/
abbrev VersionedDBTree := List Entry

/-- Modelled from the spec: the keys of a store; a key-value store holds one
value per key. -/
def VersionedDBTree.WF (db : VersionedDBTree) : Prop :=
  (db.map fun e => (e.version, e.keypath)).Nodup

/-- Modelled from the spec: writing one key: the entry replaces the one the key
had. -/
def VersionedDBTree.put (db : VersionedDBTree) (ver : Version) (kp : Keypath)
    (node : Stored) : VersionedDBTree :=
  db.filter (fun e => ¬ (e.version = ver ∧ e.keypath = kp)) ++ [⟨ver, kp, node⟩]

/-- Modelled from the spec: the keys of one version with what they hold (all
keys of one version form one range of the store, section 3). -/
def VersionedDBTree.view (db : VersionedDBTree) (ver : Version) : List (Keypath × Stored) :=
  (db.filter fun e => e.version = ver).map fun e => (e.keypath, e.node)

/-- Modelled from the spec: a single `get` on the entries of a version. -/
def lookupNode (es : List (Keypath × Stored)) (kp : Keypath) : Option Stored :=
  (es.find? fun e => e.1 = kp).map fun e => e.2

/-- Modelled from the spec: the keypaths of a version sorted component by
component.  The children of one node come in the order of the store (indices
in numeric order, keys in the order of their bytes); `Value` reads the
children of a node from this list. -/
def sortedKeypaths (es : List (Keypath × Stored)) : List Keypath :=
  (es.map fun e => e.1).insertionSort (· ≤ ·)

/-- Modelled from the spec: the subtree of `kp` as `Value` and the child
iterator read it (section 4.B, a map or slice read is a prefix scan): in the
component order, seek to the first key not below `kp`, then read while the key
starts with `kp`. -/
def scanForward (es : List (Keypath × Stored)) (kp : Keypath) : List Keypath :=
  ((sortedKeypaths es).dropWhile fun q => q < kp).takeWhile fun q => q.StartsWith kp

/-- Modelled from the spec: the 8-byte big-endian encoding of a sequence index
(section 3), the most significant byte first. -/
def be64 (n : Nat) : List Nat :=
  [7, 6, 5, 4, 3, 2, 1, 0].map fun i => n / 256 ^ i % 256

/-- Modelled from the spec: the bytes a component adds to a keypath that is not
empty (section 4.A): `Push` adds `/` (0x2F) and the bytes of the key,
`PushIndex` adds a separator and the eight bytes of the index.  The
specification leaves the byte of the index separator open; it is the parameter
`ixSep`. -/
def Part.bytes (ixSep : Nat) : Part → List Nat
  | .key k => 0x2F :: (utf8 k).map UInt8.toNat
  | .index n => ixSep :: be64 n

/-- Modelled from the spec: the bytes of the components pushed on a keypath
that is not empty. -/
def Keypath.tailBytes (ixSep : Nat) : List Part → List Nat
  | [] => []
  | p :: rest => p.bytes ixSep ++ Keypath.tailBytes ixSep rest

/-- Modelled from the spec: the keypath as the flat byte string the store keeps
(sections 3 and 4.A): the components with their separators, without the `/`
before a key pushed on the empty keypath. -/
def Keypath.bytes (ixSep : Nat) : Keypath → List Nat
  | [] => []
  | .key k :: rest => (utf8 k).map UInt8.toNat ++ Keypath.tailBytes ixSep rest
  | .index n :: rest => ixSep :: be64 n ++ Keypath.tailBytes ixSep rest

/-- Modelled from the spec: the keypaths of a version in the order in which
the ordered key-value store iterates its keys: the lexicographic order of
their byte strings (sections 3 and 4.E). -/
def keysInStoreOrder (ixSep : Nat) (es : List (Keypath × Stored)) : List Keypath :=
  (es.map fun e => e.1).insertionSort fun a b => a.bytes ixSep ≤ b.bytes ixSep

/-- Modelled from the spec: the forward prefix scan of the ordered store
(section 4.A): seek to the first key whose bytes are not below those of `kp`,
then read while the key starts with `kp`. -/
def prefixScan (ixSep : Nat) (es : List (Keypath × Stored)) (kp : Keypath) : List Keypath :=
  ((keysInStoreOrder ixSep es).dropWhile fun q => q.bytes ixSep < kp.bytes ixSep).takeWhile
    fun q => q.StartsWith kp

/-- Modelled from the spec: the reverse prefix scan: from the last key, skip
the keys that sort above `kp` and do not start with it, then read backwards
while the key starts with `kp`. -/
def reversePrefixScan (ixSep : Nat) (es : List (Keypath × Stored)) (kp : Keypath) :
    List Keypath :=
  ((keysInStoreOrder ixSep es).reverse.dropWhile
      fun q => kp.bytes ixSep < q.bytes ixSep ∧ ¬ q.StartsWith kp).takeWhile
    fun q => q.StartsWith kp

/-- Modelled from the spec: the depth-1 scan of `ChildIterator` (section 4.F):
the direct children of `kp`, in keypath order. -/
def childScan (es : List (Keypath × Stored)) (kp : Keypath) : List Keypath :=
  (scanForward es kp).filter fun q => q.length = kp.length + 1

/-- Modelled from the spec: the keys of the map stored at `kp`, in
lexicographic order: the last components of its direct children. -/
def mapKeys (es : List (Keypath × Stored)) (kp : Keypath) : List String :=
  (childScan es kp).filterMap fun q =>
    match q.getLast? with
    | some (.key k) => some k
    | _ => none

/-- All the results when every one is present. -/
def collect {α : Type} : List (Option α) → Option (List α)
  | [] => some []
  | none :: _ => none
  | some a :: rest => (collect rest).map fun as => a :: as

/-- Modelled from the spec: the length of the longest keypath of a version; it
bounds the depth of every stored subtree. -/
def viewDepth (es : List (Keypath × Stored)) : Nat :=
  (es.map fun e => e.1.length).foldr max 0

/-- Modelled from the spec: materialising the subtree stored at `kp` as an
in-memory value (section 4.C): a value from its payload, a slice from its
elements `0 .. len-1`, a map from its direct children in key order.  `fuel`
bounds the depth read; `none` when a node is missing. -/
def materialize (es : List (Keypath × Stored)) : Nat → Keypath → Option TreeValue
  | 0, _ => none
  | fuel + 1, kp =>
    match lookupNode es kp with
    | none => none
    | some (.value s) => some (.scalar s)
    | some (.slice len) =>
      (collect ((List.range len).map fun i => materialize es fuel (kp.PushIndex i))).map
        TreeValue.S
    | some .map =>
      (collect ((mapKeys es kp).map fun k =>
        (materialize es fuel (kp ++ [Part.key k])).map fun c => (k, c))).map TreeValue.M

mutual
/-- Modelled from the spec: the entries a value is stored as under `kp`: a map
or slice node holds its type (and length), its children live at longer
keypaths (section 3): the child of key `k` at `kp.Push(k)`, the element `i` at
`kp.PushIndex(i)`. -/
def encode : Keypath → TreeValue → List (Keypath × Stored)
  | kp, .scalar s => [(kp, .value s)]
  | kp, .S xs => (kp, .slice xs.length) :: encodeElems kp 0 xs
  | kp, .M kvs => (kp, .map) :: encodeEntries kp kvs
/-- Modelled from the spec: the entries of the elements of a sequence, from
index `i` on. -/
def encodeElems : Keypath → Nat → List TreeValue → List (Keypath × Stored)
  | _, _, [] => []
  | kp, i, x :: xs => encode (kp.PushIndex i) x ++ encodeElems kp (i + 1) xs
/-- Modelled from the spec: the entries of the entries of a map. -/
def encodeEntries : Keypath → List (String × TreeValue) → List (Keypath × Stored)
  | _, [] => []
  | kp, (k, v) :: rest => encode (kp.Push k) v ++ encodeEntries kp rest
end

/-- Modelled from the spec: a `DBNode` (section 4.E): the key-value transaction
it holds (here the store as the transaction sees it), the version it reads and
writes, and whether the transaction is read-write. -/
structure DBNode where
  store : VersionedDBTree
  version : Version
  writable : Bool

/-- Modelled from the spec: `StateAtVersion(version, mutable)`: a `DBNode` on a
version of the store. -/
def VersionedDBTree.StateAtVersion (db : VersionedDBTree) (ver : Version) (writable : Bool) :
    DBNode :=
  ⟨db, ver, writable⟩

/-- Modelled from the spec: the entries of the version a node is on. -/
def DBNode.entries (n : DBNode) : List (Keypath × Stored) := n.store.view n.version

/-- Modelled from the spec: the proper prefixes of a keypath, the root first. -/
def Keypath.ancestors (kp : Keypath) : List Keypath :=
  (List.range kp.length).map fun i => kp.take i

/-- Modelled from the spec: `Set(kp, nil, value)` (section 4.C): without a range
the subtree is replaced: the descendants of the target are deleted (section
4.D), the entries of the value are written, and the missing ancestors are
created as maps, so that every key keeps its parent (the tree invariant
of section 3).  A read-only transaction refuses the write. -/
def DBNode.Set (n : DBNode) (kp : Keypath) (v : TreeValue) : Except ErrorKind DBNode :=
  if n.writable then
    let cleared := n.store.filter fun e => ¬ (e.version = n.version ∧ e.keypath.StartsWith kp)
    let parented := kp.ancestors.foldl
      (fun db a =>
        if lookupNode (VersionedDBTree.view db n.version) a = none then
          VersionedDBTree.put db n.version a .map
        else db) cleared
    .ok { n with
      store := (encode kp v).foldl (fun db e => VersionedDBTree.put db n.version e.1 e.2)
        parented }
  else .error .ReadOnly

/-- Modelled from the spec: `Save` commits the transaction (section 4.E): the
store becomes the one the transaction wrote. -/
def DBNode.Save (n : DBNode) : Except ErrorKind VersionedDBTree :=
  if n.writable then .ok n.store else .error .ReadOnly

/-- Modelled from the spec: the bounds of a range against a length `L` (section
4.F, step 1): a negative bound counts from the end.  The end bound 0 after a
negative start stands for the end of the sequence: the range tests of `Value`
read `(-2, 0)` as the last two elements. -/
def rangeIndices (r : Range) (L : Nat) : Int × Int :=
  (if r.1 < 0 then (L : Int) + r.1 else r.1,
   if r.2 < 0 ∨ (r.2 = 0 ∧ r.1 < 0) then (L : Int) + r.2 else r.2)

/-- Modelled from the spec: the ranges a read accepts for a length `L`: the
normalised bounds satisfy `0 <= lo <= hi <= L` (section 4.F, step 2), and the
range starts inside the sequence: scenario S3 and the range tests reject
`[L,L)`. -/
def rangeValid (r : Range) (L : Nat) : Bool :=
  decide (0 ≤ (rangeIndices r L).1 ∧ (rangeIndices r L).1 ≤ (rangeIndices r L).2
    ∧ (rangeIndices r L).2 ≤ (L : Int) ∧ (rangeIndices r L).1 < (L : Int))

/-- Modelled from the spec: the positions `lo .. hi-1` of a list, for the
normalised bounds of a range. -/
def rangeSelect {α : Type} (r : Range) (xs : List α) : List α :=
  (xs.drop (rangeIndices r xs.length).1.toNat).take
    ((rangeIndices r xs.length).2 - (rangeIndices r xs.length).1).toNat

deriving instance DecidableEq for Except

/-- Modelled from the spec: `Value(kp, range?)` (section 4.C), returning
`(value, exists, err)`: `.ok none` when nothing is stored at `kp`.  Without a
range the subtree is materialised.  With a range, a sequence yields its
elements `[lo,hi)` and a map the entries of its keys `[lo,hi)` in sorted order
(section 4.F); an invalid range fails with `InvalidRange`.  The specification
gives range reads for sequences and maps only; on a value the model answers
`WrongNodeType`. -/
def DBNode.Value (n : DBNode) (kp : Keypath) (rng : Option Range) :
    Except ErrorKind (Option TreeValue) :=
  match lookupNode n.entries kp with
  | none => .ok none
  | some node =>
    match rng with
    | none =>
      match materialize n.entries (viewDepth n.entries + 1) kp with
      | some v => .ok (some v)
      | none => .error .NotFound
    | some r =>
      match node with
      | .value _ => .error .WrongNodeType
      | .slice len =>
        if rangeValid r len then
          match collect ((rangeSelect r (List.range len)).map fun i =>
              materialize n.entries (viewDepth n.entries) (kp.PushIndex i)) with
          | some xs => .ok (some (.S xs))
          | none => .error .NotFound
        else .error .InvalidRange
      | .map =>
        if rangeValid r (mapKeys n.entries kp).length then
          match collect ((rangeSelect r (mapKeys n.entries kp)).map fun k =>
              (materialize n.entries (viewDepth n.entries) (kp ++ [Part.key k])).map
                fun c => (k, c)) with
          | some kvs => .ok (some (.M kvs))
          | none => .error .NotFound
        else .error .InvalidRange

/-- Modelled from the spec: the forward `Iterator(kp)` (section 4.F), as the
keypaths it yields, in order: the prefix scan of the version from `kp`, over
the keys in the byte order of the store. -/
def DBNode.Iterator (n : DBNode) (ixSep : Nat) (kp : Keypath) : List Keypath :=
  prefixScan ixSep n.entries kp

/-- Modelled from the spec: `ChildIterator(kp)` (section 4.F), as the keypaths
it yields. -/
def DBNode.ChildIterator (n : DBNode) (kp : Keypath) : List Keypath := childScan n.entries kp

/-- Modelled from the spec: `DepthFirstIterator(kp)` (section 4.F), as the
keypaths it yields: a single pass over the ordered store that meets
descendants before ancestors, the reverse prefix scan from the end of the
subtree of `kp`. -/
def DBNode.DepthFirstIterator (n : DBNode) (ixSep : Nat) (kp : Keypath) : List Keypath :=
  reversePrefixScan ixSep n.entries kp

/-- Modelled from the spec: `CopyVersion(dst, src)`: the range of keys of `src`
is copied under the prefix `dst` (section 3); what `dst` held is deleted. -/
def VersionedDBTree.CopyVersion (db : VersionedDBTree) (dst src : Version) :
    VersionedDBTree :=
  db.filter (fun e => e.version ≠ dst)
    ++ (db.filter fun e => e.version = src).map fun e => { e with version := dst }

/-- Modelled from the spec: the tree invariant of section 3: every non-root
keypath present has its parent present. -/
def treeInvariant (es : List (Keypath × Stored)) : Prop :=
  ∀ q, q ∈ es.map (fun e => e.1) → q ≠ [] → q.dropLast ∈ es.map (fun e => e.1)

/-- A map key that is one keypath component: not empty and without the `/`
separator. -/
def singleComponent (k : String) : Bool :=
  decide (k.data ≠ [] ∧ '/' ∉ k.data)

mutual
/-- The in-memory values the keypath encoding keeps apart: every map has its
entries in ascending key order (the representation of a Go map) and every key
is one component. -/
def TreeValue.storable : TreeValue → Bool
  | .scalar _ => true
  | .S xs => TreeValue.storableList xs
  | .M kvs =>
    decide ((kvs.map fun e => Part.key e.1).Sorted (· < ·)) && TreeValue.storableEntries kvs
/-- Every element is storable. -/
def TreeValue.storableList : List TreeValue → Bool
  | [] => true
  | x :: xs => x.storable && TreeValue.storableList xs
/-- Every key is one component and every value is storable. -/
def TreeValue.storableEntries : List (String × TreeValue) → Bool
  | [] => true
  | (k, v) :: rest => singleComponent k && v.storable && TreeValue.storableEntries rest
end

mutual
/-- The node an in-memory value has at a keypath relative to it: its type, with
the length of a sequence and the payload of a scalar. -/
def nodeAt : TreeValue → List Part → Option Stored
  | .scalar s, [] => some (.value s)
  | .scalar _, _ :: _ => none
  | .S xs, [] => some (.slice xs.length)
  | .S xs, .index i :: r => nodeAtElems xs i r
  | .S _, .key _ :: _ => none
  | .M _, [] => some .map
  | .M kvs, .key k :: r => nodeAtEntries kvs k r
  | .M _, .index _ :: _ => none
/-- The node of the element `i` of a sequence at a relative keypath. -/
def nodeAtElems : List TreeValue → Nat → List Part → Option Stored
  | [], _, _ => none
  | x :: _, 0, r => nodeAt x r
  | _ :: xs, i + 1, r => nodeAtElems xs i r
/-- The node of the entry of a key at a relative keypath. -/
def nodeAtEntries : List (String × TreeValue) → String → List Part → Option Stored
  | [], _, _ => none
  | (k, v) :: rest, key, r => if k = key then nodeAt v r else nodeAtEntries rest key r
end

/-- What a key holds after the entries `es` have been written in order over a
key that held `acc`. -/
def lastWrite (q : Keypath) (acc : Option Stored) (es : List (Keypath × Stored)) :
    Option Stored :=
  es.foldl (fun acc e => if e.1 = q then some e.2 else acc) acc

/-- The first value when there is one, the second otherwise. -/
def orKeep (new old : Option Stored) : Option Stored :=
  match new with
  | some n => some n
  | none => old

instance : DecidablePred VersionedDBTree.WF :=
  fun db => inferInstanceAs
    (Decidable (db.map fun e : Entry => (e.version, e.keypath)).Nodup)

instance : DecidablePred treeInvariant :=
  fun es => inferInstanceAs (Decidable (∀ q, q ∈ es.map (fun e : Keypath × Stored => e.1) →
    q ≠ [] → q.dropLast ∈ es.map (fun e : Keypath × Stored => e.1)))

/-- Modelled from the spec: a key-value store holds one value per key: the
byte strings of the keypaths of a version are distinct. -/
def distinctKeys (ixSep : Nat) (es : List (Keypath × Stored)) : Prop :=
  (es.map fun e => e.1.bytes ixSep).Nodup

instance (ixSep : Nat) : DecidablePred (distinctKeys ixSep) :=
  fun es => inferInstanceAs
    (Decidable (es.map fun e : Keypath × Stored => e.1.bytes ixSep).Nodup)

/-- The subtree of `kp` is one run of the ordered store: every stored keypath
whose bytes lie between those of `kp` and those of a stored keypath that starts
with `kp` starts with `kp` itself. -/
def subtreeContiguous (ixSep : Nat) (es : List (Keypath × Stored)) (kp : Keypath) : Prop :=
  ∀ q ∈ es.map (fun e => e.1), ∀ d ∈ es.map (fun e => e.1),
    kp <+: d → Keypath.bytes ixSep kp ≤ Keypath.bytes ixSep q →
      Keypath.bytes ixSep q ≤ Keypath.bytes ixSep d → kp <+: q

instance (ixSep : Nat) (es : List (Keypath × Stored)) (kp : Keypath) :
    Decidable (subtreeContiguous ixSep es kp) :=
  inferInstanceAs (Decidable (∀ q ∈ es.map (fun e : Keypath × Stored => e.1),
    ∀ d ∈ es.map (fun e : Keypath × Stored => e.1),
      kp <+: d → Keypath.bytes ixSep kp ≤ Keypath.bytes ixSep q →
        Keypath.bytes ixSep q ≤ Keypath.bytes ixSep d → kp <+: q))

/-- The normalisation of a range as section 4.F, step 1, words it:
`lo' = lo<0 ? L+lo : lo`, the same for `hi`. -/
def statedIndices (r : Range) (L : Nat) : Int × Int :=
  (if r.1 < 0 then (L : Int) + r.1 else r.1, if r.2 < 0 then (L : Int) + r.2 else r.2)

/-! ### The fixtures of the tree tests -/

/-- Modelled from the spec: the test helper `SetupVersionedDBTreeWithValue` of
package `testutils` (not among the sources): a fresh store in which the value
has been set at the keypath, and saved, at the default version. -/
def SetupVersionedDBTreeWithValue (kp : Keypath) (v : TreeValue) : VersionedDBTree :=
  match (VersionedDBTree.StateAtVersion [] 0 true).Set kp v with
  | .ok n =>
    match n.Save with
    | .ok db => db
    | .error _ => []
  | .error _ => []

/-- The input of `fixture1`, as `TestVersionedDBTree_Value_MapWithRange` reads
it back with the range `[0,5)`; 987.2 and 321 are written as bit patterns. -/
def fixture1 : TreeValue :=
  .M [("asdf", .S [.scalar (.string "1234"), .scalar (.float64 0x408ed9999999999a),
          .scalar (.uint64 333)]),
      ("flo", .scalar (.float64 0x4074100000000000)),
      ("flox", .S [.scalar (.uint64 65),
          .M [("hey", .scalar (.uint64 321)), ("yup", .scalar (.string "yes"))],
          .scalar (.string "jkjkjkj")]),
      ("floxxx", .scalar (.string "asdf123")),
      ("hello", .M [("xyzzy", .scalar (.uint64 33))])]

/-- The entries of `fixture1` for the keys `flo` and `flox`. -/
def fixture1Middle : List (String × TreeValue) :=
  [("flo", .scalar (.float64 0x4074100000000000)),
   ("flox", .S [.scalar (.uint64 65),
      .M [("hey", .scalar (.uint64 321)), ("yup", .scalar (.string "yes"))],
      .scalar (.string "jkjkjkj")])]

/-- The elements of the input of `fixture3`, as
`TestVersionedDBTree_Value_SliceWithRange` reads them back; 321.23 is written
as its bit pattern. -/
def fixture3Elems : List TreeValue :=
  [.scalar (.uint64 8383),
   .M [("9999", .scalar (.string "hi")), ("vvvv", .scalar (.string "yeah"))],
   .scalar (.float64 0x407413ae147ae148),
   .scalar (.string "hello")]

/-- A map whose key holds the separator. -/
def slashValue : TreeValue := .M [("a/b", .scalar (.uint64 1))]

/-- A map with the keys `a` and `a-b`, the first holding a map with the key
`b`: the byte `-` (0x2D) of the second key is below the separator `/`
(0x2F). -/
def dashValue : TreeValue :=
  .M [("a", .M [("b", .scalar (.uint64 1))]), ("a-b", .scalar (.uint64 2))]

/-- The sequence `S{"a", "b", "c", "d"}` of `TestDBNode_Set_NoRange`. -/
def abcd : TreeValue :=
  .S [.scalar (.string "a"), .scalar (.string "b"), .scalar (.string "c"),
      .scalar (.string "d")]


/-! ### States and patches for ranged writes over other types, and tree equality -/

/-- A string under the key `k`. -/
def textState : Value := .map [("k", .str (utf8 "abc"))]

/-- A number under the key `k`. -/
def numberState : Value := .map [("k", .num 5)]

/-- The patch `.k[1:2] = [9]`. -/
def seqOverTextPatch : Patch := ⟨["k"], some (1, 2), .seq [.num 9] []⟩

/-- The patch `.k[0:0] = 7`. -/
def numberPatch : Patch := ⟨["k"], some (0, 0), .num 7⟩

/-- The patch `.k[0:2] = [9]`. -/
def seqFromStartPatch : Patch := ⟨["k"], some (0, 2), .seq [.num 9] []⟩

/-- Three elements under the key `k` in an array of capacity three. -/
def tightState : Value := .map [("k", .seq [.num 1, .num 2, .num 3] [])]

/-- The patch `.k[1:1] = 9`: the number `9` inserted at position one. -/
def insertPatch : Patch := ⟨["k"], some (1, 1), .num 9⟩

/-- The patch `.k[1:2] = 9`: the element at position one replaced by `9`. -/
def replaceOnePatch : Patch := ⟨["k"], some (1, 2), .num 9⟩

/-- A state with a number where the key path `a/b/c` expects a map. -/
def blockedState : Value := .map [("a", .num 5), ("z", .num 1)]

/-- The patch `.a.b.c = 7`. -/
def deepPatch : Patch := ⟨["a", "b", "c"], none, .num 7⟩

/-- The patch `.a.b.c[2:4] = "xy"`. -/
def deepRangedPatch : Patch := ⟨["a", "b", "c"], some (2, 4), .str (utf8 "xy")⟩

/-- The patch `.a = 1`. -/
def patchA : Patch := ⟨["a"], none, .num 1⟩

/-- The patch `.b = 2`. -/
def patchB : Patch := ⟨["b"], none, .num 2⟩

/-- What a read of a key path shows of the value it reaches without looking
into it: a map shows that it is a map (its entries are read by longer key
paths), any other value shows itself. -/
def Value.shape : Value → Value
  | .map _ => .map []
  | v => v

/-- Equality of states as Go values: the two trees answer every key path
alike.  Both reach a map, or both reach the same value that is not a map, or
both reach nothing.  (A Go map has no entry order, which the association list
of the model has; this relation forgets it.) -/
def sameTree (a b : Value) : Prop :=
  ∀ ks : List String, (a.at? ks).map Value.shape = (b.at? ks).map Value.shape

/-! ## Maps -/

theorem GoMap.find?_assign_same (m : GoMap) (k : String) (v : Value) :
    GoMap.find? (GoMap.assign m k v) k = some v := by
  induction m with
  | nil => simp [GoMap.assign, GoMap.find?]
  | cons e rest ih =>
    obtain ⟨k', v'⟩ := e
    by_cases h : k' = k
    · simp [GoMap.assign, GoMap.find?, h]
    · simp [GoMap.assign, GoMap.find?, h, ih]

theorem GoMap.find?_assign_ne (m : GoMap) (k k' : String) (v : Value) (hne : k' ≠ k) :
    GoMap.find? (GoMap.assign m k v) k' = GoMap.find? m k' := by
  induction m with
  | nil =>
    have : ¬ k = k' := fun e => hne e.symm
    simp [GoMap.assign, GoMap.find?, this]
  | cons e rest ih =>
    obtain ⟨k0, v0⟩ := e
    by_cases h : k0 = k
    · subst h
      simp [GoMap.assign, GoMap.find?, Ne.symm hne]
    · by_cases h' : k0 = k'
      · subst h'
        simp [GoMap.assign, GoMap.find?, h]
      · simp [GoMap.assign, GoMap.find?, h, h', ih]

theorem GoMap.index_of_find? (m : GoMap) (k : String) (v : Value)
    (h : GoMap.find? m k = some v) : GoMap.index m k = v := by
  induction m with
  | nil => simp [GoMap.find?] at h
  | cons e rest ih =>
    obtain ⟨k0, v0⟩ := e
    by_cases hk : k0 = k
    · simp [GoMap.find?, hk] at h
      simp [GoMap.index, hk, h]
    · simp [GoMap.find?, hk] at h
      simp [GoMap.index, hk, ih h]

theorem GoMap.index_of_find?_none (m : GoMap) (k : String)
    (h : GoMap.find? m k = none) : GoMap.index m k = .null := by
  induction m with
  | nil => simp [GoMap.index]
  | cons e rest ih =>
    obtain ⟨k0, v0⟩ := e
    by_cases hk : k0 = k
    · simp [GoMap.find?, hk] at h
    · simp [GoMap.find?, hk] at h
      simp [GoMap.index, hk, ih h]

theorem GoMap.index_assign_same (m : GoMap) (k : String) (v : Value) :
    GoMap.index (GoMap.assign m k v) k = v :=
  GoMap.index_of_find? _ _ _ (GoMap.find?_assign_same m k v)

theorem GoMap.assign_assign (m : GoMap) (k : String) (v w : Value) :
    GoMap.assign (GoMap.assign m k v) k w = GoMap.assign m k w := by
  induction m with
  | nil => simp [GoMap.assign]
  | cons e rest ih =>
    obtain ⟨k0, v0⟩ := e
    by_cases hk : k0 = k
    · simp [GoMap.assign, hk]
    · simp [GoMap.assign, hk, ih]

theorem childMap_assign_map (m : GoMap) (k : String) (c : GoMap) :
    childMap (GoMap.assign m k (.map c)) k = c := by
  simp [childMap, GoMap.index_assign_same]

/-! ## The key walk -/

theorem walkKeys_eq (f : Value → Option Value) (m : GoMap) (key : String) (rest : List String) :
    walkKeys f m key rest = (f (cursor m key rest)).map fun v => place v m key rest := by
  induction rest generalizing m key with
  | nil => simp [walkKeys, cursor, place]
  | cons k ks ih =>
    simp only [walkKeys, cursor, place, ih]
    cases f (cursor (childMap m key) k ks) <;> simp

theorem ResolveState_eq (grow : Nat → Nat → Nat) (state : Value) (p : Patch) :
    ResolveState grow state p
      = (setval grow p (target state p.Keys)).map fun v => (put state v p.Keys, none) := by
  unfold ResolveState
  cases hk : p.Keys with
  | nil => simp [target, put]
  | cons key rest =>
    simp only [walkKeys_eq, target, put]
    cases setval grow p (cursor (rootMap state) key rest) <;> simp

theorem at?_place (v : Value) (m : GoMap) (key : String) (rest : List String) :
    (Value.map (place v m key rest)).at? (key :: rest) = some v := by
  induction rest generalizing m key with
  | nil => simp [place, Value.at?, GoMap.find?_assign_same]
  | cons k ks ih =>
    simp only [place, Value.at?, GoMap.find?_assign_same]
    exact ih _ _

theorem at?_put (state v : Value) (keys : List String) :
    (put state v keys).at? keys = some v := by
  cases keys with
  | nil => simp [put, Value.at?]
  | cons key rest => exact at?_place v _ key rest

theorem cursor_of_at? (m : GoMap) (key : String) (rest : List String) (t : Value)
    (h : (Value.map m).at? (key :: rest) = some t) : cursor m key rest = t := by
  induction rest generalizing m key with
  | nil =>
    simp only [Value.at?] at h
    cases hf : GoMap.find? m key with
    | none => simp [hf] at h
    | some c =>
      simp [hf, Value.at?] at h
      subst h
      exact GoMap.index_of_find? m key c hf
  | cons k ks ih =>
    simp only [Value.at?] at h
    cases hf : GoMap.find? m key with
    | none => simp [hf] at h
    | some c =>
      simp only [hf] at h
      have hi := GoMap.index_of_find? m key c hf
      cases c with
      | map cm =>
        simp only [cursor, childMap, hi]
        exact ih cm k h
      | null => simp [Value.at?] at h
      | bool b => simp [Value.at?] at h
      | num n => simp [Value.at?] at h
      | str s => simp [Value.at?] at h
      | seq a b => simp [Value.at?] at h

theorem target_of_at? (state : Value) (keys : List String) (t : Value)
    (h : state.at? keys = some t) : target state keys = t := by
  cases keys with
  | nil => simpa [Value.at?, target] using h
  | cons key rest =>
    cases state with
    | map m => exact cursor_of_at? m key rest t h
    | null => simp [Value.at?] at h
    | bool b => simp [Value.at?] at h
    | num n => simp [Value.at?] at h
    | str s => simp [Value.at?] at h
    | seq a b => simp [Value.at?] at h

theorem place_place (v w : Value) (m : GoMap) (key : String) (rest : List String) :
    place w (place v m key rest) key rest = place w m key rest := by
  induction rest generalizing m key with
  | nil => simp [place, GoMap.assign_assign]
  | cons k ks ih =>
    simp only [place, childMap_assign_map, GoMap.assign_assign, ih]

theorem put_put (state v w : Value) (keys : List String) :
    put (put state v keys) w keys = put state w keys := by
  cases keys with
  | nil => simp [put]
  | cons key rest => simp [put, rootMap, place_place]

theorem at?_nonmap_cons (c : Value) (q : String) (qs : List String)
    (hc : ∀ cm, c ≠ .map cm) : c.at? (q :: qs) = none := by
  cases c with
  | map cm => exact absurd rfl (hc cm)
  | null => simp [Value.at?]
  | bool b => simp [Value.at?]
  | num n => simp [Value.at?]
  | str s => simp [Value.at?]
  | seq a b => simp [Value.at?]

theorem at?_childMap (m : GoMap) (key q : String) (qs : List String) :
    (Value.map (childMap m key)).at? (q :: qs) = (Value.map m).at? (key :: q :: qs) := by
  cases hf : GoMap.find? m key with
  | none =>
    simp [childMap, GoMap.index_of_find?_none m key hf, Value.at?, hf, GoMap.find?]
  | some c =>
    have hi := GoMap.index_of_find? m key c hf
    cases c with
    | map cm => simp [childMap, hi, Value.at?, hf]
    | null => simp [childMap, hi, Value.at?, hf, GoMap.find?]
    | bool b => simp [childMap, hi, Value.at?, hf, GoMap.find?]
    | num n => simp [childMap, hi, Value.at?, hf, GoMap.find?]
    | str s => simp [childMap, hi, Value.at?, hf, GoMap.find?]
    | seq a b => simp [childMap, hi, Value.at?, hf, GoMap.find?]

theorem at?_place_other (v : Value) (m : GoMap) (key : String) (rest Q : List String)
    (h1 : ¬ Q <+: key :: rest) (h2 : ¬ key :: rest <+: Q) :
    (Value.map (place v m key rest)).at? Q = (Value.map m).at? Q := by
  induction rest generalizing m key Q with
  | nil =>
    cases Q with
    | nil => exact absurd List.nil_prefix h1
    | cons q qs =>
      have hq : q ≠ key := by
        intro e
        apply h2
        rw [e]
        exact List.cons_prefix_cons.mpr ⟨rfl, List.nil_prefix⟩
      simp [place, Value.at?, GoMap.find?_assign_ne m key q v hq]
  | cons k ks ih =>
    cases Q with
    | nil => exact absurd List.nil_prefix h1
    | cons q qs =>
      by_cases hq : q = key
      · subst hq
        cases qs with
        | nil =>
          exact absurd (List.cons_prefix_cons.mpr ⟨rfl, List.nil_prefix⟩) h1
        | cons q' qs' =>
          have h1' : ¬ q' :: qs' <+: k :: ks := fun h =>
            h1 (List.cons_prefix_cons.mpr ⟨rfl, h⟩)
          have h2' : ¬ k :: ks <+: q' :: qs' := fun h =>
            h2 (List.cons_prefix_cons.mpr ⟨rfl, h⟩)
          have := ih (childMap m q) k (q' :: qs') h1' h2'
          rw [at?_childMap] at this
          rw [← this]
          simp [place, Value.at?, GoMap.find?_assign_same]
      · simp [place, Value.at?, GoMap.find?_assign_ne m key q _ hq]

theorem at?_put_other (state v : Value) (K Q : List String)
    (h1 : ¬ Q <+: K) (h2 : ¬ K <+: Q) :
    (put state v K).at? Q = state.at? Q := by
  cases K with
  | nil => exact absurd List.nil_prefix h2
  | cons key rest =>
    cases Q with
    | nil => exact absurd List.nil_prefix h1
    | cons q qs =>
      simp only [put]
      rw [at?_place_other v _ key rest (q :: qs) h1 h2]
      cases state with
      | map m => simp [rootMap]
      | null => simp [rootMap, Value.at?, GoMap.find?]
      | bool b => simp [rootMap, Value.at?, GoMap.find?]
      | num n => simp [rootMap, Value.at?, GoMap.find?]
      | str s => simp [rootMap, Value.at?, GoMap.find?]
      | seq a b => simp [rootMap, Value.at?, GoMap.find?]

theorem setval_noRange (grow : Nat → Nat → Nat) (p : Patch) (cur : Value)
    (h : p.Range = none) : setval grow p cur = some p.Val := by
  simp [setval, h]

theorem ResolveState_noRange (grow : Nat → Nat → Nat) (state : Value) (p : Patch)
    (h : p.Range = none) :
    ResolveState grow state p = some (put state p.Val p.Keys, none) := by
  rw [ResolveState_eq, setval_noRange grow p _ h]
  rfl

/-! ## Strings and slices -/

theorem spliceString_inbounds (s v : List UInt8) (a b : Nat) (hab : a ≤ b)
    (hb : b ≤ s.length) :
    spliceString s ((a : Int), (b : Int)) v = some (.str (s.take a ++ v ++ s.drop b)) := by
  have h1 : ¬ ((s.length : Int) < (b : Int)) := by omega
  have h2 : (a : Int) ≤ (s.length : Int) := by omega
  have h3 : (b : Int) ≤ (s.length : Int) := by omega
  simp [spliceString, strUpto, strSuffix, h1, h2, h3]

theorem goAppend_out_len (grow : Nat → Nat → Nat) (s : Slice) (ys : List Value) :
    (goAppend grow s ys).out.len = s.len + ys.length := by
  unfold goAppend
  split <;> rfl

theorem goAppend_out_take (grow : Nat → Nat → Nat) (s : Slice) (ys : List Value)
    (hs : s.len ≤ s.arr.length) :
    (goAppend grow s ys).out.arr.take (goAppend grow s ys).out.len
      = s.arr.take s.len ++ ys := by
  have hl : (s.arr.take s.len ++ ys).length = s.len + ys.length := by
    simp [List.length_take, hs]
  unfold goAppend
  split
  · simp only
    rw [← hl, List.take_left']
    rfl
  · simp only
    rw [← hl, List.take_left']
    rfl

theorem goAppend_toValue (grow : Nat → Nat → Nat) (s : Slice) (ys : List Value)
    (hs : s.len ≤ s.arr.length) :
    ∃ spare, (goAppend grow s ys).out.toValue = .seq (s.arr.take s.len ++ ys) spare :=
  ⟨(goAppend grow s ys).out.arr.drop (goAppend grow s ys).out.len,
    by simp only [Slice.toValue, goAppend_out_take grow s ys hs]⟩

theorem goAppend_out_le (grow : Nat → Nat → Nat) (s : Slice) (ys : List Value)
    (hs : s.len ≤ s.arr.length) :
    (goAppend grow s ys).out.len ≤ (goAppend grow s ys).out.arr.length := by
  unfold goAppend
  split
  · rename_i h
    simp [List.length_take, hs]
  · simp [List.length_take, hs]

theorem goAppend_backing_length (grow : Nat → Nat → Nat) (s : Slice) (ys : List Value)
    (hs : s.len ≤ s.arr.length) :
    (goAppend grow s ys).backing.length = s.arr.length := by
  unfold goAppend
  split
  · rename_i h
    simp [List.length_take, hs]
    omega
  · rfl

theorem goAppend_backing_fresh (grow : Nat → Nat → Nat) (s : Slice) (ys : List Value)
    (h : s.arr.length < s.len + ys.length) : (goAppend grow s ys).backing = s.arr := by
  have : ¬ (s.len + ys.length ≤ s.arr.length) := by omega
  simp [goAppend, this]

theorem goAppend_backing_drop (grow : Nat → Nat → Nat) (s : Slice) (ys : List Value)
    (hs : s.len ≤ s.arr.length) (b : Nat) (hb : s.len + ys.length ≤ b) :
    (goAppend grow s ys).backing.drop b = s.arr.drop b := by
  unfold goAppend
  split
  · rename_i h
    simp only
    have hl : (s.arr.take s.len ++ ys).length = s.len + ys.length := by
      simp [List.length_take, hs]
    have e1 : (s.arr.take s.len ++ ys ++ s.arr.drop (s.len + ys.length)).drop
        (s.len + ys.length) = s.arr.drop (s.len + ys.length) := List.drop_left' hl
    obtain ⟨d, rfl⟩ : ∃ d, b = (s.len + ys.length) + d := ⟨b - (s.len + ys.length), by omega⟩
    have key : ∀ l : List Value,
        l.drop ((s.len + ys.length) + d) = (l.drop (s.len + ys.length)).drop d :=
      fun l => by simp [List.drop_drop]
    rw [key, key, e1]
  · rfl

theorem spliceSlice_inbounds (grow : Nat → Nat → Nat) (vis spare elems : List Value)
    (a b : Nat) (hab : a ≤ b) (hb : b ≤ vis.length) :
    ∃ tail spare',
      spliceSlice grow ⟨vis ++ spare, vis.length⟩ ((a : Int), (b : Int)) elems
        = some (.seq (vis.take a ++ elems ++ tail) spare')
      ∧ tail.length = vis.length - b
      ∧ ((vis.length + spare.length < a + elems.length ∨ a + elems.length ≤ b) →
          tail = vis.drop b) := by
  have h1 : ¬ ((vis.length : Int) < (b : Int)) := by omega
  have h2 : (a : Int) ≤ ((vis ++ spare).length : Int) := by
    simp only [List.length_append]; omega
  have h3 : (b : Int) ≤ (vis.length : Int) := by omega
  have hx0 : (⟨vis ++ spare, a⟩ : Slice).len ≤ (⟨vis ++ spare, a⟩ : Slice).arr.length := by
    simp only [List.length_append]; omega
  have hta : (vis ++ spare).take a = vis.take a := by
    rw [List.take_append_of_le_length (by omega)]
  obtain ⟨sp, hsp⟩ := goAppend_toValue grow (goAppend grow ⟨vis ++ spare, a⟩ elems).out
    (((goAppend grow ⟨vis ++ spare, a⟩ elems).backing.take vis.length).drop b)
    (goAppend_out_le grow _ elems hx0)
  refine ⟨((goAppend grow ⟨vis ++ spare, a⟩ elems).backing.take vis.length).drop b, sp,
    ?_, ?_, ?_⟩
  · simp only [spliceSlice, Slice.upto, Slice.suffix, h1, h2, h3, if_false, if_true,
      Int.toNat_ofNat, Int.ofNat_zero_le, and_self, true_and, Option.some_bind, Option.map_some', Option.bind_eq_bind]
    rw [hsp, goAppend_out_take grow _ elems hx0]
    simp only [hta]
  · have := goAppend_backing_length grow ⟨vis ++ spare, a⟩ elems hx0
    simp only [List.length_drop, List.length_take, this, List.length_append]
    omega
  · intro h
    rcases h with h | h
    · rw [goAppend_backing_fresh grow ⟨vis ++ spare, a⟩ elems
        (by simp only [List.length_append]; omega)]
      simp
    · rw [List.drop_take, goAppend_backing_drop grow ⟨vis ++ spare, a⟩ elems hx0 b h,
        ← List.drop_take, List.take_left']
      rfl

/-! ## Ranged writes at the target of a key path -/

theorem resolveState_seq_core (grow : Nat → Nat → Nat) (state : Value) (p : Patch)
    (vis spare : List Value) (lo hi : Int)
    (ht : state.at? p.Keys = some (.seq vis spare)) (hs : ∀ s, p.Val ≠ .str s)
    (hr : p.Range = some (lo, hi)) (h0 : 0 ≤ lo) (h1 : lo ≤ hi) (h2 : hi ≤ vis.length) :
    ∃ tail spare',
      ResolveState grow state p
        = some (put state
            (.seq (vis.take lo.toNat
              ++ (match p.Val with
                  | .seq R _ => R
                  | v => [v]) ++ tail) spare') p.Keys, none)
      ∧ tail.length = vis.length - hi.toNat
      ∧ ((vis.length + spare.length
            < lo.toNat + (match p.Val with
                          | .seq R _ => R
                          | v => [v]).length
          ∨ lo.toNat + (match p.Val with
                        | .seq R _ => R
                        | v => [v]).length ≤ hi.toNat) →
          tail = vis.drop hi.toNat) := by
  obtain ⟨a, rfl⟩ := Int.eq_ofNat_of_zero_le h0
  obtain ⟨b, rfl⟩ := Int.eq_ofNat_of_zero_le (le_trans h0 h1)
  have hab : a ≤ b := by omega
  have hb : b ≤ vis.length := by omega
  obtain ⟨tail, spare', he, hl, hno⟩ :=
    spliceSlice_inbounds grow vis spare
      (match p.Val with
       | .seq R _ => R
       | v => [v]) a b hab hb
  refine ⟨tail, spare', ?_, by simpa using hl, by simpa using hno⟩
  rw [ResolveState_eq, target_of_at? state p.Keys _ ht]
  have hset : setval grow p (.seq vis spare)
      = spliceSlice grow ⟨vis ++ spare, vis.length⟩ ((a : Int), (b : Int))
          (match p.Val with
           | .seq R _ => R
           | v => [v]) := by
    simp only [setval, hr]
    cases hv : p.Val with
    | str s => exact absurd hv (hs s)
    | null => simp [setvalRange, Value.toSlice]
    | bool x => simp [setvalRange, Value.toSlice]
    | num n => simp [setvalRange, Value.toSlice]
    | seq R rs => simp [setvalRange, Value.toSlice]
    | map m => simp [setvalRange, Value.toSlice]
  rw [hset, he]
  simp

theorem resolveState_ranged_seq (grow : Nat → Nat → Nat) (state : Value) (p : Patch)
    (vis spare R rs : List Value) (lo hi : Int)
    (ht : state.at? p.Keys = some (.seq vis spare)) (hv : p.Val = .seq R rs)
    (hr : p.Range = some (lo, hi)) (h0 : 0 ≤ lo) (h1 : lo ≤ hi) (h2 : hi ≤ vis.length) :
    ∃ st' tail spare',
      ResolveState grow state p = some (st', none)
      ∧ st'.at? p.Keys = some (.seq (vis.take lo.toNat ++ R ++ tail) spare')
      ∧ tail.length = vis.length - hi.toNat
      ∧ ((vis.length + spare.length < lo.toNat + R.length ∨ lo.toNat + R.length ≤ hi.toNat) →
          tail = vis.drop hi.toNat) := by
  obtain ⟨tail, spare', he, hl, hno⟩ := resolveState_seq_core grow state p vis spare lo hi ht
    (by intro s; rw [hv]; exact nofun) hr h0 h1 h2
  rw [hv] at he hno
  exact ⟨_, tail, spare', he, at?_put _ _ _, hl, hno⟩

/-- Without spare capacity reaching past the replacement, or with a replacement
no longer than the range, the ranged write is the list splice. -/
theorem resolveState_splice_of_no_overlap (grow : Nat → Nat → Nat) (state : Value)
    (p : Patch) (vis spare R rs : List Value) (lo hi : Int)
    (ht : state.at? p.Keys = some (.seq vis spare)) (hv : p.Val = .seq R rs)
    (hr : p.Range = some (lo, hi)) (h0 : 0 ≤ lo) (h1 : lo ≤ hi) (h2 : hi ≤ vis.length)
    (hno : vis.length + spare.length < lo.toNat + R.length ∨ lo.toNat + R.length ≤ hi.toNat) :
    ∃ st' spare',
      ResolveState grow state p = some (st', none)
      ∧ st'.at? p.Keys = some (.seq (vis.take lo.toNat ++ R ++ vis.drop hi.toNat) spare') := by
  obtain ⟨st', tail, spare', he, hat, _, ht'⟩ :=
    resolveState_ranged_seq grow state p vis spare R rs lo hi ht hv hr h0 h1 h2
  rw [ht' hno] at hat
  exact ⟨st', spare', he, hat⟩

theorem spliceSlice_isSome_iff (grow : Nat → Nat → Nat) (s : Slice) (lo hi : Int)
    (elems : List Value) :
    (spliceSlice grow s (lo, hi) elems).isSome
      ↔ (0 ≤ lo ∧ lo ≤ (s.arr.length : Int) ∧ 0 ≤ hi) := by
  by_cases hlo : 0 ≤ lo ∧ lo ≤ (s.arr.length : Int)
  · by_cases hhi : (s.len : Int) < hi
    · have : 0 ≤ hi := by omega
      simp [spliceSlice, Slice.upto, hlo, hhi, this]
    · have hle : hi ≤ (s.len : Int) := by omega
      by_cases h0 : 0 ≤ hi
      · simp [spliceSlice, Slice.upto, Slice.suffix, hlo, hhi, h0, hle]
      · simp [spliceSlice, Slice.upto, Slice.suffix, hlo, hhi, h0]
  · have hn : ¬ (0 ≤ lo ∧ lo ≤ (s.arr.length : Int) ∧ 0 ≤ hi) := fun h => hlo ⟨h.1, h.2.1⟩
    have : spliceSlice grow s (lo, hi) elems = none := by
      simp only [spliceSlice, Slice.upto, hlo, if_false]
      split <;> rfl
    simp [this, hn]

theorem resolveState_err_nil (grow : Nat → Nat → Nat) (state : Value) (p : Patch)
    (r : Result) (h : ResolveState grow state p = some r) : r.2 = none := by
  rw [ResolveState_eq] at h
  cases hs : setval grow p (target state p.Keys) with
  | none => simp [hs] at h
  | some v =>
    simp [hs] at h
    rw [← h]

theorem resolveState_ranged_seq_returns_iff (grow : Nat → Nat → Nat) (state : Value)
    (p : Patch) (vis spare : List Value) (lo hi : Int)
    (ht : state.at? p.Keys = some (.seq vis spare)) (hr : p.Range = some (lo, hi)) :
    (ResolveState grow state p).isSome
      ↔ ((∃ s, p.Val = .str s)
          ∨ (0 ≤ lo ∧ lo ≤ ((vis.length + spare.length : Nat) : Int) ∧ 0 ≤ hi)) := by
  rw [ResolveState_eq, target_of_at? state p.Keys _ ht, Option.isSome_map']
  simp only [setval, hr]
  have key : ∀ elems : List Value,
      (spliceSlice grow (Value.seq vis spare).toSlice (lo, hi) elems).isSome
        ↔ (0 ≤ lo ∧ lo ≤ ((vis.length + spare.length : Nat) : Int) ∧ 0 ≤ hi) := by
    intro elems
    rw [spliceSlice_isSome_iff]
    simp [Value.toSlice]
  cases hv : p.Val with
  | str s => simp [setvalRange]
  | null => simpa [setvalRange] using key [.null]
  | bool x => simpa [setvalRange] using key [.bool x]
  | num n => simpa [setvalRange] using key [.num n]
  | seq R rs => simpa [setvalRange] using key R
  | map m => simpa [setvalRange] using key [.map m]

theorem resolveState_drop_tail (grow : Nat → Nat → Nat) (state : Value) (p : Patch)
    (vis spare R rs : List Value) (lo hi : Int)
    (ht : state.at? p.Keys = some (.seq vis spare)) (hv : p.Val = .seq R rs)
    (hr : p.Range = some (lo, hi)) (h0 : 0 ≤ lo) (h1 : lo ≤ vis.length)
    (h2 : (vis.length : Int) < hi) :
    ∃ st' spare',
      ResolveState grow state p = some (st', none)
      ∧ st'.at? p.Keys = some (.seq (vis.take lo.toNat ++ R) spare') := by
  obtain ⟨a, rfl⟩ := Int.eq_ofNat_of_zero_le h0
  have ha : a ≤ vis.length := by omega
  have hx0 : (⟨vis ++ spare, a⟩ : Slice).len ≤ (⟨vis ++ spare, a⟩ : Slice).arr.length := by
    simp only [List.length_append]; omega
  obtain ⟨sp, hsp⟩ := goAppend_toValue grow ⟨vis ++ spare, a⟩ R hx0
  have hta : (vis ++ spare).take a = vis.take a := by
    rw [List.take_append_of_le_length ha]
  have hcap : (a : Int) ≤ ((vis ++ spare).length : Int) := by
    simp only [List.length_append]; omega
  refine ⟨put state (.seq (vis.take a ++ R) sp) p.Keys, sp, ?_, at?_put _ _ _⟩
  rw [ResolveState_eq, target_of_at? state p.Keys _ ht]
  simp only [setval, hr, hv, setvalRange, Value.toSlice, spliceSlice, h2, if_true,
    Slice.upto, hcap, Int.ofNat_zero_le, and_self, Option.map_some', hsp, hta,
    Int.toNat_ofNat]

/-- A lower bound beyond the capacity: `s[:5]` on a slice of capacity two
panics. -/
theorem resolveState_panics_past_capacity :
    ResolveState exactFit shortState ⟨["k"], some (5, 5), .seq [.num 9] []⟩ = none := by
  decide

/-- Scenario S2 on an array without spare capacity: `[1,2,3,4]` with range
`[1,3)` and value `[5,6,7,8]` gives `[1,5,6,7,8,4]`. -/
theorem resolveState_middle_grow_exact :
    (ResolveState exactFit sliceState slicePatch).bind (fun r => r.1.at? slicePatch.Keys)
      = some (.seq [.num 1, .num 5, .num 6, .num 7, .num 8, .num 4] []) := by
  decide

/-! ## Negative bounds, ranges past the end, aliasing -/

theorem spliceString_negative (s v : List UInt8) (lo hi : Int) (h : lo < 0 ∨ hi < 0) :
    spliceString s (lo, hi) v = none := by
  by_cases hlo : lo < 0
  · have h1 : ¬ (0 ≤ lo ∧ lo ≤ (s.length : Int)) := by omega
    simp only [spliceString, strUpto, h1, if_false]
    split <;> rfl
  · have hhi : hi < 0 := by omega
    have h1 : ¬ ((s.length : Int) < hi) := by omega
    have h2 : ¬ (0 ≤ hi ∧ hi ≤ (s.length : Int)) := by omega
    simp only [spliceString, strSuffix, h1, h2, if_false]
    cases strUpto s lo <;> rfl

theorem spliceString_overrun (s v : List UInt8) (a : Nat) (hi : Int) (ha : a ≤ s.length)
    (hhi : (s.length : Int) < hi) :
    spliceString s ((a : Int), hi) v = some (.str (s.take a ++ v)) := by
  have h2 : (a : Int) ≤ (s.length : Int) := by omega
  simp [spliceString, strUpto, hhi, h2]

theorem resolveState_string_drop_tail (grow : Nat → Nat → Nat) (state : Value) (p : Patch)
    (s v : List UInt8) (lo hi : Int)
    (ht : state.at? p.Keys = some (.str s)) (hv : p.Val = .str v)
    (hr : p.Range = some (lo, hi)) (h0 : 0 ≤ lo) (h1 : lo ≤ s.length)
    (h2 : (s.length : Int) < hi) :
    ∃ st', ResolveState grow state p = some (st', none)
      ∧ st'.at? p.Keys = some (.str (s.take lo.toNat ++ v)) := by
  obtain ⟨a, rfl⟩ := Int.eq_ofNat_of_zero_le h0
  refine ⟨put state (.str (s.take a ++ v)) p.Keys, ?_, at?_put _ _ _⟩
  rw [ResolveState_eq, target_of_at? state p.Keys _ ht]
  simp only [setval, hr, hv, setvalRange]
  rw [spliceString_overrun s v a hi (by omega) h2]
  simp

theorem resolveState_string_negative (grow : Nat → Nat → Nat) (state : Value) (p : Patch)
    (s v : List UInt8) (lo hi : Int)
    (ht : state.at? p.Keys = some (.str s)) (hv : p.Val = .str v)
    (hr : p.Range = some (lo, hi)) (h : lo < 0 ∨ hi < 0) :
    ResolveState grow state p = none := by
  rw [ResolveState_eq, target_of_at? state p.Keys _ ht]
  simp only [setval, hr, hv, setvalRange]
  rw [spliceString_negative s v lo hi h]
  rfl

theorem resolveState_seq_negative (grow : Nat → Nat → Nat) (state : Value) (p : Patch)
    (vis spare : List Value) (lo hi : Int)
    (ht : state.at? p.Keys = some (.seq vis spare)) (hv : ∀ s, p.Val ≠ .str s)
    (hr : p.Range = some (lo, hi)) (h : lo < 0 ∨ hi < 0) :
    ResolveState grow state p = none := by
  have hiff := resolveState_ranged_seq_returns_iff grow state p vis spare lo hi ht hr
  cases hres : ResolveState grow state p with
  | none => rfl
  | some r =>
    rw [hres] at hiff
    rcases hiff.mp rfl with ⟨s, hs⟩ | ⟨h0, _, h2⟩
    · exact absurd hs (hv s)
    · omega

/-! ## The store: what `encode` writes -/

theorem splitSlash_single (cs : List Char) (h : '/' ∉ cs) : splitSlash cs = [cs] := by
  induction cs with
  | nil => rfl
  | cons c cs ih =>
    have hc : c ≠ '/' := fun e => h (by simp [e])
    have hcs : '/' ∉ cs := fun e => h (by simp [e])
    simp [splitSlash, hc, ih hcs]

theorem push_single (kp : Keypath) (k : String) (h : singleComponent k = true) :
    kp.Push k = kp ++ [Part.key k] := by
  simp only [singleComponent, decide_eq_true_eq] at h
  obtain ⟨hne, hs⟩ := h
  unfold Keypath.Push Keypath.ofString
  split
  · rename_i hkp
    simp [hkp, hne, splitSlash_single _ hs]
  · simp [splitSlash_single _ hs]

theorem lastWrite_append (q : Keypath) (acc : Option Stored) (as bs : List (Keypath × Stored)) :
    lastWrite q acc (as ++ bs) = lastWrite q (lastWrite q acc as) bs := by
  simp [lastWrite, List.foldl_append]

theorem lastWrite_of_not_mem (q : Keypath) (acc : Option Stored) (es : List (Keypath × Stored))
    (h : ∀ e ∈ es, e.1 ≠ q) : lastWrite q acc es = acc := by
  induction es generalizing acc with
  | nil => rfl
  | cons e es ih =>
    have he : e.1 ≠ q := h e (by simp)
    simp only [lastWrite, List.foldl_cons, he, if_false]
    exact ih acc (fun e' he' => h e' (by simp [he']))

theorem push_startsWith (kp : Keypath) (k : String) : kp <+: kp.Push k := by
  unfold Keypath.Push
  split
  · rename_i h
    rw [h]
    exact List.nil_prefix
  · exact List.prefix_append _ _

mutual
theorem encode_startsWith : ∀ (v : TreeValue) (kp : Keypath) (e : Keypath × Stored),
    e ∈ encode kp v → kp <+: e.1
  | .scalar s, kp, e, h => by
    simp only [encode, List.mem_singleton] at h
    rw [h]
  | .S xs, kp, e, h => by
    simp only [encode, List.mem_cons] at h
    rcases h with h | h
    · rw [h]
    · exact encodeElems_startsWith xs kp 0 e h
  | .M kvs, kp, e, h => by
    simp only [encode, List.mem_cons] at h
    rcases h with h | h
    · rw [h]
    · exact encodeEntries_startsWith kvs kp e h
theorem encodeElems_startsWith : ∀ (xs : List TreeValue) (kp : Keypath) (i : Nat)
    (e : Keypath × Stored), e ∈ encodeElems kp i xs → kp <+: e.1
  | [], kp, i, e, h => by simp [encodeElems] at h
  | x :: xs, kp, i, e, h => by
    simp only [encodeElems, List.mem_append] at h
    rcases h with h | h
    · exact (List.prefix_append kp [Part.index i]).trans (encode_startsWith x _ e h)
    · exact encodeElems_startsWith xs kp (i + 1) e h
theorem encodeEntries_startsWith : ∀ (kvs : List (String × TreeValue)) (kp : Keypath)
    (e : Keypath × Stored), e ∈ encodeEntries kp kvs → kp <+: e.1
  | [], kp, e, h => by simp [encodeEntries] at h
  | (k, v) :: rest, kp, e, h => by
    simp only [encodeEntries, List.mem_append] at h
    rcases h with h | h
    · exact (push_startsWith kp k).trans (encode_startsWith v _ e h)
    · exact encodeEntries_startsWith rest kp e h
end

theorem lastWrite_encode_outside (v : TreeValue) (kp q : Keypath) (acc : Option Stored)
    (h : ¬ kp <+: q) : lastWrite q acc (encode kp v) = acc :=
  lastWrite_of_not_mem q acc _ fun e he heq => h (heq ▸ encode_startsWith v kp e he)


theorem encodeElems_proper (xs : List TreeValue) (kp : Keypath) (i : Nat)
    (e : Keypath × Stored) (h : e ∈ encodeElems kp i xs) : kp.length < e.1.length := by
  induction xs generalizing i with
  | nil => simp [encodeElems] at h
  | cons x xs ih =>
    simp only [encodeElems, List.mem_append] at h
    rcases h with h | h
    · have := (encode_startsWith x _ e h).length_le
      simp [Keypath.PushIndex] at this
      omega
    · exact ih (i + 1) h

theorem encodeEntries_proper (kvs : List (String × TreeValue)) (kp : Keypath)
    (e : Keypath × Stored) (hv : TreeValue.storableEntries kvs = true)
    (h : e ∈ encodeEntries kp kvs) : kp.length < e.1.length := by
  induction kvs with
  | nil => simp [encodeEntries] at h
  | cons kv rest ih =>
    obtain ⟨k, v⟩ := kv
    simp only [TreeValue.storableEntries, Bool.and_eq_true] at hv
    simp only [encodeEntries, List.mem_append] at h
    rcases h with h | h
    · have := (encode_startsWith v _ e h).length_le
      rw [push_single kp k hv.1.1] at this
      simp at this
      omega
    · exact ih hv.2 h

theorem not_prefix_of_part_ne (kp : Keypath) (a b : Part) (r : List Part) (h : a ≠ b) :
    ¬ (kp ++ [a]) <+: (kp ++ b :: r) := by
  intro hp
  rw [List.prefix_append_right_inj] at hp
  exact h (List.cons_prefix_cons.mp hp).1

theorem nodeAtEntries_of_not_mem (kvs : List (String × TreeValue)) (k : String) (r : List Part)
    (h : k ∉ kvs.map fun e => e.1) : nodeAtEntries kvs k r = none := by
  induction kvs with
  | nil => rfl
  | cons e rest ih =>
    obtain ⟨k0, v0⟩ := e
    simp only [List.map_cons, List.mem_cons, not_or] at h
    simp only [nodeAtEntries, Ne.symm h.1, if_false]
    exact ih h.2

theorem orKeep_none (acc : Option Stored) : orKeep none acc = acc := rfl

mutual
theorem lastWrite_encode : ∀ (v : TreeValue) (kp : Keypath) (r : List Part)
    (acc : Option Stored), v.storable = true →
    lastWrite (kp ++ r) acc (encode kp v) = orKeep (nodeAt v r) acc
  | .scalar s, kp, r, acc, _ => by
    cases r with
    | nil => simp [encode, lastWrite, nodeAt, orKeep]
    | cons p r => simp [encode, lastWrite, nodeAt, orKeep]
  | .S xs, kp, r, acc, hv => by
    simp only [TreeValue.storable] at hv
    cases r with
    | nil =>
      simp only [encode, List.append_nil, nodeAt, orKeep]
      have : lastWrite kp acc ((kp, Stored.slice xs.length) :: encodeElems kp 0 xs)
          = lastWrite kp (some (Stored.slice xs.length)) (encodeElems kp 0 xs) := by
        simp [lastWrite]
      rw [this]
      apply lastWrite_of_not_mem
      intro e he heq
      have hp := encodeElems_proper xs kp 0 e he
      rw [heq] at hp
      exact Nat.lt_irrefl _ hp
    | cons p r =>
      have hne : kp ≠ kp ++ p :: r := by
        intro e
        have := congrArg List.length e
        simp at this
      have : lastWrite (kp ++ p :: r) acc ((kp, Stored.slice xs.length) :: encodeElems kp 0 xs)
          = lastWrite (kp ++ p :: r) acc (encodeElems kp 0 xs) := by
        simp [lastWrite, hne]
      rw [encode, this, lastWrite_encodeElems xs kp 0 p r acc hv]
      cases p with
      | index j => simp [nodeAt]
      | key k => simp [nodeAt, orKeep]
  | .M kvs, kp, r, acc, hv => by
    simp only [TreeValue.storable, Bool.and_eq_true, decide_eq_true_eq] at hv
    have hnd : (kvs.map fun e => e.1).Nodup := by
      have h1 := hv.1.nodup
      exact (List.Nodup.of_map (fun k : String => Part.key k) (by simpa using h1))
    cases r with
    | nil =>
      simp only [encode, List.append_nil, nodeAt, orKeep]
      have : lastWrite kp acc ((kp, Stored.map) :: encodeEntries kp kvs)
          = lastWrite kp (some Stored.map) (encodeEntries kp kvs) := by
        simp [lastWrite]
      rw [this]
      apply lastWrite_of_not_mem
      intro e he heq
      have hp := encodeEntries_proper kvs kp e hv.2 he
      rw [heq] at hp
      exact Nat.lt_irrefl _ hp
    | cons p r =>
      have hne : kp ≠ kp ++ p :: r := by
        intro e
        have := congrArg List.length e
        simp at this
      have : lastWrite (kp ++ p :: r) acc ((kp, Stored.map) :: encodeEntries kp kvs)
          = lastWrite (kp ++ p :: r) acc (encodeEntries kp kvs) := by
        simp [lastWrite, hne]
      rw [encode, this, lastWrite_encodeEntries kvs kp p r acc hv.2 hnd]
      cases p with
      | index j => simp [nodeAt, orKeep]
      | key k => simp [nodeAt]
theorem lastWrite_encodeElems : ∀ (xs : List TreeValue) (kp : Keypath) (i : Nat) (p : Part)
    (r : List Part) (acc : Option Stored), TreeValue.storableList xs = true →
    lastWrite (kp ++ p :: r) acc (encodeElems kp i xs)
      = match p with
        | .index j => if i ≤ j then orKeep (nodeAtElems xs (j - i) r) acc else acc
        | .key _ => acc
  | [], kp, i, p, r, acc, _ => by
    cases p with
    | index j => simp [encodeElems, lastWrite, nodeAtElems, orKeep]
    | key k => simp [encodeElems, lastWrite]
  | x :: xs, kp, i, p, r, acc, hv => by
    simp only [TreeValue.storableList, Bool.and_eq_true] at hv
    rw [encodeElems, lastWrite_append]
    cases p with
    | key k =>
      rw [Keypath.PushIndex, lastWrite_encode_outside x _ _ acc
        (not_prefix_of_part_ne kp (.index i) (.key k) r (by simp)),
        lastWrite_encodeElems xs kp (i + 1) (.key k) r acc hv.2]
    | index j =>
      by_cases hj : j = i
      · subst hj
        have e1 : kp ++ Part.index j :: r = kp.PushIndex j ++ r := by
          simp [Keypath.PushIndex]
        rw [e1, lastWrite_encode x _ r acc hv.1, ← e1,
          lastWrite_encodeElems xs kp (j + 1) (.index j) r _ hv.2]
        simp [nodeAtElems]
      · rw [Keypath.PushIndex, lastWrite_encode_outside x _ _ acc
          (not_prefix_of_part_ne kp (.index i) (.index j) r (by simpa using Ne.symm hj)),
          lastWrite_encodeElems xs kp (i + 1) (.index j) r acc hv.2]
        by_cases hlt : i + 1 ≤ j
        · have hle : i ≤ j := by omega
          obtain ⟨d, rfl⟩ : ∃ d, j = i + 1 + d := ⟨j - (i + 1), by omega⟩
          have e2 : i + 1 + d - i = d + 1 := by omega
          simp [hlt, hle, e2, nodeAtElems]
        · have hle : ¬ i ≤ j := by omega
          simp [hlt, hle]
theorem lastWrite_encodeEntries : ∀ (kvs : List (String × TreeValue)) (kp : Keypath) (p : Part)
    (r : List Part) (acc : Option Stored), TreeValue.storableEntries kvs = true →
    (kvs.map fun e => e.1).Nodup →
    lastWrite (kp ++ p :: r) acc (encodeEntries kp kvs)
      = match p with
        | .key k => orKeep (nodeAtEntries kvs k r) acc
        | .index _ => acc
  | [], kp, p, r, acc, _, _ => by
    cases p with
    | index j => simp [encodeEntries, lastWrite]
    | key k => simp [encodeEntries, lastWrite, nodeAtEntries, orKeep]
  | (k0, v0) :: rest, kp, p, r, acc, hv, hnd => by
    simp only [TreeValue.storableEntries, Bool.and_eq_true] at hv
    simp only [List.map_cons, List.nodup_cons] at hnd
    rw [encodeEntries, lastWrite_append, push_single kp k0 hv.1.1]
    cases p with
    | index j =>
      rw [lastWrite_encode_outside v0 _ _ acc
        (not_prefix_of_part_ne kp (.key k0) (.index j) r (by simp)),
        lastWrite_encodeEntries rest kp (.index j) r acc hv.2 hnd.2]
    | key k =>
      by_cases hk : k = k0
      · subst hk
        have e1 : kp ++ Part.key k :: r = (kp ++ [Part.key k]) ++ r := by simp
        rw [e1, lastWrite_encode v0 _ r acc hv.1.2, ← e1,
          lastWrite_encodeEntries rest kp (.key k) r _ hv.2 hnd.2]
        simp [nodeAtEntries, nodeAtEntries_of_not_mem rest k r hnd.1, orKeep_none]
      · rw [lastWrite_encode_outside v0 _ _ acc
          (not_prefix_of_part_ne kp (.key k0) (.key k) r (by simpa using Ne.symm hk)),
          lastWrite_encodeEntries rest kp (.key k) r acc hv.2 hnd.2]
        simp [nodeAtEntries, Ne.symm hk]
end

/-! ## The store: reads after writes -/

theorem find?_filter_of_imp {α : Type} (p f : α → Bool) (l : List α)
    (h : ∀ a, f a = true → p a = true) : (l.filter p).find? f = l.find? f := by
  induction l with
  | nil => rfl
  | cons a l ih =>
    by_cases hp : p a = true
    · rw [List.filter_cons, if_pos hp, List.find?_cons, List.find?_cons, ih]
    · have hf : f a = false := by
        cases hfa : f a with
        | false => rfl
        | true => exact absurd (h a hfa) hp
      rw [List.filter_cons, if_neg hp, List.find?_cons, hf, ih]

theorem find?_filter_none {α : Type} (p f : α → Bool) (l : List α)
    (h : ∀ a, p a = true → f a = false) : (l.filter p).find? f = none := by
  rw [List.find?_eq_none]
  intro a ha
  rw [List.mem_filter] at ha
  rw [h a ha.2]
  simp

theorem lookupNode_view (db : VersionedDBTree) (ver : Version) (q : Keypath) :
    lookupNode (db.view ver) q
      = (db.find? fun e => decide (e.version = ver) && decide (e.keypath = q)).map
          fun e => e.node := by
  induction db with
  | nil => rfl
  | cons e db ih =>
    unfold lookupNode VersionedDBTree.view at ih ⊢
    by_cases hv : e.version = ver
    · rw [List.filter_cons, if_pos (by simpa using hv), List.map_cons, List.find?_cons,
        List.find?_cons]
      by_cases hk : e.keypath = q
      · simp [hv, hk]
      · simp only [hv, hk, decide_False, decide_True, Bool.and_false]
        exact ih
    · rw [List.filter_cons, if_neg (by simpa using hv), List.find?_cons]
      simp only [hv, decide_False, Bool.false_and]
      exact ih

theorem lookupNode_put (db : VersionedDBTree) (ver : Version) (kp q : Keypath)
    (node : Stored) :
    lookupNode ((db.put ver kp node).view ver) q
      = if kp = q then some node else lookupNode (db.view ver) q := by
  rw [lookupNode_view, lookupNode_view]
  unfold VersionedDBTree.put
  rw [List.find?_append]
  by_cases h : kp = q
  · subst h
    rw [find?_filter_none]
    · simp
    · intro a ha
      simp only [decide_eq_true_eq, not_and] at ha
      simp only [Bool.and_eq_false_imp, decide_eq_true_eq, decide_eq_false_iff_not]
      exact ha
  · rw [find?_filter_of_imp]
    · simp [h]
    · intro a ha
      simp only [Bool.and_eq_true, decide_eq_true_eq] at ha
      simp only [decide_eq_true_eq, not_and]
      intro _ hk
      exact h (hk.symm.trans ha.2)

theorem view_put_other (db : VersionedDBTree) (ver ver' : Version) (kp : Keypath)
    (node : Stored) (h : ver' ≠ ver) :
    (db.put ver kp node).view ver' = db.view ver' := by
  unfold VersionedDBTree.put VersionedDBTree.view
  rw [List.filter_append, List.filter_filter]
  have h1 : ([⟨ver, kp, node⟩] : List Entry).filter (fun e => decide (e.version = ver')) = [] := by
    simp [Ne.symm h]
  rw [h1, List.append_nil]
  congr 1
  apply List.filter_congr
  intro e _
  by_cases hv : e.version = ver'
  · simp [hv, h]
  · simp [hv]

theorem lookupNode_foldl_put (es : List (Keypath × Stored)) (db : VersionedDBTree)
    (ver : Version) (q : Keypath) :
    lookupNode ((es.foldl (fun db e => VersionedDBTree.put db ver e.1 e.2) db).view ver) q
      = lastWrite q (lookupNode (db.view ver) q) es := by
  induction es generalizing db with
  | nil => rfl
  | cons e es ih =>
    simp only [List.foldl_cons]
    rw [ih, lookupNode_put]
    simp [lastWrite]

theorem mem_ancestors (kp a : Keypath) (h : a ∈ kp.ancestors) : a.length < kp.length := by
  simp only [Keypath.ancestors, List.mem_map, List.mem_range] at h
  obtain ⟨i, hi, rfl⟩ := h
  simp only [List.length_take]
  omega

theorem lookupNode_parented (as : List Keypath) (db : VersionedDBTree) (ver : Version)
    (q : Keypath) (h : q ∉ as) :
    lookupNode ((as.foldl (fun db a =>
        if lookupNode (VersionedDBTree.view db ver) a = none then
          VersionedDBTree.put db ver a .map
        else db) db).view ver) q
      = lookupNode (db.view ver) q := by
  induction as generalizing db with
  | nil => rfl
  | cons a as ih =>
    simp only [List.mem_cons, not_or] at h
    simp only [List.foldl_cons]
    rw [ih _ h.2]
    split
    · rw [lookupNode_put]
      simp [Ne.symm h.1]
    · rfl

theorem lookupNode_cleared (db : VersionedDBTree) (ver : Version) (kp q : Keypath)
    (h : kp <+: q) :
    lookupNode (VersionedDBTree.view
        (db.filter fun e => ¬ (e.version = ver ∧ e.keypath.StartsWith kp)) ver) q
      = none := by
  rw [lookupNode_view, find?_filter_none]
  · rfl
  · intro a ha
    simp only [decide_eq_true_eq, not_and, Keypath.StartsWith] at ha
    simp only [Bool.and_eq_false_imp, decide_eq_true_eq, decide_eq_false_iff_not]
    intro hv hk
    exact ha hv (by rw [hk]; exact h)

theorem lookupNode_set (n n' : DBNode) (kp : Keypath) (v : TreeValue) (r : List Part)
    (hv : v.storable = true) (hs : n.Set kp v = .ok n') :
    lookupNode n'.entries (kp ++ r) = nodeAt v r := by
  unfold DBNode.Set at hs
  split at hs
  · simp only [Except.ok.injEq] at hs
    subst hs
    simp only [DBNode.entries]
    rw [lookupNode_foldl_put, lookupNode_parented, lookupNode_cleared _ _ _ _
      (List.prefix_append kp r), lastWrite_encode v kp r none hv]
    · cases nodeAt v r <;> rfl
    · intro hmem
      have := mem_ancestors kp _ hmem
      simp at this
  · cases hs

/-! ## Keypath order and prefix scans -/

theorem prefix_imp_keypath_le {kp q : Keypath} (h : kp <+: q) : kp ≤ q := by
  obtain ⟨t, rfl⟩ := h
  cases t with
  | nil => simp
  | cons a t =>
    apply le_of_lt
    have : List.Lex (· < ·) (kp ++ []) (kp ++ a :: t) := List.Lex.append_left _ List.Lex.nil kp
    simpa using this

theorem proper_prefix_imp_keypath_lt {kp q : Keypath} (h : kp <+: q) (hne : kp ≠ q) : kp < q :=
  lt_of_le_of_ne (prefix_imp_keypath_le h) hne

theorem keypath_cons_le_cons {a b : Part} {l₁ l₂ : Keypath} (h : a :: l₁ ≤ b :: l₂) :
    a < b ∨ (a = b ∧ l₁ ≤ l₂) := by
  rcases lt_trichotomy a b with hab | hab | hab
  · exact Or.inl hab
  · subst hab
    refine Or.inr ⟨rfl, ?_⟩
    apply le_of_not_lt
    intro hlt
    exact absurd (List.Lex.cons hlt : List.Lex (· < ·) (a :: l₂) (a :: l₁)) (not_lt_of_le h)
  · exact absurd (List.Lex.rel hab : List.Lex (· < ·) (b :: l₂) (a :: l₁)) (not_lt_of_le h)

theorem prefix_of_between : ∀ (kp q q' : Keypath), kp ≤ q → q ≤ q' → kp <+: q' → kp <+: q
  | [], _, _, _, _, _ => List.nil_prefix
  | a :: kp, [], _, h1, _, _ => by
    exact absurd (List.nil_lt_cons a kp) (not_lt_of_le h1)
  | a :: kp, b :: q, [], _, h2, _ => by
    exact absurd (List.nil_lt_cons b q) (not_lt_of_le h2)
  | a :: kp, b :: q, c :: q', h1, h2, h3 => by
    obtain ⟨hac, h3'⟩ := List.cons_prefix_cons.mp h3
    subst hac
    rcases keypath_cons_le_cons h1 with hab | ⟨hab, h1'⟩
    · rcases keypath_cons_le_cons h2 with hba | ⟨hba, _⟩
      · exact absurd hab (not_lt_of_lt hba)
      · exact absurd hab (by rw [hba]; exact lt_irrefl _)
    · subst hab
      rcases keypath_cons_le_cons h2 with hba | ⟨_, h2'⟩
      · exact absurd hba (lt_irrefl _)
      · exact List.cons_prefix_cons.mpr ⟨rfl, prefix_of_between kp q q' h1' h2' h3'⟩

theorem append_singleton_lt_iff (kp : Keypath) (a b : Part) :
    kp ++ [a] < kp ++ [b] ↔ a < b := by
  induction kp with
  | nil => exact List.Lex.singleton_iff a b
  | cons c kp ih =>
    rw [← ih]
    exact List.Lex.cons_iff

theorem takeWhile_startsWith_ascending (kp : Keypath) (l : List Keypath)
    (hs : l.Sorted (· ≤ ·)) (hl : ∀ y ∈ l, kp ≤ y) :
    l.takeWhile (fun q => q.StartsWith kp) = l.filter (fun q => q.StartsWith kp) := by
  induction l with
  | nil => rfl
  | cons y ys ih =>
    have hs' := List.sorted_cons.mp hs
    by_cases hp : y.StartsWith kp = true
    · rw [List.takeWhile_cons, if_pos hp, List.filter_cons, if_pos hp,
        ih hs'.2 (fun z hz => hl z (by simp [hz]))]
    · rw [List.takeWhile_cons, if_neg hp, List.filter_cons, if_neg hp]
      symm
      rw [List.filter_eq_nil_iff]
      intro z hz hpz
      apply hp
      simp only [Keypath.StartsWith, decide_eq_true_eq] at hpz ⊢
      exact prefix_of_between kp y z (hl y (by simp)) (hs'.1 z hz) hpz

theorem scanForward_eq_filter (es : List (Keypath × Stored)) (kp : Keypath) :
    scanForward es kp = (sortedKeypaths es).filter (fun q => q.StartsWith kp) := by
  unfold scanForward
  have hs : (sortedKeypaths es).Sorted (· ≤ ·) := List.sorted_insertionSort _ _
  generalize sortedKeypaths es = l at hs
  induction l with
  | nil => rfl
  | cons x xs ih =>
    have hs' := List.sorted_cons.mp hs
    by_cases hx : x < kp
    · have hp : ¬ x.StartsWith kp = true := by
        simp only [Keypath.StartsWith, decide_eq_true_eq]
        intro h
        exact absurd hx (not_lt_of_le (prefix_imp_keypath_le h))
      rw [List.dropWhile_cons, if_pos (by simpa using hx), List.filter_cons, if_neg hp]
      exact ih hs'.2
    · rw [List.dropWhile_cons, if_neg (by simpa using hx)]
      apply takeWhile_startsWith_ascending kp _ hs
      intro y hy
      rcases List.mem_cons.mp hy with rfl | hy
      · exact le_of_not_lt hx
      · exact le_trans (le_of_not_lt hx) (hs'.1 y hy)

theorem mem_sortedKeypaths (es : List (Keypath × Stored)) (q : Keypath) :
    q ∈ sortedKeypaths es ↔ q ∈ es.map (fun e => e.1) :=
  (List.perm_insertionSort _ _).mem_iff

theorem mem_scanForward (es : List (Keypath × Stored)) (kp q : Keypath) :
    q ∈ scanForward es kp ↔ q ∈ es.map (fun e => e.1) ∧ kp <+: q := by
  rw [scanForward_eq_filter, List.mem_filter, mem_sortedKeypaths]
  simp [Keypath.StartsWith]

theorem sortedKeypaths_strict (es : List (Keypath × Stored))
    (hnd : (es.map fun e => e.1).Nodup) : (sortedKeypaths es).Sorted (· < ·) :=
  (List.sorted_insertionSort (· ≤ ·) _).lt_of_le
    ((List.perm_insertionSort (· ≤ ·) _).nodup_iff.mpr hnd)

theorem scanForward_strict (es : List (Keypath × Stored)) (kp : Keypath)
    (hnd : (es.map fun e => e.1).Nodup) : (scanForward es kp).Sorted (· < ·) := by
  rw [scanForward_eq_filter]
  exact (sortedKeypaths_strict es hnd).filter _

/-! ## The keys of a stored map -/

theorem child_form (kp q : Keypath) (hp : kp <+: q) (hl : q.length = kp.length + 1) :
    ∃ p, q = kp ++ [p] := by
  obtain ⟨t, rfl⟩ := hp
  match t, hl with
  | [p], _ => exact ⟨p, rfl⟩
  | [], hl => simp at hl
  | _ :: _ :: _, hl => simp at hl

theorem mem_childScan (es : List (Keypath × Stored)) (kp q : Keypath) :
    q ∈ childScan es kp ↔ q ∈ es.map (fun e => e.1) ∧ ∃ p, q = kp ++ [p] := by
  unfold childScan
  rw [List.mem_filter, mem_scanForward]
  constructor
  · rintro ⟨⟨hm, hp⟩, hl⟩
    exact ⟨hm, child_form kp q hp (by simpa using hl)⟩
  · rintro ⟨hm, p, rfl⟩
    exact ⟨⟨hm, List.prefix_append _ _⟩, by simp⟩

theorem mem_mapKeys (es : List (Keypath × Stored)) (kp : Keypath) (k : String) :
    k ∈ mapKeys es kp ↔ kp ++ [Part.key k] ∈ es.map (fun e => e.1) := by
  unfold mapKeys
  rw [List.mem_filterMap]
  constructor
  · rintro ⟨q, hq, hg⟩
    obtain ⟨hm, p, rfl⟩ := (mem_childScan es kp q).mp hq
    rw [List.getLast?_append, List.getLast?_singleton] at hg
    cases p with
    | index i => simp at hg
    | key k' =>
      simp at hg
      rw [← hg]
      exact hm
  · intro hm
    refine ⟨kp ++ [Part.key k], (mem_childScan es kp _).mpr ⟨hm, _, rfl⟩, ?_⟩
    rw [List.getLast?_append, List.getLast?_singleton]
    rfl

theorem mapKeys_sorted (es : List (Keypath × Stored)) (kp : Keypath)
    (hnd : (es.map fun e => e.1).Nodup) :
    (mapKeys es kp).Pairwise (fun k k' => Part.key k < Part.key k') := by
  unfold mapKeys
  have hs : (childScan es kp).Sorted (· < ·) := (scanForward_strict es kp hnd).filter _
  have hs' := List.Pairwise.and_mem.mp hs
  refine List.Pairwise.filterMap _ ?_ hs'
  rintro q q' ⟨hq, hq', hlt⟩ k hk k' hk'
  obtain ⟨_, p, rfl⟩ := (mem_childScan es kp q).mp hq
  obtain ⟨_, p', rfl⟩ := (mem_childScan es kp q').mp hq'
  rw [Option.mem_def, List.getLast?_append, List.getLast?_singleton] at hk hk'
  rw [append_singleton_lt_iff] at hlt
  cases p with
  | index i => simp at hk
  | key a =>
    cases p' with
    | index i => simp at hk'
    | key b =>
      simp at hk hk'
      rw [← hk, ← hk']
      exact hlt

theorem mapKeys_eq (es : List (Keypath × Stored)) (kp : Keypath) (ks : List String)
    (hnd : (es.map fun e => e.1).Nodup)
    (hks : (ks.map Part.key).Sorted (· < ·))
    (hmem : ∀ k, kp ++ [Part.key k] ∈ es.map (fun e => e.1) ↔ k ∈ ks) :
    mapKeys es kp = ks := by
  have h1 : ((mapKeys es kp).map Part.key).Sorted (· < ·) := by
    rw [List.Sorted, List.pairwise_map]
    exact mapKeys_sorted es kp hnd
  have hinj : Function.Injective Part.key := fun a b h => by injection h
  apply List.map_injective_iff.mpr hinj
  apply List.eq_of_perm_of_sorted _ h1 hks
  apply (List.perm_ext_iff_of_nodup h1.nodup hks.nodup).mpr
  intro p
  simp only [List.mem_map]
  constructor
  · rintro ⟨k, hk, rfl⟩
    exact ⟨k, (hmem k).mp ((mem_mapKeys es kp k).mp hk), rfl⟩
  · rintro ⟨k, hk, rfl⟩
    exact ⟨k, (mem_mapKeys es kp k).mpr ((hmem k).mpr hk), rfl⟩

theorem lookupNode_isSome_iff (es : List (Keypath × Stored)) (q : Keypath) :
    lookupNode es q ≠ none ↔ q ∈ es.map (fun e => e.1) := by
  unfold lookupNode
  rw [Ne, Option.map_eq_none', List.find?_eq_none]
  simp only [decide_eq_true_eq, not_forall, not_not, List.mem_map]
  constructor
  · rintro ⟨e, he, rfl⟩
    exact ⟨e, he, rfl⟩
  · rintro ⟨e, he, rfl⟩
    exact ⟨e, he, rfl⟩

theorem le_viewDepth (es : List (Keypath × Stored)) (q : Keypath)
    (h : q ∈ es.map (fun e => e.1)) : q.length ≤ viewDepth es := by
  unfold viewDepth
  induction es with
  | nil => simp at h
  | cons e es ih =>
    simp only [List.map_cons, List.mem_cons] at h
    simp only [List.map_cons, List.foldr_cons]
    rcases h with rfl | h
    · exact le_max_left _ _
    · exact le_trans (ih h) (le_max_right _ _)

/-! ## Materialising what `encode` wrote -/

theorem nodeAt_nil_ne_none (v : TreeValue) : nodeAt v [] ≠ none := by
  cases v <;> simp [nodeAt]

theorem nodeAtEntries_of_mem (kvs : List (String × TreeValue)) (k : String) (c : TreeValue)
    (r : List Part) (hnd : (kvs.map fun e => e.1).Nodup) (h : (k, c) ∈ kvs) :
    nodeAtEntries kvs k r = nodeAt c r := by
  induction kvs with
  | nil => simp at h
  | cons e rest ih =>
    obtain ⟨k0, v0⟩ := e
    simp only [List.map_cons, List.nodup_cons] at hnd
    rcases List.mem_cons.mp h with h | h
    · simp only [Prod.mk.injEq] at h
      simp [nodeAtEntries, h.1, h.2]
    · have hne : k0 ≠ k := by
        intro e
        apply hnd.1
        rw [e]
        exact List.mem_map_of_mem (fun e => e.1) h
      simp only [nodeAtEntries, hne, if_false]
      exact ih hnd.2 h

theorem nodeAtEntries_nil_iff (kvs : List (String × TreeValue)) (k : String) :
    nodeAtEntries kvs k [] ≠ none ↔ k ∈ kvs.map (fun e => e.1) := by
  induction kvs with
  | nil => simp [nodeAtEntries]
  | cons e rest ih =>
    obtain ⟨k0, v0⟩ := e
    by_cases h : k0 = k
    · simp [nodeAtEntries, h, nodeAt_nil_ne_none]
    · simp only [nodeAtEntries, h, if_false, List.map_cons, List.mem_cons]
      rw [ih]
      constructor
      · exact Or.inr
      · rintro (h' | h')
        · exact absurd h'.symm h
        · exact h'

mutual
theorem materialize_spec : ∀ (v : TreeValue) (es : List (Keypath × Stored)) (kp : Keypath)
    (fuel : Nat), (es.map fun e => e.1).Nodup → v.storable = true →
    (∀ r, lookupNode es (kp ++ r) = nodeAt v r) →
    (∀ r, nodeAt v r ≠ none → r.length < fuel) →
    materialize es fuel kp = some v
  | .scalar s, es, kp, fuel, _, _, hl, hf => by
    obtain ⟨f, rfl⟩ : ∃ f, fuel = f + 1 :=
      ⟨fuel - 1, by have := hf [] (nodeAt_nil_ne_none _); simp at this; omega⟩
    have h0 := hl []
    simp only [List.append_nil, nodeAt] at h0
    simp [materialize, h0]
  | .S xs, es, kp, fuel, hnd, hv, hl, hf => by
    obtain ⟨f, rfl⟩ : ∃ f, fuel = f + 1 :=
      ⟨fuel - 1, by have := hf [] (nodeAt_nil_ne_none _); simp at this; omega⟩
    have h0 := hl []
    simp only [List.append_nil, nodeAt] at h0
    simp only [TreeValue.storable] at hv
    have := materialize_elems xs es kp f 0 hnd hv
      (fun j r => by
        have := hl (Part.index j :: r)
        simpa [nodeAt] using this)
      (fun j r hne => by
        have := hf (Part.index j :: r) (by simpa [nodeAt] using hne)
        simpa using this)
    simp only [materialize, h0, List.range_eq_range', this, Option.map_some']
  | .M kvs, es, kp, fuel, hnd, hv, hl, hf => by
    obtain ⟨f, rfl⟩ : ∃ f, fuel = f + 1 :=
      ⟨fuel - 1, by have := hf [] (nodeAt_nil_ne_none _); simp at this; omega⟩
    have h0 := hl []
    simp only [List.append_nil, nodeAt] at h0
    simp only [TreeValue.storable, Bool.and_eq_true, decide_eq_true_eq] at hv
    have hkn : (kvs.map fun e => e.1).Nodup :=
      List.Nodup.of_map (fun k : String => Part.key k) (by simpa using hv.1.nodup)
    have hkeys : mapKeys es kp = kvs.map (fun e => e.1) := by
      apply mapKeys_eq es kp _ hnd (by simpa using hv.1)
      intro k
      rw [← lookupNode_isSome_iff, hl [Part.key k], ← nodeAtEntries_nil_iff]
      simp [nodeAt]
    have := materialize_entries kvs es kp f hnd hv.2
      (fun e he r => by
        have := hl (Part.key e.1 :: r)
        rw [this]
        simp only [nodeAt]
        exact nodeAtEntries_of_mem kvs e.1 e.2 r hkn he)
      (fun e he r hne => by
        have := hf (Part.key e.1 :: r) (by
          simp only [nodeAt]
          rw [nodeAtEntries_of_mem kvs e.1 e.2 r hkn he]
          exact hne)
        simpa using this)
    simp only [materialize, h0, hkeys, List.map_map]
    have e1 : ((fun k => Option.map (fun c => (k, c)) (materialize es f (kp ++ [Part.key k])))
        ∘ fun e : String × TreeValue => e.1)
        = fun e => (materialize es f (kp ++ [Part.key e.1])).map fun c => (e.1, c) := rfl
    rw [e1, this]
    rfl
theorem materialize_elems : ∀ (xs : List TreeValue) (es : List (Keypath × Stored))
    (kp : Keypath) (fuel i : Nat), (es.map fun e => e.1).Nodup →
    TreeValue.storableList xs = true →
    (∀ j r, lookupNode es (kp ++ Part.index (i + j) :: r) = nodeAtElems xs j r) →
    (∀ j r, nodeAtElems xs j r ≠ none → r.length < fuel) →
    collect ((List.range' i xs.length).map fun j => materialize es fuel (kp.PushIndex j))
      = some xs
  | [], _, _, _, _, _, _, _, _ => by simp [collect]
  | x :: xs, es, kp, fuel, i, hnd, hv, hl, hf => by
    simp only [TreeValue.storableList, Bool.and_eq_true] at hv
    have hx := materialize_spec x es (kp.PushIndex i) fuel hnd hv.1
      (fun r => by
        have := hl 0 r
        simpa [Keypath.PushIndex, nodeAtElems] using this)
      (fun r hne => hf 0 r (by simpa [nodeAtElems] using hne))
    have hxs := materialize_elems xs es kp fuel (i + 1) hnd hv.2
      (fun j r => by
        have := hl (j + 1) r
        have e : i + (j + 1) = i + 1 + j := by omega
        rw [e] at this
        simpa [nodeAtElems] using this)
      (fun j r hne => hf (j + 1) r (by simpa [nodeAtElems] using hne))
    simp only [List.length_cons, List.range'_succ, List.map_cons, hx, collect, hxs,
      Option.map_some']
theorem materialize_entries : ∀ (kvs : List (String × TreeValue))
    (es : List (Keypath × Stored)) (kp : Keypath) (fuel : Nat),
    (es.map fun e => e.1).Nodup → TreeValue.storableEntries kvs = true →
    (∀ e ∈ kvs, ∀ r, lookupNode es (kp ++ Part.key e.1 :: r) = nodeAt e.2 r) →
    (∀ e ∈ kvs, ∀ r, nodeAt e.2 r ≠ none → r.length < fuel) →
    collect (kvs.map fun e =>
        (materialize es fuel (kp ++ [Part.key e.1])).map fun c => (e.1, c)) = some kvs
  | [], _, _, _, _, _, _, _ => by simp [collect]
  | (k, v) :: rest, es, kp, fuel, hnd, hv, hl, hf => by
    simp only [TreeValue.storableEntries, Bool.and_eq_true] at hv
    have hx := materialize_spec v es (kp ++ [Part.key k]) fuel hnd hv.1.2
      (fun r => by
        have := hl (k, v) (by simp) r
        simpa using this)
      (fun r hne => hf (k, v) (by simp) r hne)
    have hxs := materialize_entries rest es kp fuel hnd hv.2
      (fun e he r => hl e (by simp [he]) r)
      (fun e he r hne => hf e (by simp [he]) r hne)
    simp only [List.map_cons, hx, Option.map_some', collect, hxs]
end

/-! ## One value per key -/

theorem wf_filter (db : VersionedDBTree) (p : Entry → Bool) (h : db.WF) :
    VersionedDBTree.WF (db.filter p) := by
  unfold VersionedDBTree.WF at h ⊢
  exact h.sublist ((List.filter_sublist db).map _)

theorem wf_put (db : VersionedDBTree) (ver : Version) (kp : Keypath) (node : Stored)
    (h : db.WF) : (db.put ver kp node).WF := by
  have h1 := wf_filter db (fun e => ¬ (e.version = ver ∧ e.keypath = kp)) h
  unfold VersionedDBTree.WF at h1 ⊢
  unfold VersionedDBTree.put
  rw [List.map_append, List.nodup_append]
  refine ⟨h1, by simp, ?_⟩
  intro a ha hb
  simp only [List.map_cons, List.map_nil, List.mem_singleton] at hb
  subst hb
  simp only [List.mem_map, List.mem_filter, decide_eq_true_eq, Prod.mk.injEq] at ha
  obtain ⟨e, ⟨_, hne⟩, hv, hk⟩ := ha
  exact hne ⟨hv, hk⟩

theorem wf_foldl_put (es : List (Keypath × Stored)) (db : VersionedDBTree) (ver : Version)
    (h : db.WF) :
    VersionedDBTree.WF (es.foldl (fun db e => VersionedDBTree.put db ver e.1 e.2) db) := by
  induction es generalizing db with
  | nil => exact h
  | cons e es ih => exact ih _ (wf_put db ver e.1 e.2 h)

theorem wf_parented (as : List Keypath) (db : VersionedDBTree) (ver : Version) (h : db.WF) :
    VersionedDBTree.WF (as.foldl (fun db a =>
        if lookupNode (VersionedDBTree.view db ver) a = none then
          VersionedDBTree.put db ver a .map
        else db) db) := by
  induction as generalizing db with
  | nil => exact h
  | cons a as ih =>
    simp only [List.foldl_cons]
    apply ih
    split
    · exact wf_put db ver a .map h
    · exact h

theorem wf_set (n n' : DBNode) (kp : Keypath) (v : TreeValue) (h : n.store.WF)
    (hs : n.Set kp v = .ok n') : n'.store.WF := by
  unfold DBNode.Set at hs
  split at hs
  · simp only [Except.ok.injEq] at hs
    subst hs
    exact wf_foldl_put _ _ _ (wf_parented _ _ _ (wf_filter _ _ h))
  · cases hs

theorem view_nodup (db : VersionedDBTree) (ver : Version) (h : db.WF) :
    ((db.view ver).map fun e => e.1).Nodup := by
  have h1 := wf_filter db (fun e => decide (e.version = ver)) h
  unfold VersionedDBTree.WF at h1
  unfold VersionedDBTree.view
  rw [List.map_map]
  have e1 : (db.filter fun e => decide (e.version = ver)).map
      (fun e => (e.version, e.keypath))
      = ((db.filter fun e => decide (e.version = ver)).map
          ((fun e : Keypath × Stored => e.1) ∘ fun e : Entry => (e.keypath, e.node))).map
          (fun k => (ver, k)) := by
    rw [List.map_map]
    apply List.map_congr_left
    intro e he
    simp only [List.mem_filter, decide_eq_true_eq] at he
    simp [he.2]
  rw [e1] at h1
  exact List.Nodup.of_map _ h1

theorem set_ok (n : DBNode) (kp : Keypath) (v : TreeValue) (hw : n.writable = true) :
    ∃ n', n.Set kp v = .ok n' ∧ n'.version = n.version ∧ n'.writable = true := by
  unfold DBNode.Set
  rw [if_pos hw]
  exact ⟨_, rfl, rfl, hw⟩

theorem value_after_set (db : VersionedDBTree) (ver : Version) (kp : Keypath) (v : TreeValue)
    (hwf : db.WF) (hv : v.storable = true) :
    ∃ n' db', (db.StateAtVersion ver true).Set kp v = .ok n' ∧ n'.Save = .ok db'
      ∧ (db'.StateAtVersion ver false).Value kp none = .ok (some v) := by
  obtain ⟨n', hs, hver, hw⟩ := set_ok (db.StateAtVersion ver true) kp v rfl
  refine ⟨n', n'.store, hs, by simp [DBNode.Save, hw], ?_⟩
  have hent : (n'.store.StateAtVersion ver false).entries = n'.entries := by
    simp only [DBNode.entries, VersionedDBTree.StateAtVersion, hver]
  have hl : ∀ r, lookupNode n'.entries (kp ++ r) = nodeAt v r :=
    fun r => lookupNode_set _ n' kp v r hv hs
  have hnd : (n'.entries.map fun e => e.1).Nodup :=
    view_nodup _ _ (wf_set _ n' kp v hwf hs)
  have h0 : lookupNode n'.entries kp ≠ none := by
    have := hl []
    rw [List.append_nil] at this
    rw [this]
    exact nodeAt_nil_ne_none v
  have hm := materialize_spec v n'.entries kp (viewDepth n'.entries + 1) hnd hv hl
    (fun r hne => by
      have h1 : kp ++ r ∈ n'.entries.map (fun e => e.1) := by
        rw [← lookupNode_isSome_iff, hl r]
        exact hne
      have := le_viewDepth _ _ h1
      simp at this
      omega)
  unfold DBNode.Value
  rw [hent]
  cases hlk : lookupNode n'.entries kp with
  | none => exact absurd hlk h0
  | some node => simp only [hm]

/-! ## Iteration, versions and range reads -/

theorem mem_of_descendant (es : List (Keypath × Stored)) (kp : Keypath)
    (ht : treeInvariant es) (r : List Part) (h : kp ++ r ∈ es.map (fun e => e.1)) :
    kp ∈ es.map (fun e => e.1) := by
  induction r using List.reverseRecOn with
  | nil => simpa using h
  | append_singleton r a ih =>
    apply ih
    have hne : kp ++ (r ++ [a]) ≠ [] := by simp
    have := ht _ h hne
    rwa [← List.append_assoc, List.dropLast_concat] at this

theorem scanForward_nil_of_absent (es : List (Keypath × Stored)) (kp : Keypath)
    (ht : treeInvariant es) (h : kp ∉ es.map (fun e => e.1)) : scanForward es kp = [] := by
  rw [List.eq_nil_iff_forall_not_mem]
  intro q hq
  obtain ⟨hm, r, rfl⟩ := (mem_scanForward es kp q).mp hq
  exact h (mem_of_descendant es kp ht r hm)

theorem value_congr (n m : DBNode) (kp : Keypath) (rng : Option Range)
    (h : n.entries = m.entries) : n.Value kp rng = m.Value kp rng := by
  unfold DBNode.Value
  rw [h]

theorem view_copy_dst (db : VersionedDBTree) (dst src : Version) :
    (db.CopyVersion dst src).view dst = db.view src := by
  unfold VersionedDBTree.CopyVersion VersionedDBTree.view
  rw [List.filter_append, List.filter_filter, List.map_append]
  have h1 : db.filter (fun a => decide (a.version = dst) && decide (a.version ≠ dst)) = [] := by
    rw [List.filter_eq_nil_iff]
    intro a _
    simp
  have h2 : ((db.filter fun e => decide (e.version = src)).map
      fun e => ({ e with version := dst } : Entry)).filter (fun e => decide (e.version = dst))
      = (db.filter fun e => decide (e.version = src)).map
          fun e => ({ e with version := dst } : Entry) := by
    rw [List.filter_eq_self]
    intro a ha
    simp only [List.mem_map] at ha
    obtain ⟨e, _, rfl⟩ := ha
    simp
  rw [h1, h2, List.map_nil, List.nil_append, List.map_map]
  rfl

theorem view_copy_src (db : VersionedDBTree) (dst src : Version) (hne : src ≠ dst) :
    (db.CopyVersion dst src).view src = db.view src := by
  unfold VersionedDBTree.CopyVersion VersionedDBTree.view
  rw [List.filter_append, List.filter_filter, List.map_append]
  have h1 : db.filter (fun a => decide (a.version = src) && decide (a.version ≠ dst))
      = db.filter (fun a => decide (a.version = src)) := by
    apply List.filter_congr
    intro a _
    by_cases h : a.version = src
    · simp [h, hne]
    · simp [h]
  have h2 : ((db.filter fun e => decide (e.version = src)).map
      fun e => ({ e with version := dst } : Entry)).filter (fun e => decide (e.version = src))
      = [] := by
    rw [List.filter_eq_nil_iff]
    intro a ha
    simp only [List.mem_map] at ha
    obtain ⟨e, _, rfl⟩ := ha
    simpa using Ne.symm hne
  rw [h1, h2, List.map_nil, List.append_nil]

theorem copy_length (db : VersionedDBTree) (dst src : Version)
    (hfresh : ∀ e ∈ db, e.version ≠ dst) :
    (db.CopyVersion dst src).length = db.length + (db.filter fun e => e.version = src).length := by
  unfold VersionedDBTree.CopyVersion
  have h1 : db.filter (fun e => decide (e.version ≠ dst)) = db := by
    rw [List.filter_eq_self]
    intro a ha
    simpa using hfresh a ha
  rw [List.length_append, h1, List.length_map]

theorem view_filter_other (db : VersionedDBTree) (ver ver' : Version) (p : Entry → Prop)
    [DecidablePred p] (h : ver' ≠ ver) :
    VersionedDBTree.view (db.filter fun e => ¬ (e.version = ver ∧ p e)) ver' = db.view ver' := by
  unfold VersionedDBTree.view
  rw [List.filter_filter]
  congr 1
  apply List.filter_congr
  intro a _
  by_cases hv : a.version = ver'
  · simp [hv, h]
  · simp [hv]

theorem view_foldl_put_other (es : List (Keypath × Stored)) (db : VersionedDBTree)
    (ver ver' : Version) (h : ver' ≠ ver) :
    VersionedDBTree.view (es.foldl (fun db e => VersionedDBTree.put db ver e.1 e.2) db) ver'
      = db.view ver' := by
  induction es generalizing db with
  | nil => rfl
  | cons e es ih =>
    simp only [List.foldl_cons]
    rw [ih, view_put_other db ver ver' e.1 e.2 h]

theorem view_parented_other (as : List Keypath) (db : VersionedDBTree) (ver ver' : Version)
    (h : ver' ≠ ver) :
    VersionedDBTree.view (as.foldl (fun db a =>
        if lookupNode (VersionedDBTree.view db ver) a = none then
          VersionedDBTree.put db ver a .map
        else db) db) ver' = db.view ver' := by
  induction as generalizing db with
  | nil => rfl
  | cons a as ih =>
    simp only [List.foldl_cons]
    rw [ih]
    split
    · exact view_put_other db ver ver' a .map h
    · rfl

theorem view_set_other (n n' : DBNode) (kp : Keypath) (v : TreeValue) (ver' : Version)
    (h : ver' ≠ n.version) (hs : n.Set kp v = .ok n') :
    n'.store.view ver' = n.store.view ver' := by
  unfold DBNode.Set at hs
  split at hs
  · simp only [Except.ok.injEq] at hs
    subst hs
    simp only
    rw [view_foldl_put_other _ _ _ _ h, view_parented_other _ _ _ _ h,
      view_filter_other _ _ _ (fun e => e.keypath.StartsWith kp = true) h]
  · cases hs

theorem collect_eq_some_iff {α : Type} (os : List (Option α)) (ys : List α) :
    collect os = some ys ↔ os = ys.map some := by
  induction os generalizing ys with
  | nil =>
    cases ys <;> simp [collect]
  | cons o os ih =>
    cases o with
    | none =>
      cases ys <;> simp [collect]
    | some a =>
      cases ys with
      | nil => simp [collect]
      | cons y ys =>
        simp only [collect, Option.map_eq_some', List.map_cons, List.cons.injEq,
          Option.some.injEq]
        constructor
        · rintro ⟨as, has, h1, h2⟩
          exact ⟨h1, h2 ▸ (ih as).mp has⟩
        · rintro ⟨h1, h2⟩
          exact ⟨ys, (ih ys).mpr h2, h1, rfl⟩

theorem collect_length {α : Type} (os : List (Option α)) (ys : List α)
    (h : collect os = some ys) : ys.length = os.length := by
  rw [collect_eq_some_iff] at h
  rw [h, List.length_map]

theorem collect_map_sub {α β : Type} (l : List α) (f : α → Option β) (ys : List β)
    (h : collect (l.map f) = some ys) (a b : Nat) :
    collect (((l.drop a).take b).map f) = some ((ys.drop a).take b) := by
  rw [collect_eq_some_iff] at h ⊢
  rw [List.map_take, List.map_drop, h, List.map_take, List.map_drop]

theorem rangeSelect_eq {α β : Type} (r : Range) (l : List α) (ys : List β)
    (h : ys.length = l.length) :
    (rangeIndices r l.length) = (rangeIndices r ys.length) := by
  rw [h]

theorem value_none_map (n : DBNode) (K : Keypath) (kvs : List (String × TreeValue))
    (h : n.Value K none = .ok (some (.M kvs))) :
    lookupNode n.entries K = some .map
    ∧ collect ((mapKeys n.entries K).map fun k =>
        (materialize n.entries (viewDepth n.entries) (K ++ [Part.key k])).map
          fun c => (k, c)) = some kvs := by
  unfold DBNode.Value at h
  cases hl : lookupNode n.entries K with
  | none => simp [hl] at h
  | some node =>
    simp only [hl, materialize] at h
    cases node with
    | value s => simp at h
    | slice len =>
      simp only at h
      cases hc : collect ((List.range len).map fun i =>
          materialize n.entries (viewDepth n.entries) (K.PushIndex i)) with
      | none => simp [hc] at h
      | some xs => simp [hc] at h
    | map =>
      simp only at h
      cases hc : collect ((mapKeys n.entries K).map fun k =>
          (materialize n.entries (viewDepth n.entries) (K ++ [Part.key k])).map
            fun c => (k, c)) with
      | none => simp [hc] at h
      | some kvs' =>
        simp [hc] at h
        exact ⟨rfl, by rw [h]⟩

theorem value_none_seq (n : DBNode) (K : Keypath) (xs : List TreeValue)
    (h : n.Value K none = .ok (some (.S xs))) :
    ∃ len, lookupNode n.entries K = some (.slice len)
    ∧ collect ((List.range len).map fun i =>
        materialize n.entries (viewDepth n.entries) (K.PushIndex i)) = some xs := by
  unfold DBNode.Value at h
  cases hl : lookupNode n.entries K with
  | none => simp [hl] at h
  | some node =>
    simp only [hl, materialize] at h
    cases node with
    | value s => simp at h
    | map =>
      simp only at h
      cases hc : collect ((mapKeys n.entries K).map fun k =>
          (materialize n.entries (viewDepth n.entries) (K ++ [Part.key k])).map
            fun c => (k, c)) with
      | none => simp [hc] at h
      | some kvs' => simp [hc] at h
    | slice len =>
      simp only at h
      cases hc : collect ((List.range len).map fun i =>
          materialize n.entries (viewDepth n.entries) (K.PushIndex i)) with
      | none => simp [hc] at h
      | some xs' =>
        simp [hc] at h
        exact ⟨len, rfl, h ▸ hc⟩

theorem value_map_range (n : DBNode) (K : Keypath) (kvs : List (String × TreeValue))
    (r : Range) (h : n.Value K none = .ok (some (.M kvs))) :
    n.Value K (some r)
      = if rangeValid r kvs.length then .ok (some (.M (rangeSelect r kvs)))
        else .error .InvalidRange := by
  obtain ⟨hl, hc⟩ := value_none_map n K kvs h
  have hlen : kvs.length = (mapKeys n.entries K).length := by
    rw [collect_length _ _ hc, List.length_map]
  unfold DBNode.Value
  simp only [hl, ← hlen]
  split
  · unfold rangeSelect
    rw [← hlen, collect_map_sub _ _ kvs hc]
  · rfl

theorem value_seq_range (n : DBNode) (K : Keypath) (xs : List TreeValue)
    (r : Range) (h : n.Value K none = .ok (some (.S xs))) :
    n.Value K (some r)
      = if rangeValid r xs.length then .ok (some (.S (rangeSelect r xs)))
        else .error .InvalidRange := by
  obtain ⟨len, hl, hc⟩ := value_none_seq n K xs h
  have hlen : xs.length = len := by
    rw [collect_length _ _ hc, List.length_map, List.length_range]
  subst hlen
  unfold DBNode.Value
  simp only [hl]
  split
  · unfold rangeSelect
    rw [List.length_range, collect_map_sub _ _ xs hc]
  · rfl

theorem stored_map_keys (n : DBNode) (K : Keypath) (kvs : List (String × TreeValue))
    (h : n.Value K none = .ok (some (.M kvs))) :
    kvs.map (fun e => e.1) = mapKeys n.entries K := by
  obtain ⟨_, hc⟩ := value_none_map n K kvs h
  rw [collect_eq_some_iff] at hc
  clear h
  generalize mapKeys n.entries K = ks at hc
  induction ks generalizing kvs with
  | nil =>
    cases kvs with
    | nil => rfl
    | cons e rest => simp at hc
  | cons k ks ih =>
    cases kvs with
    | nil => simp at hc
    | cons e rest =>
      simp only [List.map_cons, List.cons.injEq, Option.map_eq_some'] at hc
      obtain ⟨⟨c, _, hc1⟩, hc2⟩ := hc
      rw [List.map_cons, ih rest hc2, ← hc1]

theorem rangeIndices_nonneg (lo hi : Int) (L : Nat) (h0 : 0 ≤ lo) (h1 : lo ≤ hi) :
    rangeIndices (lo, hi) L = (lo, hi) := by
  have a : ¬ lo < 0 := by omega
  have b : ¬ (hi < 0 ∨ (hi = 0 ∧ lo < 0)) := by omega
  simp only [rangeIndices, if_neg a, if_neg b]

/-! ## The walk, one key at a time -/

theorem childMap_eq_rootMap (m : GoMap) (key : String) :
    childMap m key = rootMap (m.index key) := by
  unfold childMap rootMap
  cases m.index key <;> rfl

theorem put_cons (s v : Value) (q : String) (l : List String) :
    put s v (q :: l)
      = .map ((rootMap s).assign q (put ((rootMap s).index q) v l)) := by
  cases l with
  | nil => rfl
  | cons h t => simp only [put, place, childMap_eq_rootMap]

theorem target_cons (s : Value) (q : String) (l : List String) :
    target s (q :: l) = target ((rootMap s).index q) l := by
  cases l with
  | nil => rfl
  | cons h t => simp only [target, cursor, childMap_eq_rootMap]

theorem target_null (l : List String) : target .null l = .null := by
  induction l with
  | nil => rfl
  | cons q l ih =>
    rw [target_cons]
    exact ih

theorem at?_map_cons (m : GoMap) (q : String) (l : List String) :
    (Value.map m).at? (q :: l) = (GoMap.find? m q).bind fun c => c.at? l := by
  simp only [Value.at?]
  cases GoMap.find? m q <;> rfl

theorem at?_append (a b : List String) :
    ∀ s : Value, s.at? (a ++ b) = (s.at? a).bind fun c => c.at? b := by
  induction a with
  | nil => intro s; simp [Value.at?]
  | cons q a ih =>
    intro s
    by_cases hs : ∃ m, s = .map m
    · obtain ⟨m, rfl⟩ := hs
      rw [List.cons_append, at?_map_cons, at?_map_cons]
      cases GoMap.find? m q with
      | none => rfl
      | some c => simpa using ih c
    · have hs' : ∀ m, s ≠ .map m := fun m h => hs ⟨m, h⟩
      rw [List.cons_append, at?_nonmap_cons s q _ hs', at?_nonmap_cons s q _ hs']
      rfl

theorem rootMap_of_nonmap (x : Value) (hx : ∀ m, x ≠ .map m) : rootMap x = [] := by
  cases x with
  | map m => exact absurd rfl (hx m)
  | _ => rfl

theorem target_of_at?_none :
    ∀ (keys : List String) (s : Value), s.at? keys = none → target s keys = .null := by
  intro keys
  induction keys with
  | nil => intro s h; simp [Value.at?] at h
  | cons q l ih =>
    intro s h
    rw [target_cons]
    by_cases hs : ∃ m, s = .map m
    · obtain ⟨m, rfl⟩ := hs
      rw [at?_map_cons] at h
      simp only [rootMap]
      cases hf : GoMap.find? m q with
      | none => rw [GoMap.index_of_find?_none m q hf]; exact target_null l
      | some c =>
        rw [hf] at h
        rw [GoMap.index_of_find? m q c hf]
        exact ih c h
    · have hs' : ∀ m, s ≠ .map m := fun m h => hs ⟨m, h⟩
      rw [rootMap_of_nonmap s hs']
      exact target_null l

theorem target_absent (s : Value) (keys : List String)
    (h : s.at? keys = none ∨ s.at? keys = some .null) : target s keys = .null := by
  rcases h with h | h
  · exact target_of_at?_none keys s h
  · exact target_of_at? s keys .null h

theorem setval_null (grow : Nat → Nat → Nat) (p : Patch) :
    setval grow p .null = some p.Val := by
  unfold setval
  cases p.Range with
  | none => rfl
  | some r =>
    simp only [setvalRange]
    cases p.Val <;> rfl

theorem resolveState_absent (grow : Nat → Nat → Nat) (state : Value) (p : Patch)
    (h : state.at? p.Keys = none ∨ state.at? p.Keys = some .null) :
    ResolveState grow state p = some (put state p.Val p.Keys, none) := by
  rw [ResolveState_eq, target_absent state p.Keys h, setval_null]
  rfl

theorem at?_nonmap_below (x : Value) (hx : ∀ m, x ≠ .map m) (pre : List String) (k : String)
    (rest : List String) (s : Value) (h : s.at? pre = some x) :
    s.at? (pre ++ k :: rest) = none := by
  rw [at?_append, h]
  exact at?_nonmap_cons x k rest hx

theorem at?_put_pre (v : Value) (k : String) (rest : List String) :
    ∀ (pre : List String) (s x : Value), s.at? pre = some x →
      ∃ w, (put s v (pre ++ k :: rest)).at? pre = some (.map ((rootMap x).assign k w)) := by
  intro pre
  induction pre with
  | nil =>
    intro s x h
    simp only [Value.at?, Option.some.injEq] at h
    subst h
    exact ⟨_, by rw [List.nil_append, put_cons]; rfl⟩
  | cons q pre ih =>
    intro s x h
    by_cases hs : ∃ m, s = .map m
    · obtain ⟨m, rfl⟩ := hs
      rw [at?_map_cons] at h
      cases hf : GoMap.find? m q with
      | none => rw [hf] at h; simp at h
      | some c =>
        rw [hf] at h
        obtain ⟨w, hw⟩ := ih c x h
        refine ⟨w, ?_⟩
        rw [List.cons_append, put_cons, at?_map_cons, GoMap.find?_assign_same]
        simp only [rootMap, GoMap.index_of_find? m q c hf, Option.some_bind]
        exact hw
    · have hs' : ∀ m, s ≠ .map m := fun m h => hs ⟨m, h⟩
      rw [at?_nonmap_cons s q _ hs'] at h
      simp at h

theorem at?_put_pre_map (v : Value) (k : String) (rest : List String) :
    ∀ (pre : List String) (s : Value),
      ∃ m, (put s v (pre ++ k :: rest)).at? pre = some (.map m) := by
  intro pre
  induction pre with
  | nil => intro s; exact ⟨_, by rw [List.nil_append, put_cons]; rfl⟩
  | cons q pre ih =>
    intro s
    obtain ⟨m, hm⟩ := ih ((rootMap s).index q)
    refine ⟨m, ?_⟩
    rw [List.cons_append, put_cons, at?_map_cons, GoMap.find?_assign_same]
    exact hm

theorem at?_put_append (v : Value) (r : List String) :
    ∀ (K : List String) (s : Value), (put s v K).at? (K ++ r) = v.at? r := by
  intro K
  induction K with
  | nil => intro s; rfl
  | cons q K ih =>
    intro s
    rw [List.cons_append, put_cons, at?_map_cons, GoMap.find?_assign_same]
    exact ih _

/-! ## Ranged writes over a value that is not a sequence -/

theorem spliceSlice_nil (grow : Nat → Nat → Nat) (lo hi : Int) (elems : List Value) :
    (lo ≠ 0 ∨ hi < 0 → spliceSlice grow ⟨[], 0⟩ (lo, hi) elems = none)
    ∧ (lo = 0 → 0 ≤ hi →
        ∃ spare, spliceSlice grow ⟨[], 0⟩ (lo, hi) elems = some (.seq elems spare)) := by
  constructor
  · intro h
    have hiff := spliceSlice_isSome_iff grow ⟨[], 0⟩ lo hi elems
    cases hs : spliceSlice grow ⟨[], 0⟩ (lo, hi) elems with
    | none => rfl
    | some v =>
      rw [hs] at hiff
      have := hiff.1 rfl
      simp only [List.length_nil, Nat.cast_zero] at this
      omega
  · intro hlo hhi
    subst hlo
    by_cases h0 : hi = 0
    · subst h0
      obtain ⟨tail, spare, he, hl, -⟩ := spliceSlice_inbounds grow [] [] elems 0 0 le_rfl le_rfl
      have ht : tail = [] := List.length_eq_zero.mp (by simpa using hl)
      subst ht
      exact ⟨spare, by simpa using he⟩
    · have hpos : (((⟨[], 0⟩ : Slice).len : Nat) : Int) < ((0 : Int), hi).2 := by
        have : (0 : Int) < hi := lt_of_le_of_ne hhi (Ne.symm h0)
        simpa using this
      obtain ⟨spare, hsp⟩ := goAppend_toValue grow ⟨[], 0⟩ elems (Nat.zero_le _)
      refine ⟨spare, ?_⟩
      unfold spliceSlice
      rw [if_pos hpos]
      simp only [Slice.upto, List.length_nil, Nat.cast_zero, le_refl, and_self, if_true,
        Int.toNat_zero, Option.map_some', hsp]
      simp

theorem setvalRange_other_type (grow : Nat → Nat → Nat) (lo hi : Int) (cur val : Value)
    (hnull : cur ≠ .null) (hseq : ∀ a b, cur ≠ .seq a b) :
    (∀ s, val ≠ .str s) →
    setvalRange grow (lo, hi) cur val
      = spliceSlice grow ⟨[], 0⟩ (lo, hi)
          (match val with
           | .seq R _ => R
           | v => [v]) := by
  intro hv
  cases val with
  | str s => exact absurd rfl (hv s)
  | _ =>
    cases cur with
    | null => exact absurd rfl hnull
    | seq a b => exact absurd rfl (hseq a b)
    | _ => rfl

/-- A ranged patch, of a value that is not a string, over a target that is
present and is not a sequence: line 86 assigns the value and the code goes on
with the nil slice.  The call panics unless `lo = 0` and `0 <= hi`; it then
leaves a sequence at the target: the elements of a sequence value, the one
element `v` for any other value. -/
theorem resolveState_ranged_other_type (grow : Nat → Nat → Nat) (state : Value) (p : Patch)
    (cur : Value) (lo hi : Int) (ht : state.at? p.Keys = some cur)
    (hnull : cur ≠ .null) (hseq : ∀ a b, cur ≠ .seq a b) (hv : ∀ s, p.Val ≠ .str s)
    (hr : p.Range = some (lo, hi)) :
    (lo ≠ 0 ∨ hi < 0 → ResolveState grow state p = none)
    ∧ (lo = 0 → 0 ≤ hi →
        ∃ st' spare, ResolveState grow state p = some (st', none)
          ∧ st'.at? p.Keys
              = some (.seq (match p.Val with
                            | .seq R _ => R
                            | v => [v]) spare)) := by
  have hset : setval grow p cur
      = spliceSlice grow ⟨[], 0⟩ (lo, hi)
          (match p.Val with
           | .seq R _ => R
           | v => [v]) := by
    simp only [setval, hr]
    exact setvalRange_other_type grow lo hi cur p.Val hnull hseq hv
  constructor
  · intro h
    rw [ResolveState_eq, target_of_at? state p.Keys cur ht, hset,
      (spliceSlice_nil grow lo hi _).1 h]
    rfl
  · intro hlo hhi
    obtain ⟨spare, hsp⟩ := (spliceSlice_nil grow lo hi
      (match p.Val with
       | .seq R _ => R
       | v => [v])).2 hlo hhi
    refine ⟨put state (.seq (match p.Val with
                            | .seq R _ => R
                            | v => [v]) spare) p.Keys, spare, ?_, at?_put _ _ _⟩
    rw [ResolveState_eq, target_of_at? state p.Keys cur ht, hset, hsp]
    rfl

/-! ## Equality of states as trees -/

theorem sameTree_refl (a : Value) : sameTree a a := fun _ => rfl

theorem sameTree_symm {a b : Value} (h : sameTree a b) : sameTree b a :=
  fun ks => (h ks).symm

theorem sameTree_trans {a b c : Value} (h1 : sameTree a b) (h2 : sameTree b c) :
    sameTree a c := fun ks => (h1 ks).trans (h2 ks)

theorem shape_of_nonmap (x : Value) (hx : ∀ m, x ≠ .map m) : x.shape = x := by
  cases x with
  | map m => exact absurd rfl (hx m)
  | _ => rfl

/-- Two values of which one is not a map are the same tree exactly when they
are equal. -/
theorem sameTree_nonmap_iff (a b : Value) (ha : ∀ m, a ≠ .map m) :
    sameTree a b ↔ a = b := by
  constructor
  · intro h
    have h0 := h []
    simp only [Value.at?, Option.map_some', Option.some.injEq] at h0
    rw [shape_of_nonmap a ha] at h0
    cases b with
    | map m =>
      simp only [Value.shape] at h0
      exact absurd h0 (ha [])
    | _ => simpa [Value.shape] using h0
  · intro h
    rw [h]
    exact sameTree_refl b

/-- Two maps are the same tree exactly when they hold the same keys and, under
each key, values that are the same tree. -/
theorem sameTree_map_iff (a b : GoMap) :
    sameTree (.map a) (.map b)
      ↔ ∀ k, match GoMap.find? a k, GoMap.find? b k with
             | some x, some y => sameTree x y
             | none, none => True
             | _, _ => False := by
  constructor
  · intro h k
    have hk := fun ks => h (k :: ks)
    simp only [at?_map_cons] at hk
    cases ha : GoMap.find? a k with
    | none =>
      cases hb : GoMap.find? b k with
      | none => trivial
      | some y =>
        have := hk []
        rw [ha, hb] at this
        simp [Value.at?] at this
    | some x =>
      cases hb : GoMap.find? b k with
      | none =>
        have := hk []
        rw [ha, hb] at this
        simp [Value.at?] at this
      | some y =>
        intro ks
        have := hk ks
        rw [ha, hb] at this
        simpa using this
  · intro h ks
    cases ks with
    | nil => rfl
    | cons k ks =>
      have hk := h k
      rw [at?_map_cons, at?_map_cons]
      cases ha : GoMap.find? a k with
      | none =>
        cases hb : GoMap.find? b k with
        | none => rfl
        | some y => rw [ha, hb] at hk; exact absurd hk id
      | some x =>
        cases hb : GoMap.find? b k with
        | none => rw [ha, hb] at hk; exact absurd hk id
        | some y =>
          rw [ha, hb] at hk
          simpa using hk ks

theorem exists_cons_of_proper_pre {ks K : List String} (h : ks <+: K) (hne : ks ≠ K) :
    ∃ k rest, K = ks ++ k :: rest := by
  obtain ⟨t, rfl⟩ := h
  cases t with
  | nil => exact absurd (List.append_nil ks).symm hne
  | cons k rest => exact ⟨k, rest, rfl⟩

/-- Writes at two key paths of which neither is a prefix of the other leave
the same tree in either order. -/
theorem put_comm (s v1 v2 : Value) (K1 K2 : List String)
    (h12 : ¬ K1 <+: K2) (h21 : ¬ K2 <+: K1) :
    sameTree (put (put s v1 K1) v2 K2) (put (put s v2 K2) v1 K1) := by
  intro ks
  by_cases c2 : K2 <+: ks
  · obtain ⟨r, rfl⟩ := c2
    have n1 : ¬ K2 ++ r <+: K1 := fun h => h21 ((List.prefix_append K2 r).trans h)
    have n2 : ¬ K1 <+: K2 ++ r := fun h =>
      (List.prefix_or_prefix_of_prefix h (List.prefix_append K2 r)).elim h12 h21
    rw [at?_put_append, at?_put_other _ _ K1 _ n1 n2, at?_put_append]
  · by_cases c1 : K1 <+: ks
    · obtain ⟨r, rfl⟩ := c1
      have n1 : ¬ K1 ++ r <+: K2 := fun h => h12 ((List.prefix_append K1 r).trans h)
      rw [at?_put_other _ _ K2 _ n1 c2, at?_put_append, at?_put_append]
    · by_cases p2 : ks <+: K2
      · have hne : ks ≠ K2 := fun e => c2 (e ▸ List.prefix_refl _)
        obtain ⟨k, rest, rfl⟩ := exists_cons_of_proper_pre p2 hne
        obtain ⟨m, hm⟩ := at?_put_pre_map v2 k rest ks (put s v1 K1)
        rw [hm]
        by_cases p1 : ks <+: K1
        · have hne1 : ks ≠ K1 := fun e => c1 (e ▸ List.prefix_refl _)
          obtain ⟨k', rest', rfl⟩ := exists_cons_of_proper_pre p1 hne1
          obtain ⟨m', hm'⟩ := at?_put_pre_map v1 k' rest' ks (put s v2 (ks ++ k :: rest))
          rw [hm']
          rfl
        · obtain ⟨m', hm'⟩ := at?_put_pre_map v2 k rest ks s
          rw [at?_put_other _ _ K1 _ p1 c1, hm']
          rfl
      · rw [at?_put_other _ _ K2 _ p2 c2]
        by_cases p1 : ks <+: K1
        · have hne1 : ks ≠ K1 := fun e => c1 (e ▸ List.prefix_refl _)
          obtain ⟨k', rest', rfl⟩ := exists_cons_of_proper_pre p1 hne1
          obtain ⟨m, hm⟩ := at?_put_pre_map v1 k' rest' ks s
          obtain ⟨m', hm'⟩ := at?_put_pre_map v1 k' rest' ks (put s v2 K2)
          rw [hm, hm']
          rfl
        · rw [at?_put_other _ _ K1 _ p1 c1, at?_put_other _ _ K1 _ p1 c1,
            at?_put_other _ _ K2 _ p2 c2]

/-- A value that is neither a string nor a sequence, written over a range
that is not empty (or at the end of the sequence), is one element of the
result: `s[0..lo)`, then `v`, then `s[hi..L)`. -/
theorem resolveState_one_element (grow : Nat → Nat → Nat) (state : Value) (p : Patch)
    (vis spare : List Value) (lo hi : Int)
    (ht : state.at? p.Keys = some (.seq vis spare)) (hs : ∀ s, p.Val ≠ .str s)
    (hq : ∀ R rs, p.Val ≠ .seq R rs) (hr : p.Range = some (lo, hi)) (h0 : 0 ≤ lo)
    (h1 : lo ≤ hi) (h2 : hi ≤ vis.length) (hno : lo < hi ∨ hi = vis.length) :
    ∃ st' spare', ResolveState grow state p = some (st', none)
      ∧ st'.at? p.Keys
          = some (.seq (vis.take lo.toNat ++ [p.Val] ++ vis.drop hi.toNat) spare') := by
  obtain ⟨tail, spare', he, hl, hex⟩ :=
    resolveState_seq_core grow state p vis spare lo hi ht hs hr h0 h1 h2
  have fin : ∀ elems : List Value, elems = [p.Val] →
      ResolveState grow state p
        = some (put state (.seq (vis.take lo.toNat ++ elems ++ tail) spare') p.Keys, none) →
      ((vis.length + spare.length < lo.toNat + elems.length
          ∨ lo.toNat + elems.length ≤ hi.toNat) → tail = vis.drop hi.toNat) →
      ∃ st' spare', ResolveState grow state p = some (st', none)
        ∧ st'.at? p.Keys
            = some (.seq (vis.take lo.toNat ++ [p.Val] ++ vis.drop hi.toNat) spare') := by
    intro elems hel he' hex'
    subst hel
    have htail : tail = vis.drop hi.toNat := by
      rcases hno with h | h
      · apply hex'
        right
        simp only [List.length_singleton]
        omega
      · have h3 : tail.length = 0 := by rw [hl]; omega
        have h4 : vis.drop hi.toNat = [] := by
          apply List.drop_eq_nil_of_le
          omega
        rw [h4]
        exact List.length_eq_zero.mp h3
    subst htail
    exact ⟨_, spare', he', at?_put _ _ _⟩
  cases hp : p.Val with
  | str s => exact absurd hp (hs s)
  | seq R rs => exact absurd hp (hq R rs)
  | null => rw [hp] at he hex fin; exact fin _ rfl he hex
  | bool b => rw [hp] at he hex fin; exact fin _ rfl he hex
  | num n => rw [hp] at he hex fin; exact fin _ rfl he hex
  | map m => rw [hp] at he hex fin; exact fin _ rfl he hex

/-! ## The byte order of the store and the scans of the iterators -/

theorem bytes_le_of_prefix {a b : List Nat} (h : a <+: b) : a ≤ b := by
  obtain ⟨t, rfl⟩ := h
  cases t with
  | nil => simp
  | cons x t =>
    apply le_of_lt
    have : List.Lex (· < ·) (a ++ []) (a ++ x :: t) := List.Lex.append_left _ List.Lex.nil a
    simpa using this

theorem tailBytes_append (ixSep : Nat) (a b : List Part) :
    Keypath.tailBytes ixSep (a ++ b) = Keypath.tailBytes ixSep a ++ Keypath.tailBytes ixSep b := by
  induction a with
  | nil => rfl
  | cons p a ih =>
    show Part.bytes ixSep p ++ Keypath.tailBytes ixSep (a ++ b)
      = (Part.bytes ixSep p ++ Keypath.tailBytes ixSep a) ++ Keypath.tailBytes ixSep b
    rw [ih, List.append_assoc]

theorem bytes_append (ixSep : Nat) (kp r : Keypath) :
    Keypath.bytes ixSep kp <+: Keypath.bytes ixSep (kp ++ r) := by
  cases kp with
  | nil => exact List.nil_prefix
  | cons p kp =>
    cases p with
    | key k =>
      show (utf8 k).map UInt8.toNat ++ Keypath.tailBytes ixSep kp
        <+: (utf8 k).map UInt8.toNat ++ Keypath.tailBytes ixSep (kp ++ r)
      rw [tailBytes_append, ← List.append_assoc]
      exact List.prefix_append _ _
    | index n =>
      show (ixSep :: be64 n) ++ Keypath.tailBytes ixSep kp
        <+: (ixSep :: be64 n) ++ Keypath.tailBytes ixSep (kp ++ r)
      rw [tailBytes_append, ← List.append_assoc]
      exact List.prefix_append _ _

/-- The ordering invariant of section 3: a keypath sorts, by its bytes, not
after the keypaths that start with it. -/
theorem bytes_le_of_startsWith (ixSep : Nat) {kp q : Keypath} (h : kp <+: q) :
    Keypath.bytes ixSep kp ≤ Keypath.bytes ixSep q := by
  obtain ⟨r, rfl⟩ := h
  exact bytes_le_of_prefix (bytes_append ixSep kp r)

theorem keysInStoreOrder_sorted (ixSep : Nat) (es : List (Keypath × Stored)) :
    (keysInStoreOrder ixSep es).Sorted
      (fun a b => Keypath.bytes ixSep a ≤ Keypath.bytes ixSep b) := by
  haveI : IsTotal Keypath (fun a b => Keypath.bytes ixSep a ≤ Keypath.bytes ixSep b) :=
    ⟨fun a b => le_total _ _⟩
  haveI : IsTrans Keypath (fun a b => Keypath.bytes ixSep a ≤ Keypath.bytes ixSep b) :=
    ⟨fun a b c h1 h2 => le_trans h1 h2⟩
  exact List.sorted_insertionSort _ _

theorem keysInStoreOrder_perm (ixSep : Nat) (es : List (Keypath × Stored)) :
    (keysInStoreOrder ixSep es).Perm (es.map fun e => e.1) :=
  List.perm_insertionSort _ _

theorem mem_keysInStoreOrder (ixSep : Nat) (es : List (Keypath × Stored)) (q : Keypath) :
    q ∈ keysInStoreOrder ixSep es ↔ q ∈ es.map (fun e => e.1) :=
  (keysInStoreOrder_perm ixSep es).mem_iff

theorem keysInStoreOrder_strict (ixSep : Nat) (es : List (Keypath × Stored))
    (hd : distinctKeys ixSep es) :
    (keysInStoreOrder ixSep es).Sorted
      (fun a b => Keypath.bytes ixSep a < Keypath.bytes ixSep b) := by
  have hs := keysInStoreOrder_sorted ixSep es
  have hn : ((keysInStoreOrder ixSep es).map (Keypath.bytes ixSep)).Nodup := by
    have hp := (keysInStoreOrder_perm ixSep es).map (Keypath.bytes ixSep)
    rw [hp.nodup_iff, List.map_map]
    exact hd
  have hne : (keysInStoreOrder ixSep es).Pairwise
      (fun a b => Keypath.bytes ixSep a ≠ Keypath.bytes ixSep b) := by
    rw [List.Nodup, List.pairwise_map] at hn
    exact hn
  exact (hs.and hne).imp fun h => lt_of_le_of_ne h.1 h.2

theorem takeWhile_eq_filter_of_pairwise {α : Type} (p : α → Bool) (l : List α)
    (h : l.Pairwise (fun a b => p b = true → p a = true)) : l.takeWhile p = l.filter p := by
  induction l with
  | nil => rfl
  | cons x xs ih =>
    have h' := List.pairwise_cons.mp h
    by_cases hp : p x = true
    · rw [List.takeWhile_cons, if_pos hp, List.filter_cons, if_pos hp, ih h'.2]
    · rw [List.takeWhile_cons, if_neg hp, List.filter_cons, if_neg hp]
      symm
      rw [List.filter_eq_nil_iff]
      intro z hz hpz
      exact hp (h'.1 z hz hpz)

theorem prefixScan_eq_filter (ixSep : Nat) (es : List (Keypath × Stored)) (kp : Keypath)
    (hc : subtreeContiguous ixSep es kp) :
    prefixScan ixSep es kp
      = (keysInStoreOrder ixSep es).filter (fun q => q.StartsWith kp) := by
  unfold prefixScan
  have hs := keysInStoreOrder_sorted ixSep es
  have hc' : ∀ q ∈ keysInStoreOrder ixSep es, ∀ d ∈ keysInStoreOrder ixSep es,
      kp <+: d → Keypath.bytes ixSep kp ≤ Keypath.bytes ixSep q →
        Keypath.bytes ixSep q ≤ Keypath.bytes ixSep d → kp <+: q :=
    fun q hq d hd => hc q ((mem_keysInStoreOrder ixSep es q).mp hq) d
      ((mem_keysInStoreOrder ixSep es d).mp hd)
  generalize keysInStoreOrder ixSep es = l at hs hc'
  induction l with
  | nil => rfl
  | cons x xs ih =>
    have hs' := List.pairwise_cons.mp hs
    by_cases hx : Keypath.bytes ixSep x < Keypath.bytes ixSep kp
    · have hp : ¬ x.StartsWith kp = true := by
        simp only [Keypath.StartsWith, decide_eq_true_eq]
        intro h
        exact absurd hx (not_lt_of_le (bytes_le_of_startsWith ixSep h))
      rw [List.dropWhile_cons, if_pos (by simpa using hx), List.filter_cons, if_neg hp]
      exact ih hs'.2 (fun q hq d hd => hc' q (List.mem_cons_of_mem _ hq) d
        (List.mem_cons_of_mem _ hd))
    · rw [List.dropWhile_cons, if_neg (by simpa using hx)]
      apply takeWhile_eq_filter_of_pairwise
      have hge : ∀ a ∈ x :: xs, Keypath.bytes ixSep kp ≤ Keypath.bytes ixSep a := by
        intro a ha
        rcases List.mem_cons.mp ha with rfl | ha
        · exact le_of_not_lt hx
        · exact le_trans (le_of_not_lt hx) (hs'.1 a ha)
      refine List.Pairwise.imp_of_mem ?_ hs
      intro a b ha hb hab hpb
      simp only [Keypath.StartsWith, decide_eq_true_eq] at hpb ⊢
      exact hc' a ha b hb hpb (hge a ha) hab

theorem reversePrefixScan_eq_filter (ixSep : Nat) (es : List (Keypath × Stored))
    (kp : Keypath) (hc : subtreeContiguous ixSep es kp) :
    reversePrefixScan ixSep es kp
      = ((keysInStoreOrder ixSep es).filter (fun q => q.StartsWith kp)).reverse := by
  unfold reversePrefixScan
  rw [← List.filter_reverse]
  have h0 := keysInStoreOrder_sorted ixSep es
  have hs : (keysInStoreOrder ixSep es).reverse.Pairwise
      (fun a b => Keypath.bytes ixSep b ≤ Keypath.bytes ixSep a) := by
    rw [List.pairwise_reverse]
    exact h0
  have hc' : ∀ q ∈ (keysInStoreOrder ixSep es).reverse,
      ∀ d ∈ (keysInStoreOrder ixSep es).reverse,
      kp <+: d → Keypath.bytes ixSep kp ≤ Keypath.bytes ixSep q →
        Keypath.bytes ixSep q ≤ Keypath.bytes ixSep d → kp <+: q :=
    fun q hq d hd => hc q ((mem_keysInStoreOrder ixSep es q).mp (List.mem_reverse.mp hq)) d
      ((mem_keysInStoreOrder ixSep es d).mp (List.mem_reverse.mp hd))
  generalize (keysInStoreOrder ixSep es).reverse = l at hs hc'
  induction l with
  | nil => rfl
  | cons x xs ih =>
    have hs' := List.pairwise_cons.mp hs
    by_cases hx : Keypath.bytes ixSep kp < Keypath.bytes ixSep x ∧ ¬ x.StartsWith kp = true
    · rw [List.dropWhile_cons, if_pos (by simpa using hx), List.filter_cons, if_neg hx.2]
      exact ih hs'.2 (fun q hq d hd => hc' q (List.mem_cons_of_mem _ hq) d
        (List.mem_cons_of_mem _ hd))
    · rw [List.dropWhile_cons, if_neg (by simpa using hx)]
      apply takeWhile_eq_filter_of_pairwise
      have hle : ∀ a ∈ x :: xs, Keypath.bytes ixSep a ≤ Keypath.bytes ixSep x := by
        intro a ha
        rcases List.mem_cons.mp ha with rfl | ha
        · exact le_refl _
        · exact hs'.1 a ha
      refine List.Pairwise.imp_of_mem ?_ hs
      intro a b ha hb hba hpb
      simp only [Keypath.StartsWith, decide_eq_true_eq] at hpb ⊢
      have hkb := bytes_le_of_startsWith ixSep hpb
      by_cases hpx : x.StartsWith kp = true
      · simp only [Keypath.StartsWith, decide_eq_true_eq] at hpx
        exact hc' a ha x (List.mem_cons_self _ _) hpx (le_trans hkb hba) (hle a ha)
      · have hxk : Keypath.bytes ixSep x ≤ Keypath.bytes ixSep kp := by
          apply le_of_not_lt
          intro hlt
          exact hx ⟨hlt, hpx⟩
        exact hc' a ha b hb hpb (le_trans hkb hba)
          (le_trans (hle a ha) (le_trans hxk hkb))

theorem mem_prefixScan (ixSep : Nat) (es : List (Keypath × Stored)) (kp q : Keypath)
    (hc : subtreeContiguous ixSep es kp) :
    q ∈ prefixScan ixSep es kp ↔ q ∈ es.map (fun e => e.1) ∧ kp <+: q := by
  rw [prefixScan_eq_filter ixSep es kp hc, List.mem_filter, mem_keysInStoreOrder]
  simp [Keypath.StartsWith]

theorem prefixScan_sublist (ixSep : Nat) (es : List (Keypath × Stored)) (kp : Keypath) :
    (prefixScan ixSep es kp).Sublist (keysInStoreOrder ixSep es) :=
  (List.takeWhile_sublist _).trans (List.dropWhile_sublist _)

theorem prefixScan_sound (ixSep : Nat) (es : List (Keypath × Stored)) (kp q : Keypath)
    (h : q ∈ prefixScan ixSep es kp) : q ∈ es.map (fun e => e.1) ∧ kp <+: q := by
  refine ⟨(mem_keysInStoreOrder ixSep es q).mp ((prefixScan_sublist ixSep es kp).subset h), ?_⟩
  have := List.mem_takeWhile_imp h
  simpa [Keypath.StartsWith] using this

theorem prefixScan_nil_of_absent (ixSep : Nat) (es : List (Keypath × Stored)) (kp : Keypath)
    (ht : treeInvariant es) (h : kp ∉ es.map (fun e => e.1)) : prefixScan ixSep es kp = [] := by
  rw [List.eq_nil_iff_forall_not_mem]
  intro q hq
  obtain ⟨hm, r, rfl⟩ := prefixScan_sound ixSep es kp q hq
  exact h (mem_of_descendant es kp ht r hm)

theorem mem_takeWhile_of_lt {α : Type} (r : α → α → Prop)
    (hasym : ∀ a b, r a b → ¬ r b a) (p : α → Bool) :
    ∀ (l : List α), l.Pairwise r → ∀ d q, d ∈ l.takeWhile p → q ∈ l → r q d → p q = true := by
  intro l
  induction l with
  | nil => intro _ d q hd; simp at hd
  | cons x xs ih =>
    intro hs d q hd hq hqd
    have hs' := List.pairwise_cons.mp hs
    by_cases hp : p x = true
    · rw [List.takeWhile_cons, if_pos hp] at hd
      rcases List.mem_cons.mp hq with rfl | hq'
      · exact hp
      · rcases List.mem_cons.mp hd with rfl | hd'
        · exact absurd hqd (hasym _ _ (hs'.1 q hq'))
        · exact ih hs'.2 d q hd' hq' hqd
    · rw [List.takeWhile_cons, if_neg hp] at hd
      simp at hd

/-- The forward scan stops at the first key outside the subtree: a stored
keypath that sorts from `kp` on and strictly before a yielded keypath starts
with `kp`. -/
theorem prefixScan_stops_at_gap (ixSep : Nat) (es : List (Keypath × Stored)) (kp q d : Keypath)
    (hd : distinctKeys ixSep es) (hq : q ∈ es.map (fun e => e.1))
    (h1 : Keypath.bytes ixSep kp ≤ Keypath.bytes ixSep q)
    (h2 : Keypath.bytes ixSep q < Keypath.bytes ixSep d)
    (hy : d ∈ prefixScan ixSep es kp) : kp <+: q := by
  have hs := keysInStoreOrder_strict ixSep es hd
  have hq' := (mem_keysInStoreOrder ixSep es q).mpr hq
  have hsplit := List.takeWhile_append_dropWhile
    (fun q => decide (Keypath.bytes ixSep q < Keypath.bytes ixSep kp)) (keysInStoreOrder ixSep es)
  have hqR : q ∈ (keysInStoreOrder ixSep es).dropWhile
      (fun q => decide (Keypath.bytes ixSep q < Keypath.bytes ixSep kp)) := by
    rw [← hsplit] at hq'
    rcases List.mem_append.mp hq' with h | h
    · have := List.mem_takeWhile_imp h
      simp only [decide_eq_true_eq] at this
      exact absurd this (not_lt_of_le h1)
    · exact h
  have hsR : ((keysInStoreOrder ixSep es).dropWhile
      (fun q => decide (Keypath.bytes ixSep q < Keypath.bytes ixSep kp))).Pairwise
      (fun a b => Keypath.bytes ixSep a < Keypath.bytes ixSep b) :=
    hs.sublist (List.dropWhile_sublist _)
  have := mem_takeWhile_of_lt (fun a b => Keypath.bytes ixSep a < Keypath.bytes ixSep b)
    (fun a b h => not_lt_of_lt h) (fun q => q.StartsWith kp) _ hsR d q
    hy hqR h2
  simpa [Keypath.StartsWith] using this

/-- A range that ends beyond a sequence target, for any value that is not a
string: the target becomes `s[0..lo)` followed by the elements of a sequence
value, or by the single value otherwise. -/
theorem resolveState_drop_tail_any (grow : Nat → Nat → Nat) (state : Value) (p : Patch)
    (vis spare : List Value) (lo hi : Int)
    (ht : state.at? p.Keys = some (.seq vis spare)) (hs : ∀ s, p.Val ≠ .str s)
    (hr : p.Range = some (lo, hi)) (h0 : 0 ≤ lo) (h1 : lo ≤ vis.length)
    (h2 : (vis.length : Int) < hi) :
    ∃ st' spare',
      ResolveState grow state p = some (st', none)
      ∧ st'.at? p.Keys
          = some (.seq (vis.take lo.toNat
              ++ (match p.Val with
                  | .seq R _ => R
                  | v => [v])) spare') := by
  obtain ⟨a, rfl⟩ := Int.eq_ofNat_of_zero_le h0
  have ha : a ≤ vis.length := by omega
  have hx0 : (⟨vis ++ spare, a⟩ : Slice).len ≤ (⟨vis ++ spare, a⟩ : Slice).arr.length := by
    simp only [List.length_append]; omega
  have hta : (vis ++ spare).take a = vis.take a := by
    rw [List.take_append_of_le_length ha]
  have hcap : (a : Int) ≤ ((vis ++ spare).length : Int) := by
    simp only [List.length_append]; omega
  have key : ∀ elems : List Value, ∃ sp,
      spliceSlice grow (Value.seq vis spare).toSlice ((a : Int), hi) elems
        = some (.seq (vis.take a ++ elems) sp) := by
    intro elems
    obtain ⟨sp, hsp⟩ := goAppend_toValue grow ⟨vis ++ spare, a⟩ elems hx0
    refine ⟨sp, ?_⟩
    simp only [Value.toSlice, spliceSlice, h2, if_true, Slice.upto, hcap, Int.ofNat_zero_le,
      and_self, Option.map_some', hsp, hta, Int.toNat_ofNat]
  have fin : ∀ elems : List Value,
      setval grow p (.seq vis spare)
        = spliceSlice grow (Value.seq vis spare).toSlice ((a : Int), hi) elems →
      ∃ st' spare', ResolveState grow state p = some (st', none)
        ∧ st'.at? p.Keys = some (.seq (vis.take (a : Int).toNat ++ elems) spare') := by
    intro elems he
    obtain ⟨sp, hsp⟩ := key elems
    refine ⟨put state (.seq (vis.take a ++ elems) sp) p.Keys, sp, ?_, ?_⟩
    · rw [ResolveState_eq, target_of_at? state p.Keys _ ht, he, hsp]
      rfl
    · rw [Int.toNat_ofNat]
      exact at?_put _ _ _
  cases hp : p.Val with
  | str s => exact absurd hp (hs s)
  | seq R rs => exact fin R (by simp only [setval, hr, hp, setvalRange])
  | null => exact fin [.null] (by simp only [setval, hr, hp, setvalRange])
  | bool b => exact fin [.bool b] (by simp only [setval, hr, hp, setvalRange])
  | num n => exact fin [.num n] (by simp only [setval, hr, hp, setvalRange])
  | map m => exact fin [.map m] (by simp only [setval, hr, hp, setvalRange])

/-! ## The claims -/

/-- C1: the ranged write overwrites the tail it should keep when the backing
array has room for the replacement.  On the three-element sequence `[1,2,3]`
of capacity four, writing `[5,6]` over the range `[1,2)` leaves `[1,5,6,6]`,
not the splice `[1,5,6,3]`: the first `append` writes `6` over the element `3`
before `s[2:]` is read. -/
theorem resolveState_splice_clobbers_tail :
    spareState.at? sparePatch.Keys = some (.seq [.num 1, .num 2, .num 3] [.null])
    ∧ ResolveState exactFit spareState sparePatch
        = some (.map [("k", .seq [.num 1, .num 5, .num 6, .num 6] [])], none)
    ∧ ([.num 1, .num 5, .num 6, .num 6] : List Value)
        ≠ [.num 1, .num 2, .num 3].take 1 ++ [.num 5, .num 6]
            ++ [.num 1, .num 2, .num 3].drop 2 := by
  decide

/-- C2: a ranged string patch on a string target `s`, with `0 <= lo <= hi <=
len(s)`, returns normally and leaves `s[:lo] + v + s[hi:]` at the target. -/
theorem resolveState_string_splice (grow : Nat → Nat → Nat) (state : Value) (p : Patch)
    (s v : List UInt8) (lo hi : Int)
    (ht : state.at? p.Keys = some (.str s)) (hv : p.Val = .str v)
    (hr : p.Range = some (lo, hi)) (h0 : 0 ≤ lo) (h1 : lo ≤ hi) (h2 : hi ≤ s.length) :
    ∃ st', ResolveState grow state p = some (st', none)
      ∧ st'.at? p.Keys = some (.str (s.take lo.toNat ++ v ++ s.drop hi.toNat)) := by
  obtain ⟨a, rfl⟩ := Int.eq_ofNat_of_zero_le h0
  obtain ⟨b, rfl⟩ := Int.eq_ofNat_of_zero_le (le_trans h0 h1)
  refine ⟨put state (.str (s.take a ++ v ++ s.drop b)) p.Keys, ?_, at?_put _ _ _⟩
  rw [ResolveState_eq, target_of_at? state p.Keys _ ht]
  simp only [setval, hr, hv, setvalRange]
  rw [spliceString_inbounds s v a b (by omega) (by omega)]
  simp

/-- Scenario S1 of C2: `"abcdefgh"` with range `[3,6)` and value `"xx"` gives
`"abcxxgh"`. -/
theorem resolveState_string_splice_witness :
    stringState.at? stringPatch.Keys = some (.str (utf8 "abcdefgh"))
    ∧ (utf8 "abcdefgh").take 3 ++ utf8 "xx" ++ (utf8 "abcdefgh").drop 6 = utf8 "abcxxgh"
    ∧ ∃ st', ResolveState exactFit stringState stringPatch = some (st', none)
        ∧ st'.at? stringPatch.Keys
            = some (.str ((utf8 "abcdefgh").take (3 : Int).toNat ++ utf8 "xx"
                ++ (utf8 "abcdefgh").drop (6 : Int).toNat)) :=
  ⟨by decide, by decide,
    resolveState_string_splice exactFit stringState stringPatch (utf8 "abcdefgh") (utf8 "xx")
      3 6 (by decide) rfl rfl (by decide) (by decide) (by decide)⟩

/-- C3: a patch without a range returns normally with a nil error, and following
`p.Keys` through the nested maps of the returned state reaches exactly `p.Val`,
whatever the previous state was (absent, scalar, sequence or map).  The key
path may be of any length; the claim is the case of a non-empty one. -/
theorem resolveState_write_then_read (grow : Nat → Nat → Nat) (state : Value) (p : Patch)
    (hr : p.Range = none) :
    ∃ st', ResolveState grow state p = some (st', none) ∧ st'.at? p.Keys = some p.Val :=
  ⟨put state p.Val p.Keys, ResolveState_noRange grow state p hr, at?_put _ _ _⟩

/-- An instance of C3: the patch `.refs.heads.master = {...}` written over a
number. -/
theorem resolveState_write_then_read_witness :
    headPatch.Keys ≠ [] ∧ headPatch.Range = none
    ∧ ∃ st', ResolveState exactFit (.num 7) headPatch = some (st', none)
        ∧ st'.at? headPatch.Keys = some headPatch.Val :=
  ⟨by decide, rfl, resolveState_write_then_read exactFit (.num 7) headPatch rfl⟩

/-- C4: a patch without a range on the key path `K` leaves the reading of every
key path `Q` that is neither a prefix of `K` nor prefixed by `K` as it was (the
same value, or absent in both states). -/
theorem resolveState_prefix_locality (grow : Nat → Nat → Nat) (state : Value) (p : Patch)
    (Q : List String) (hr : p.Range = none) (h1 : ¬ Q <+: p.Keys) (h2 : ¬ p.Keys <+: Q) :
    ∃ st', ResolveState grow state p = some (st', none) ∧ st'.at? Q = state.at? Q :=
  ⟨put state p.Val p.Keys, ResolveState_noRange grow state p hr,
    at?_put_other state p.Val p.Keys Q h1 h2⟩

/-- An instance of C4: writing `.commits.<hash>` leaves `.refs.heads` as it
was. -/
theorem resolveState_prefix_locality_witness :
    commitPatch.Range = none
    ∧ ¬ ["refs", "heads"] <+: commitPatch.Keys ∧ ¬ commitPatch.Keys <+: ["refs", "heads"]
    ∧ ∃ st', ResolveState exactFit genesisState commitPatch = some (st', none)
        ∧ st'.at? ["refs", "heads"] = genesisState.at? ["refs", "heads"] :=
  ⟨rfl, by decide, by decide,
    resolveState_prefix_locality exactFit genesisState commitPatch ["refs", "heads"] rfl
      (by decide) (by decide)⟩

/-- C5: a patch with an empty key path and no range returns exactly `p.Val` and
a nil error, whatever the previous state was. -/
theorem resolveState_replace_root (grow : Nat → Nat → Nat) (state : Value) (p : Patch)
    (hk : p.Keys = []) (hr : p.Range = none) :
    ResolveState grow state p = some (p.Val, none) := by
  rw [ResolveState_noRange grow state p hr, hk]
  rfl

/-- An instance of C5: the genesis patch of the git demo over a previous
state. -/
theorem resolveState_replace_root_witness :
    (⟨[], none, genesisState⟩ : Patch).Keys = []
    ∧ (⟨[], none, genesisState⟩ : Patch).Range = none
    ∧ ResolveState exactFit sliceState ⟨[], none, genesisState⟩
        = some ((⟨[], none, genesisState⟩ : Patch).Val, none) :=
  ⟨rfl, rfl, resolveState_replace_root exactFit sliceState ⟨[], none, genesisState⟩ rfl rfl⟩

/-- C6: for two patches without a range on the same key path, resolving the
first and then the second gives the same result as resolving the second alone;
resolving the same patch twice gives the same result as resolving it once. -/
theorem resolveState_last_write_wins (grow : Nat → Nat → Nat) (state : Value)
    (p1 p2 : Patch) (hr1 : p1.Range = none) (hr2 : p2.Range = none)
    (hk : p1.Keys = p2.Keys) :
    ∃ s1, ResolveState grow state p1 = some (s1, none)
      ∧ ResolveState grow s1 p2 = ResolveState grow state p2
      ∧ ResolveState grow s1 p1 = ResolveState grow state p1 := by
  refine ⟨put state p1.Val p1.Keys, ResolveState_noRange grow state p1 hr1, ?_, ?_⟩
  · rw [ResolveState_noRange grow _ p2 hr2, ResolveState_noRange grow _ p2 hr2, hk, put_put]
  · rw [ResolveState_noRange grow _ p1 hr1, ResolveState_noRange grow _ p1 hr1, put_put]

/-- An instance of C6: two writes of `.refs.heads.master` on the genesis
state. -/
theorem resolveState_last_write_wins_witness :
    (⟨["refs", "heads", "master"], none, .num 1⟩ : Patch).Range = none
    ∧ headPatch.Range = none
    ∧ (⟨["refs", "heads", "master"], none, .num 1⟩ : Patch).Keys = headPatch.Keys
    ∧ ∃ s1, ResolveState exactFit genesisState ⟨["refs", "heads", "master"], none, .num 1⟩
          = some (s1, none)
        ∧ ResolveState exactFit s1 headPatch = ResolveState exactFit genesisState headPatch
        ∧ ResolveState exactFit s1 ⟨["refs", "heads", "master"], none, .num 1⟩
          = ResolveState exactFit genesisState ⟨["refs", "heads", "master"], none, .num 1⟩ :=
  ⟨rfl, rfl, rfl,
    resolveState_last_write_wins exactFit genesisState
      ⟨["refs", "heads", "master"], none, .num 1⟩ headPatch rfl rfl rfl⟩

/-- C7: two patches without a range, on non-empty key paths neither of which is
a prefix of the other, resolved one after the other: both calls return
normally, and in the final state reading `p1.Keys` yields `p1.Val` and reading
`p2.Keys` yields `p2.Val`. -/
theorem resolveState_fold_keeps_earlier_write (grow : Nat → Nat → Nat) (state : Value)
    (p1 p2 : Patch) (hr1 : p1.Range = none) (hr2 : p2.Range = none)
    (h12 : ¬ p1.Keys <+: p2.Keys) (h21 : ¬ p2.Keys <+: p1.Keys) :
    ∃ s1 s2, ResolveState grow state p1 = some (s1, none)
      ∧ ResolveState grow s1 p2 = some (s2, none)
      ∧ s2.at? p1.Keys = some p1.Val ∧ s2.at? p2.Keys = some p2.Val := by
  refine ⟨put state p1.Val p1.Keys, put (put state p1.Val p1.Keys) p2.Val p2.Keys,
    ResolveState_noRange grow state p1 hr1, ResolveState_noRange grow _ p2 hr2, ?_,
    at?_put _ _ _⟩
  rw [at?_put_other _ p2.Val p2.Keys p1.Keys h12 h21]
  exact at?_put _ _ _

/-- Scenario S4 of C7: on the genesis state, the commit patches on
`.commits.<hash>` and `.refs.heads.master`; reading `refs.heads.master.HEAD`
in the final state yields the hash. -/
theorem resolveState_fold_keeps_earlier_write_witness :
    commitPatch.Range = none ∧ headPatch.Range = none
    ∧ commitPatch.Keys ≠ [] ∧ headPatch.Keys ≠ []
    ∧ ¬ commitPatch.Keys <+: headPatch.Keys ∧ ¬ headPatch.Keys <+: commitPatch.Keys
    ∧ (∃ s1 s2, ResolveState exactFit genesisState commitPatch = some (s1, none)
        ∧ ResolveState exactFit s1 headPatch = some (s2, none)
        ∧ s2.at? commitPatch.Keys = some commitPatch.Val
        ∧ s2.at? headPatch.Keys = some headPatch.Val)
    ∧ ((ResolveState exactFit genesisState commitPatch).bind fun r1 =>
        (ResolveState exactFit r1.1 headPatch).bind fun r2 =>
          r2.1.at? ["refs", "heads", "master", "HEAD"]) = some (.str (utf8 commit1Hash)) :=
  ⟨rfl, rfl, by decide, by decide, by decide, by decide,
    resolveState_fold_keeps_earlier_write exactFit genesisState commitPatch headPatch rfl rfl
      (by decide) (by decide),
    by decide⟩

/-- C8: a ranged sequence patch on a sequence target of length `L`, with
`0 <= lo <= hi <= L`, returns normally and leaves at the target a sequence of
length `L + |R| - (hi - lo)`. -/
theorem resolveState_splice_length (grow : Nat → Nat → Nat) (state : Value) (p : Patch)
    (vis spare R rs : List Value) (lo hi : Int)
    (ht : state.at? p.Keys = some (.seq vis spare)) (hv : p.Val = .seq R rs)
    (hr : p.Range = some (lo, hi)) (h0 : 0 ≤ lo) (h1 : lo ≤ hi) (h2 : hi ≤ vis.length) :
    ∃ st' vis' spare', ResolveState grow state p = some (st', none)
      ∧ st'.at? p.Keys = some (.seq vis' spare')
      ∧ (vis'.length : Int) = vis.length + R.length - (hi - lo) := by
  obtain ⟨st', tail, spare', he, hat, hl, _⟩ :=
    resolveState_ranged_seq grow state p vis spare R rs lo hi ht hv hr h0 h1 h2
  refine ⟨st', _, spare', he, hat, ?_⟩
  simp only [List.length_append, List.length_take, hl]
  omega

/-- An instance of C8: four elements, range `[1,3)`, four new elements: six
elements. -/
theorem resolveState_splice_length_witness :
    sliceState.at? slicePatch.Keys = some (.seq [.num 1, .num 2, .num 3, .num 4] [])
    ∧ slicePatch.Val = .seq [.num 5, .num 6, .num 7, .num 8] []
    ∧ slicePatch.Range = some (1, 3)
    ∧ ∃ st' vis' spare', ResolveState exactFit sliceState slicePatch = some (st', none)
        ∧ st'.at? slicePatch.Keys = some (.seq vis' spare')
        ∧ (vis'.length : Int)
            = ([.num 1, .num 2, .num 3, .num 4] : List Value).length
              + ([.num 5, .num 6, .num 7, .num 8] : List Value).length - (3 - 1) :=
  ⟨by decide, rfl, rfl,
    resolveState_splice_length exactFit sliceState slicePatch [.num 1, .num 2, .num 3, .num 4] []
      [.num 5, .num 6, .num 7, .num 8] [] 1 3 (by decide) rfl rfl
      (by decide) (by decide) (by decide)⟩

/-- C9, as stated, fails: after writing four elements over the range `[1,3)` of
a four-element sequence, the elements at positions 1..2 are the first two of
the four written, not all of them. -/
theorem splice_range_read_back_fails :
    sliceState.at? slicePatch.Keys = some (.seq [.num 1, .num 2, .num 3, .num 4] [])
    ∧ ∃ st' vis' spare', ResolveState exactFit sliceState slicePatch = some (st', none)
        ∧ st'.at? slicePatch.Keys = some (.seq vis' spare')
        ∧ readRange vis' 1 3 ≠ [.num 5, .num 6, .num 7, .num 8] :=
  ⟨by decide,
    .map [("foo", .map [("bar", .map [("baz", .num 123)]),
        ("slice", .seq [.num 1, .num 5, .num 6, .num 7, .num 8, .num 4] [])])],
    [.num 1, .num 5, .num 6, .num 7, .num 8, .num 4], [], by decide, by decide, by decide⟩

/-- C9, amended: after a ranged sequence patch `R` on an existing sequence, with
`0 <= lo <= hi <= L`, the elements at positions `lo .. lo+|R|-1` of the
sequence left at the target are exactly `R`; reading the range `[lo,hi)`
itself returns `R` when `|R| = hi - lo`. -/
theorem resolveState_range_read_back (grow : Nat → Nat → Nat) (state : Value) (p : Patch)
    (vis spare R rs : List Value) (lo hi : Int)
    (ht : state.at? p.Keys = some (.seq vis spare)) (hv : p.Val = .seq R rs)
    (hr : p.Range = some (lo, hi)) (h0 : 0 ≤ lo) (h1 : lo ≤ hi) (h2 : hi ≤ vis.length) :
    ∃ st' vis' spare', ResolveState grow state p = some (st', none)
      ∧ st'.at? p.Keys = some (.seq vis' spare')
      ∧ readRange vis' lo.toNat (lo.toNat + R.length) = R
      ∧ ((R.length : Int) = hi - lo → readRange vis' lo.toNat hi.toNat = R) := by
  obtain ⟨st', tail, spare', he, hat, _, _⟩ :=
    resolveState_ranged_seq grow state p vis spare R rs lo hi ht hv hr h0 h1 h2
  have hlen : (vis.take lo.toNat).length = lo.toNat := by
    simp only [List.length_take]; omega
  have key : readRange (vis.take lo.toNat ++ R ++ tail) lo.toNat (lo.toNat + R.length) = R := by
    unfold readRange
    rw [List.append_assoc, List.drop_left' hlen, Nat.add_sub_cancel_left, List.take_left']
    rfl
  refine ⟨st', _, spare', he, hat, key, ?_⟩
  intro hR
  have : hi.toNat = lo.toNat + R.length := by omega
  rw [this]
  exact key

/-- An instance of amended C9: the four elements written at `[1,3)` are read
back at positions 1..4. -/
theorem resolveState_range_read_back_witness :
    sliceState.at? slicePatch.Keys = some (.seq [.num 1, .num 2, .num 3, .num 4] [])
    ∧ slicePatch.Val = .seq [.num 5, .num 6, .num 7, .num 8] []
    ∧ slicePatch.Range = some (1, 3)
    ∧ ∃ st' vis' spare', ResolveState exactFit sliceState slicePatch = some (st', none)
        ∧ st'.at? slicePatch.Keys = some (.seq vis' spare')
        ∧ readRange vis' (1 : Int).toNat
            ((1 : Int).toNat + ([.num 5, .num 6, .num 7, .num 8] : List Value).length)
            = [.num 5, .num 6, .num 7, .num 8]
        ∧ ((([.num 5, .num 6, .num 7, .num 8] : List Value).length : Int) = 3 - 1 →
            readRange vis' (1 : Int).toNat (3 : Int).toNat
              = [.num 5, .num 6, .num 7, .num 8]) :=
  ⟨by decide, rfl, rfl,
    resolveState_range_read_back exactFit sliceState slicePatch [.num 1, .num 2, .num 3, .num 4] []
      [.num 5, .num 6, .num 7, .num 8] [] 1 3 (by decide) rfl rfl
      (by decide) (by decide) (by decide)⟩

/-- C10 fails on the code: `ResolveState` validates no range and has no error
return.  `.k[3:1] = [9]` on `[1,2,3]` (`lo > hi`) returns the state
`[1,2,3,9,2,3]` with a nil error, and `.k[3:3] = [9]` on `[1,2]` held in an
array of capacity four (`lo > L`) returns `[1,2,nil,9]`, the slice expression
`s[:3]` reaching into the spare capacity. -/
theorem resolveState_invalid_range_not_rejected :
    tightState.at? invertedPatch.Keys = some (.seq [.num 1, .num 2, .num 3] [])
    ∧ invertedPatch.Range = some (3, 1)
    ∧ ResolveState exactFit tightState invertedPatch
        = some (.map [("k", .seq [.num 1, .num 2, .num 3, .num 9, .num 2, .num 3] [])], none)
    ∧ roomyState.at? beyondPatch.Keys = some (.seq [.num 1, .num 2] [.null, .null])
    ∧ beyondPatch.Range = some (3, 3)
    ∧ ResolveState exactFit roomyState beyondPatch
        = some (.map [("k", .seq [.num 1, .num 2, .null, .num 9] [])], none) := by
  decide

/-- C11 fails on the code: `ResolveState` does not count negative bounds from
the end.  The patch `.foo.string[-5:-2] = "xx"` on `"abcdefgh"` (normalised
bounds `[3,6)`, expected `"abcxxgh"`) and the patch `.foo.slice[-3:-1] =
[5,6,7,8]` on a four-element sequence both panic on a slice bound. -/
theorem resolveState_negative_not_normalised :
    stringState.at? negativeStringPatch.Keys = some (.str (utf8 "abcdefgh"))
    ∧ ((utf8 "abcdefgh").length : Int) + (-5) = 3
    ∧ ((utf8 "abcdefgh").length : Int) + (-2) = 6
    ∧ ResolveState exactFit stringState negativeStringPatch = none
    ∧ ResolveState exactFit sliceState negativeSlicePatch = none := by
  decide

/-- C12, as stated, fails for a string written over a sequence: `.k[1:5] =
"xx"` on `[1,2]` (`0 <= lo <= L < hi`) leaves the string `"xx"` at the target,
without the element `t[0..lo) = [1]`: by lines 69-71 a string replaces a
target that is not a string. -/
theorem resolveState_overrun_replaces_sequence :
    shortState.at? stringOverSeqPatch.Keys = some (.seq [.num 1, .num 2] [])
    ∧ stringOverSeqPatch.Range = some (1, 5)
    ∧ (1 : Int) ≤ ([.num 1, .num 2] : List Value).length
    ∧ (([.num 1, .num 2] : List Value).length : Int) < 5
    ∧ ResolveState exactFit shortState stringOverSeqPatch
        = some (.map [("k", .str (utf8 "xx"))], none)
    ∧ (ResolveState exactFit shortState stringOverSeqPatch).bind
          (fun r => r.1.at? stringOverSeqPatch.Keys) = some (.str (utf8 "xx")) := by
  decide

/-- C12, amended: a range that starts inside the target and ends beyond it,
`0 <= lo <= L < hi`, drops the tail when the value is of the kind of the
target.  A string on a string target `s` leaves `s[:lo] + v`; a value that is
not a string on a sequence target `s` leaves `s[0..lo)` followed by the
elements of the value when it is a sequence, and by the value as one element
otherwise.  Nothing follows the replacement and nothing pads the result up to
`hi`. -/
theorem resolveState_overrun_drops_tail (grow : Nat → Nat → Nat) (state : Value) (p : Patch)
    (lo hi : Int) (hr : p.Range = some (lo, hi)) (h0 : 0 ≤ lo) :
    (∀ s v, state.at? p.Keys = some (.str s) → p.Val = .str v →
        lo ≤ s.length → (s.length : Int) < hi →
        ∃ st', ResolveState grow state p = some (st', none)
          ∧ st'.at? p.Keys = some (.str (s.take lo.toNat ++ v)))
    ∧ (∀ vis spare, state.at? p.Keys = some (.seq vis spare) → (∀ s, p.Val ≠ .str s) →
        lo ≤ vis.length → (vis.length : Int) < hi →
        ∃ st' spare', ResolveState grow state p = some (st', none)
          ∧ st'.at? p.Keys
              = some (.seq (vis.take lo.toNat
                  ++ (match p.Val with
                      | .seq R _ => R
                      | v => [v])) spare')) :=
  ⟨fun s v ht hv h1 h2 => resolveState_string_drop_tail grow state p s v lo hi ht hv hr h0 h1 h2,
    fun vis spare ht hv h1 h2 =>
      resolveState_drop_tail_any grow state p vis spare lo hi ht hv hr h0 h1 h2⟩

/-- Instances of amended C12: `"abcdefgh"` with `[3,20) := "xx"` gives
`"abcxx"`, `[1,2]` with `[1,5) := [9]` gives `[1,9]`, and `[1,2]` with
`[1,5) := 9` gives `[1,9]`. -/
theorem resolveState_overrun_drops_tail_witness :
    (stringOverrunPatch.Range = some (3, 20) ∧ (0 : Int) ≤ 3
      ∧ stringState.at? stringOverrunPatch.Keys = some (.str (utf8 "abcdefgh"))
      ∧ stringOverrunPatch.Val = .str (utf8 "xx")
      ∧ (3 : Int) ≤ (utf8 "abcdefgh").length ∧ ((utf8 "abcdefgh").length : Int) < 20
      ∧ (utf8 "abcdefgh").take (3 : Int).toNat ++ utf8 "xx" = utf8 "abcxx"
      ∧ ∃ st', ResolveState exactFit stringState stringOverrunPatch = some (st', none)
          ∧ st'.at? stringOverrunPatch.Keys
              = some (.str ((utf8 "abcdefgh").take (3 : Int).toNat ++ utf8 "xx")))
    ∧ (overrunPatch.Range = some (1, 5) ∧ (0 : Int) ≤ 1
      ∧ shortState.at? overrunPatch.Keys = some (.seq [.num 1, .num 2] [])
      ∧ (∀ s, overrunPatch.Val ≠ .str s)
      ∧ (1 : Int) ≤ ([.num 1, .num 2] : List Value).length
      ∧ (([.num 1, .num 2] : List Value).length : Int) < 5
      ∧ ∃ st' spare', ResolveState exactFit shortState overrunPatch = some (st', none)
          ∧ st'.at? overrunPatch.Keys
              = some (.seq (([.num 1, .num 2] : List Value).take (1 : Int).toNat ++ [.num 9])
                  spare'))
    ∧ (valueOverrunPatch.Range = some (1, 5)
      ∧ (∀ s, valueOverrunPatch.Val ≠ .str s)
      ∧ ResolveState exactFit shortState valueOverrunPatch
          = some (.map [("k", .seq [.num 1, .num 9] [])], none)
      ∧ ∃ st' spare', ResolveState exactFit shortState valueOverrunPatch = some (st', none)
          ∧ st'.at? valueOverrunPatch.Keys
              = some (.seq (([.num 1, .num 2] : List Value).take (1 : Int).toNat ++ [.num 9])
                  spare')) :=
  ⟨⟨rfl, by decide, by decide, rfl, by decide, by decide, by decide,
      (resolveState_overrun_drops_tail exactFit stringState stringOverrunPatch 3 20 rfl
        (by decide)).1 (utf8 "abcdefgh") (utf8 "xx") (by decide) rfl (by decide) (by decide)⟩,
    ⟨rfl, by decide, by decide, fun s => nofun, by decide, by decide,
      (resolveState_overrun_drops_tail exactFit shortState overrunPatch 1 5 rfl
        (by decide)).2 [.num 1, .num 2] [] (by decide) (fun s => nofun) (by decide)
        (by decide)⟩,
    ⟨rfl, fun s => nofun, by decide,
      (resolveState_overrun_drops_tail exactFit shortState valueOverrunPatch 1 5 rfl
        (by decide)).2 [.num 1, .num 2] [] (by decide) (fun s => nofun) (by decide)
        (by decide)⟩⟩

/-- C19: when the initial `AllTxs` request fails with the error `e`, the
iterator returned by `AllTxsForStateURI` has nil channels: `Next` blocks
forever, `Cancel` panics, and `Error` returns `e`. -/
theorem allTxs_error_iterator_not_finished {Tx E Stream : Type} (e : E) :
    (AllTxsForStateURI (.error e : Except E Stream) : txIterator Tx E).Next
        = [.blocksForever]
    ∧ (AllTxsForStateURI (.error e : Except E Stream) : txIterator Tx E).Cancel = none
    ∧ (AllTxsForStateURI (.error e : Except E Stream) : txIterator Tx E).Error = some e :=
  ⟨rfl, rfl, rfl⟩

/-- C20: with spare capacity the slice model does not compute the list splice.
On `[1,2,3,4]` held in an array of capacity eight, writing `[5,6,7,8]` over
`[1,3)` leaves `[1,5,6,7,8,7]`, while the list splice is `[1,5,6,7,8,4]`: the
first `append` has written `7` over the element `4` that `s[3:]` then reads. -/
theorem resolveState_aliasing_breaks_splice :
    wideState.at? widePatch.Keys
        = some (.seq [.num 1, .num 2, .num 3, .num 4] [.null, .null, .null, .null])
    ∧ ResolveState exactFit wideState widePatch
        = some (.map [("k", .seq [.num 1, .num 5, .num 6, .num 7, .num 8, .num 7]
            [.null, .null])], none)
    ∧ pureSplice [.num 1, .num 2, .num 3, .num 4] 1 3 [.num 5, .num 6, .num 7, .num 8]
        = [.num 1, .num 5, .num 6, .num 7, .num 8, .num 4]
    ∧ ([.num 1, .num 5, .num 6, .num 7, .num 8, .num 7] : List Value)
        ≠ pureSplice [.num 1, .num 2, .num 3, .num 4] 1 3
            [.num 5, .num 6, .num 7, .num 8] := by
  decide

/-- C13, as stated, fails: a map whose key holds the separator does not come
back.  After `Set("data", nil, {"a/b": 1})` and `Save` on an empty store,
`Value("data", nil)` returns the empty map: the entry lives at the keypath
`data/a/b`, two components below the map, and is none of its children. -/
theorem set_value_roundtrip_fails :
    ∃ n' db', (VersionedDBTree.StateAtVersion [] 0 true).Set (Keypath.ofString "data")
        slashValue = .ok n'
      ∧ n'.Save = .ok db'
      ∧ (db'.StateAtVersion 0 false).Value (Keypath.ofString "data") none
          = .ok (some (.M []))
      ∧ (db'.StateAtVersion 0 false).Value (Keypath.ofString "data") none
          ≠ .ok (some slashValue) :=
  ⟨_, _, rfl, rfl, by decide, by decide⟩

/-- C13, amended: for every store, every keypath `K` and every in-memory tree
value `v` whose map keys are single keypath components (not empty, without
`/`), after `Set(K, nil, v)` and `Save` on a writable node, `Value(K, nil)` on
the same version returns `v` with `exists = true` and no error.  (A map is
given by its entries in key order.) -/
theorem set_value_roundtrip (db : VersionedDBTree) (ver : Version) (K : Keypath)
    (v : TreeValue) (hwf : db.WF) (hv : v.storable = true) :
    ∃ n' db', (db.StateAtVersion ver true).Set K v = .ok n' ∧ n'.Save = .ok db'
      ∧ (db'.StateAtVersion ver false).Value K none = .ok (some v) :=
  value_after_set db ver K v hwf hv

/-- The witness of C13: `Set("data/flox", nil, ["a","b","c","d"])` on the store
holding `fixture1` at `data`, then `Value("data/flox", nil)`. -/
theorem set_value_roundtrip_witness :
    (SetupVersionedDBTreeWithValue (Keypath.ofString "data") fixture1).WF
    ∧ abcd.storable = true
    ∧ ∃ n' db', ((SetupVersionedDBTreeWithValue (Keypath.ofString "data")
          fixture1).StateAtVersion 0 true).Set (Keypath.ofString "data/flox") abcd = .ok n'
        ∧ n'.Save = .ok db'
        ∧ (db'.StateAtVersion 0 false).Value (Keypath.ofString "data/flox") none
            = .ok (some abcd) :=
  ⟨by decide, by decide,
    set_value_roundtrip (SetupVersionedDBTreeWithValue (Keypath.ofString "data") fixture1) 0
      (Keypath.ofString "data/flox") abcd (by decide) (by decide)⟩

/-- C14, as stated, fails when a key holds a byte below the separator.  In the
store of `{"a": {"b": 1}, "a-b": 2}` the keys sort, by their bytes, as (root),
`a`, `a-b`, `a/b`: the scan from `a` stops at `a-b`, which does not start with
`a`, and `Iterator("a")` yields `a` only, not its stored descendant `a/b`. -/
theorem iterator_misses_descendant :
    distinctKeys 0 ((SetupVersionedDBTreeWithValue [] dashValue).view 0)
    ∧ treeInvariant ((SetupVersionedDBTreeWithValue [] dashValue).view 0)
    ∧ (keysInStoreOrder 0 ((SetupVersionedDBTreeWithValue [] dashValue).view 0)).map
          (Keypath.bytes 0)
        = [[], [0x61], [0x61, 0x2D, 0x62], [0x61, 0x2F, 0x62]]
    ∧ Keypath.ofString "a/b"
        ∈ ((SetupVersionedDBTreeWithValue [] dashValue).view 0).map (fun e => e.1)
    ∧ Keypath.ofString "a" <+: Keypath.ofString "a/b"
    ∧ ((SetupVersionedDBTreeWithValue [] dashValue).StateAtVersion 0 false).Iterator 0
          (Keypath.ofString "a") = [Keypath.ofString "a"]
    ∧ Keypath.ofString "a/b"
        ∉ ((SetupVersionedDBTreeWithValue [] dashValue).StateAtVersion 0 false).Iterator 0
            (Keypath.ofString "a") := by
  decide

/-- C14, amended: for a store with one value per key that satisfies the tree
invariant, and a keypath `K` whose subtree is one run of the store (no stored
keypath other than `K` and its descendants has its bytes between those of `K`
and those of a stored descendant of `K`), the forward `Iterator(K)` yields
keypaths in strictly ascending order of their bytes, each once; it yields
exactly the stored keypaths that are `K` or below `K`; and it yields nothing
when `K` is not stored.  This holds for every byte chosen as index
separator. -/
theorem iterator_yields_subtree (db : VersionedDBTree) (ver : Version) (ixSep : Nat)
    (K : Keypath) (hd : distinctKeys ixSep (db.view ver)) (ht : treeInvariant (db.view ver))
    (hc : subtreeContiguous ixSep (db.view ver) K) :
    ((db.StateAtVersion ver false).Iterator ixSep K).Sorted
        (fun a b => Keypath.bytes ixSep a < Keypath.bytes ixSep b)
    ∧ ((db.StateAtVersion ver false).Iterator ixSep K).Nodup
    ∧ (∀ q, q ∈ (db.StateAtVersion ver false).Iterator ixSep K
        ↔ q ∈ (db.view ver).map (fun e => e.1) ∧ K <+: q)
    ∧ (K ∉ (db.view ver).map (fun e => e.1) →
        (db.StateAtVersion ver false).Iterator ixSep K = []) := by
  have hs : ((db.StateAtVersion ver false).Iterator ixSep K).Sorted
      (fun a b => Keypath.bytes ixSep a < Keypath.bytes ixSep b) :=
    (keysInStoreOrder_strict ixSep _ hd).sublist (prefixScan_sublist ixSep _ K)
  refine ⟨hs, ?_, fun q => mem_prefixScan ixSep _ K q hc,
    fun h => prefixScan_nil_of_absent ixSep _ K ht h⟩
  exact hs.imp fun h e => absurd h (by rw [e]; exact lt_irrefl _)

/-- An instance of amended C14: the iterator of `data/flox` on the store
holding `fixture1` at `data`, with the index separator 0x00, yields the six
keypaths of that subtree, in order; `data/floxxx` sorts after them. -/
theorem iterator_yields_subtree_witness :
    distinctKeys 0 ((SetupVersionedDBTreeWithValue (Keypath.ofString "data") fixture1).view 0)
    ∧ treeInvariant ((SetupVersionedDBTreeWithValue (Keypath.ofString "data") fixture1).view 0)
    ∧ subtreeContiguous 0
        ((SetupVersionedDBTreeWithValue (Keypath.ofString "data") fixture1).view 0)
        (Keypath.ofString "data/flox")
    ∧ ((SetupVersionedDBTreeWithValue (Keypath.ofString "data") fixture1).StateAtVersion 0
          false).Iterator 0 (Keypath.ofString "data/flox")
        = [Keypath.ofString "data/flox",
           (Keypath.ofString "data/flox").PushIndex 0,
           (Keypath.ofString "data/flox").PushIndex 1,
           ((Keypath.ofString "data/flox").PushIndex 1).Push "hey",
           ((Keypath.ofString "data/flox").PushIndex 1).Push "yup",
           (Keypath.ofString "data/flox").PushIndex 2]
    ∧ (∀ q, q ∈ ((SetupVersionedDBTreeWithValue (Keypath.ofString "data")
          fixture1).StateAtVersion 0 false).Iterator 0 (Keypath.ofString "data/flox")
        ↔ q ∈ ((SetupVersionedDBTreeWithValue (Keypath.ofString "data") fixture1).view 0).map
              (fun e => e.1)
          ∧ Keypath.ofString "data/flox" <+: q) :=
  ⟨by decide, by decide, by decide, by decide,
    (iterator_yields_subtree (SetupVersionedDBTreeWithValue (Keypath.ofString "data") fixture1)
      0 0 (Keypath.ofString "data/flox") (by decide) (by decide) (by decide)).2.2.1⟩

/-- C15, as stated, fails when a key holds a byte below the separator.  In the
store of `{"a": {"b": 1}, "a-b": 2}`, whose keys sort as (root), `a`, `a-b`,
`a/b`, the forward `Iterator("a")` yields `a` only and
`DepthFirstIterator("a")` yields `a/b` only: each scan stops at `a-b`. -/
theorem depthFirst_not_reverse :
    ((SetupVersionedDBTreeWithValue [] dashValue).StateAtVersion 0 false).Iterator 0
        (Keypath.ofString "a") = [Keypath.ofString "a"]
    ∧ ((SetupVersionedDBTreeWithValue [] dashValue).StateAtVersion 0 false).DepthFirstIterator
        0 (Keypath.ofString "a") = [Keypath.ofString "a/b"]
    ∧ ((SetupVersionedDBTreeWithValue [] dashValue).StateAtVersion 0 false).DepthFirstIterator
        0 (Keypath.ofString "a")
      ≠ (((SetupVersionedDBTreeWithValue [] dashValue).StateAtVersion 0 false).Iterator 0
          (Keypath.ofString "a")).reverse := by
  decide

/-- C15, amended: for a store with one value per key and a keypath `K` whose
subtree is one run of the store (no stored keypath other than `K` and its
descendants has its bytes between those of `K` and those of a stored
descendant of `K`), the keypaths `DepthFirstIterator(K)` yields are those of
the forward `Iterator(K)` in reverse order, and no keypath is yielded before
one of its descendants.  This holds for every byte chosen as index
separator. -/
theorem depthFirst_is_reverse (db : VersionedDBTree) (ver : Version) (ixSep : Nat)
    (K : Keypath) (hd : distinctKeys ixSep (db.view ver))
    (hc : subtreeContiguous ixSep (db.view ver) K) :
    (db.StateAtVersion ver false).DepthFirstIterator ixSep K
      = ((db.StateAtVersion ver false).Iterator ixSep K).reverse
    ∧ ((db.StateAtVersion ver false).DepthFirstIterator ixSep K).Pairwise
        (fun x y => ¬ (x <+: y ∧ x ≠ y)) := by
  have e1 : (db.StateAtVersion ver false).DepthFirstIterator ixSep K
      = ((keysInStoreOrder ixSep (db.view ver)).filter (fun q => q.StartsWith K)).reverse :=
    reversePrefixScan_eq_filter ixSep _ K hc
  have e2 : (db.StateAtVersion ver false).Iterator ixSep K
      = (keysInStoreOrder ixSep (db.view ver)).filter (fun q => q.StartsWith K) :=
    prefixScan_eq_filter ixSep _ K hc
  refine ⟨by rw [e1, e2], ?_⟩
  rw [e1, List.pairwise_reverse]
  have hs := (keysInStoreOrder_strict ixSep _ hd).filter (fun q => q.StartsWith K)
  refine List.Pairwise.imp ?_ hs
  intro a b hab hp
  exact absurd hab (not_lt_of_le (bytes_le_of_startsWith ixSep hp.1))

/-- An instance of amended C15: the depth-first iterator of `data/flox` on the
store holding `fixture1` at `data`, with the index separator 0x00, yields the
six keypaths of that subtree from the last to `data/flox` itself. -/
theorem depthFirst_is_reverse_witness :
    distinctKeys 0 ((SetupVersionedDBTreeWithValue (Keypath.ofString "data") fixture1).view 0)
    ∧ subtreeContiguous 0
        ((SetupVersionedDBTreeWithValue (Keypath.ofString "data") fixture1).view 0)
        (Keypath.ofString "data/flox")
    ∧ ((SetupVersionedDBTreeWithValue (Keypath.ofString "data") fixture1).StateAtVersion 0
          false).DepthFirstIterator 0 (Keypath.ofString "data/flox")
        = [(Keypath.ofString "data/flox").PushIndex 2,
           ((Keypath.ofString "data/flox").PushIndex 1).Push "yup",
           ((Keypath.ofString "data/flox").PushIndex 1).Push "hey",
           (Keypath.ofString "data/flox").PushIndex 1,
           (Keypath.ofString "data/flox").PushIndex 0,
           Keypath.ofString "data/flox"]
    ∧ ((SetupVersionedDBTreeWithValue (Keypath.ofString "data") fixture1).StateAtVersion 0
          false).DepthFirstIterator 0 (Keypath.ofString "data/flox")
        = (((SetupVersionedDBTreeWithValue (Keypath.ofString "data") fixture1).StateAtVersion 0
            false).Iterator 0 (Keypath.ofString "data/flox")).reverse :=
  ⟨by decide, by decide, by decide,
    (depthFirst_is_reverse (SetupVersionedDBTreeWithValue (Keypath.ofString "data") fixture1)
      0 0 (Keypath.ofString "data/flox") (by decide) (by decide)).1⟩

/-- C16: `CopyVersion(dst, src)` onto a fresh version `dst`: every read at `dst`
and at `src` returns what `src` held; `dst` gets as many entries as `src` has,
so a store that held `src` only holds twice as many; and after any later `Set`
on `dst` every read of `src` is unchanged. -/
theorem copyVersion_isolated (db : VersionedDBTree) (dst src : Version)
    (hfresh : ∀ e ∈ db, e.version ≠ dst) (hne : src ≠ dst) :
    (∀ kp rng, ((db.CopyVersion dst src).StateAtVersion dst false).Value kp rng
        = (db.StateAtVersion src false).Value kp rng)
    ∧ (∀ kp rng, ((db.CopyVersion dst src).StateAtVersion src false).Value kp rng
        = (db.StateAtVersion src false).Value kp rng)
    ∧ ((db.CopyVersion dst src).view dst).length = (db.view src).length
    ∧ (db.CopyVersion dst src).length = db.length + (db.view src).length
    ∧ ((∀ e ∈ db, e.version = src) → (db.CopyVersion dst src).length = 2 * db.length)
    ∧ (∀ K v n' db', ((db.CopyVersion dst src).StateAtVersion dst true).Set K v = .ok n' →
        n'.Save = .ok db' →
        ∀ kp rng, (db'.StateAtVersion src false).Value kp rng
          = (db.StateAtVersion src false).Value kp rng) := by
  have hlen := copy_length db dst src hfresh
  have hview : (db.view src).length = (db.filter fun e => e.version = src).length := by
    simp [VersionedDBTree.view]
  refine ⟨fun kp rng => value_congr _ _ kp rng (view_copy_dst db dst src),
    fun kp rng => value_congr _ _ kp rng (view_copy_src db dst src hne),
    by rw [view_copy_dst], by rw [hlen, hview], ?_, ?_⟩
  · intro hall
    have : db.filter (fun e => decide (e.version = src)) = db := by
      rw [List.filter_eq_self]
      intro a ha
      simpa using hall a ha
    rw [hlen, this]
    omega
  · intro K v n' db' hs hsave kp rng
    have hw : n'.writable = true := by
      obtain ⟨m, hm, _, hmw⟩ :=
        set_ok ((db.CopyVersion dst src).StateAtVersion dst true) K v rfl
      rw [hs] at hm
      cases hm
      exact hmw
    have hdb : db' = n'.store := by
      simp only [DBNode.Save, hw, if_true, Except.ok.injEq] at hsave
      exact hsave.symm
    apply value_congr
    simp only [DBNode.entries, VersionedDBTree.StateAtVersion]
    rw [hdb, view_set_other _ n' K v src hne hs]
    exact view_copy_src db dst src hne

/-- An instance of C16: the store holding `fixture1` at the root of version 0,
copied to version 1, then written at version 1. -/
theorem copyVersion_isolated_witness :
    (∀ e ∈ SetupVersionedDBTreeWithValue [] fixture1, e.version ≠ 1) ∧ (0 : Version) ≠ 1
    ∧ (((SetupVersionedDBTreeWithValue [] fixture1).CopyVersion 1 0).StateAtVersion 1
          false).Value [] none = .ok (some fixture1)
    ∧ (∀ kp rng, (((SetupVersionedDBTreeWithValue [] fixture1).CopyVersion 1 0).StateAtVersion
          1 false).Value kp rng
        = ((SetupVersionedDBTreeWithValue [] fixture1).StateAtVersion 0 false).Value kp rng)
    ∧ ((SetupVersionedDBTreeWithValue [] fixture1).CopyVersion 1 0).length
        = 2 * (SetupVersionedDBTreeWithValue [] fixture1).length :=
  ⟨by decide, by decide, by decide,
    (copyVersion_isolated (SetupVersionedDBTreeWithValue [] fixture1) 1 0 (by decide)
      (by decide)).1,
    by decide⟩

/-- C17: on a store with one value per key, the entries of a stored map come
in ascending key order, and for a range `[lo,hi)` with `0 <= lo <= hi` that is
valid for the number of keys, `Value(K, [lo,hi))` returns the map of the
entries at positions `lo .. hi-1` of that order, each with its whole subtree;
on a map that is not empty `[0,0)` returns the empty map. -/
theorem value_map_with_range (db : VersionedDBTree) (ver : Version) (K : Keypath)
    (kvs : List (String × TreeValue)) (lo hi : Int) (hwf : db.WF)
    (hstored : (db.StateAtVersion ver false).Value K none = .ok (some (.M kvs)))
    (h0 : 0 ≤ lo) (h1 : lo ≤ hi) (hvalid : rangeValid (lo, hi) kvs.length = true) :
    (kvs.map fun e => Part.key e.1).Sorted (· < ·)
    ∧ (db.StateAtVersion ver false).Value K (some (lo, hi))
        = .ok (some (.M ((kvs.drop lo.toNat).take (hi - lo).toNat)))
    ∧ (0 < kvs.length →
        (db.StateAtVersion ver false).Value K (some (0, 0)) = .ok (some (.M []))) := by
  refine ⟨?_, ?_, ?_⟩
  · have hk := stored_map_keys _ K kvs hstored
    have hs := mapKeys_sorted (db.StateAtVersion ver false).entries K (view_nodup db ver hwf)
    rw [← hk, List.pairwise_map] at hs
    rw [List.Sorted, List.pairwise_map]
    exact hs
  · rw [value_map_range _ K kvs (lo, hi) hstored, if_pos hvalid]
    simp only [rangeSelect, rangeIndices_nonneg lo hi kvs.length h0 h1]
  · intro hpos
    have hv0 : rangeValid (0, 0) kvs.length = true := by
      simp only [rangeValid, rangeIndices_nonneg 0 0 kvs.length (le_refl 0) (le_refl 0),
        decide_eq_true_eq]
      omega
    rw [value_map_range _ K kvs (0, 0) hstored, if_pos hv0]
    simp only [rangeSelect, rangeIndices_nonneg 0 0 kvs.length (le_refl 0) (le_refl 0)]
    simp

/-- The witness of C17: the keys `asdf`, `flo`, `flox`, `floxxx`, `hello` of
`fixture1` with the range `[1,3)` give the entries `flo` and `flox`. -/
theorem value_map_with_range_witness :
    (SetupVersionedDBTreeWithValue [] fixture1).WF
    ∧ ((SetupVersionedDBTreeWithValue [] fixture1).StateAtVersion 0 false).Value [] none
        = .ok (some fixture1)
    ∧ (0 : Int) ≤ 1 ∧ (1 : Int) ≤ 3
    ∧ ((SetupVersionedDBTreeWithValue [] fixture1).StateAtVersion 0 false).Value []
          (some (1, 3)) = .ok (some (.M fixture1Middle))
    ∧ ((SetupVersionedDBTreeWithValue [] fixture1).StateAtVersion 0 false).Value []
          (some (0, 0)) = .ok (some (.M []))
    ∧ ((SetupVersionedDBTreeWithValue [] fixture1).StateAtVersion 0 false).Value []
          (some (5, 5)) = .error .InvalidRange :=
  ⟨by decide, by decide, by decide, by decide,
    (value_map_with_range (SetupVersionedDBTreeWithValue [] fixture1) 0 []
      [("asdf", .S [.scalar (.string "1234"), .scalar (.float64 0x408ed9999999999a),
          .scalar (.uint64 333)]),
       ("flo", .scalar (.float64 0x4074100000000000)),
       ("flox", .S [.scalar (.uint64 65),
          .M [("hey", .scalar (.uint64 321)), ("yup", .scalar (.string "yes"))],
          .scalar (.string "jkjkjkj")]),
       ("floxxx", .scalar (.string "asdf123")),
       ("hello", .M [("xyzzy", .scalar (.uint64 33))])]
      1 3 (by decide) (by decide) (by decide) (by decide) (by decide)).2.1,
    by decide, by decide⟩

/-- C18, as stated, fails.  On the four-element sequence of `fixture3` the
range `(-2, 0)` returns the last two elements, as the claim's own witness and
the test say, while the stated bounds are `lo' = 2` and `hi' = 0`, which
select nothing; and the range `(4, 4)` is refused with `InvalidRange`. -/
theorem value_slice_stated_bounds_fail :
    ((SetupVersionedDBTreeWithValue [] (.S fixture3Elems)).StateAtVersion 0 false).Value []
        none = .ok (some (.S fixture3Elems))
    ∧ statedIndices (-2, 0) fixture3Elems.length = (2, 0)
    ∧ ((SetupVersionedDBTreeWithValue [] (.S fixture3Elems)).StateAtVersion 0 false).Value []
        (some (-2, 0))
        = .ok (some (.S [.scalar (.float64 0x407413ae147ae148), .scalar (.string "hello")]))
    ∧ ((SetupVersionedDBTreeWithValue [] (.S fixture3Elems)).StateAtVersion 0 false).Value []
        (some (-2, 0))
        ≠ .ok (some (.S ((fixture3Elems.drop (2 : Int).toNat).take ((0 : Int) - 2).toNat)))
    ∧ ((SetupVersionedDBTreeWithValue [] (.S fixture3Elems)).StateAtVersion 0 false).Value []
        (some (4, 4)) = .error .InvalidRange := by
  decide

/-- C18, amended: for a stored sequence of length `L` and a range `(lo, hi)`,
let `lo' = lo<0 ? L+lo : lo` and `hi' = hi<0 ? L+hi : hi`, except that
`hi' = L` when `hi = 0` and `lo < 0`.  When `0 <= lo' <= hi' <= L` and
`lo' < L`, `Value(K, (lo,hi))` returns the elements at positions
`lo' .. hi'-1`; otherwise it fails with `InvalidRange`. -/
theorem value_slice_with_range (n : DBNode) (K : Keypath) (xs : List TreeValue)
    (lo hi : Int) (hstored : n.Value K none = .ok (some (.S xs))) :
    n.Value K (some (lo, hi))
      = if 0 ≤ (if lo < 0 then (xs.length : Int) + lo else lo)
          ∧ (if lo < 0 then (xs.length : Int) + lo else lo)
              ≤ (if hi < 0 ∨ (hi = 0 ∧ lo < 0) then (xs.length : Int) + hi else hi)
          ∧ (if hi < 0 ∨ (hi = 0 ∧ lo < 0) then (xs.length : Int) + hi else hi)
              ≤ (xs.length : Int)
          ∧ (if lo < 0 then (xs.length : Int) + lo else lo) < (xs.length : Int)
        then .ok (some (.S ((xs.drop (if lo < 0 then (xs.length : Int) + lo else lo).toNat).take
          ((if hi < 0 ∨ (hi = 0 ∧ lo < 0) then (xs.length : Int) + hi else hi)
            - (if lo < 0 then (xs.length : Int) + lo else lo)).toNat)))
        else .error .InvalidRange := by
  rw [value_seq_range n K xs (lo, hi) hstored]
  simp only [rangeValid, rangeIndices, rangeSelect, decide_eq_true_eq]

/-- The witnesses of C18 on the four-element sequence of `fixture3`: `(-2,-1)`
returns the third element only, `(-2,0)` the last two. -/
theorem value_slice_with_range_witness :
    ((SetupVersionedDBTreeWithValue [] (.S fixture3Elems)).StateAtVersion 0 false).Value []
        none = .ok (some (.S fixture3Elems))
    ∧ ((SetupVersionedDBTreeWithValue [] (.S fixture3Elems)).StateAtVersion 0 false).Value []
        (some (-2, -1)) = .ok (some (.S [.scalar (.float64 0x407413ae147ae148)]))
    ∧ ((SetupVersionedDBTreeWithValue [] (.S fixture3Elems)).StateAtVersion 0 false).Value []
        (some (-2, 0))
        = .ok (some (.S [.scalar (.float64 0x407413ae147ae148), .scalar (.string "hello")])) :=
  ⟨by decide,
    (value_slice_with_range
      ((SetupVersionedDBTreeWithValue [] (.S fixture3Elems)).StateAtVersion 0 false) []
      fixture3Elems (-2) (-1) (by decide)).trans (by decide),
    (value_slice_with_range
      ((SetupVersionedDBTreeWithValue [] (.S fixture3Elems)).StateAtVersion 0 false) []
      fixture3Elems (-2) 0 (by decide)).trans (by decide)⟩

/-- C21 fails on the code: a ranged patch of a value that is not a string does
not replace a target of another type.  After line 86 has assigned the value
the code goes on with the nil slice: `.k[1:2] = [9]` over the string `"abc"`
panics on `s[:1]`, and `.k[0:0] = 7` over the number `5` leaves the
one-element sequence `[7]` at the target, not `7`. -/
theorem resolveState_other_type_not_replaced :
    textState.at? seqOverTextPatch.Keys = some (.str (utf8 "abc"))
    ∧ ResolveState exactFit textState seqOverTextPatch = none
    ∧ numberState.at? numberPatch.Keys = some (.num 5)
    ∧ ResolveState exactFit numberState numberPatch
        = some (.map [("k", .seq [.num 7] [])], none)
    ∧ (ResolveState exactFit numberState numberPatch).bind
          (fun r => r.1.at? numberPatch.Keys) ≠ some numberPatch.Val := by
  decide

/-- C22: a value on the key path that is not a map is replaced by a fresh map.
Let the key path be `pre ++ k :: rest` and let the input state hold `x` at
`pre` (the state itself when `pre` is empty).  When `x` is not a map,
`ResolveState` returns normally, the returned state holds at `pre` a map whose
only key is `k`, and the target holds `p.Val`.  When `x` is a map, every
returned state holds at `pre` a map with the same entries under all keys other
than `k`, and a patch without a range returns. -/
theorem resolveState_nonmap_on_path (grow : Nat → Nat → Nat) (state : Value) (p : Patch)
    (pre : List String) (k : String) (rest : List String) (x : Value)
    (hk : p.Keys = pre ++ k :: rest) (hx : state.at? pre = some x) :
    ((∀ m, x ≠ .map m) →
      ∃ st' w, ResolveState grow state p = some (st', none)
        ∧ st'.at? pre = some (.map [(k, w)])
        ∧ st'.at? p.Keys = some p.Val)
    ∧ (∀ m, x = .map m →
        (∀ st' e, ResolveState grow state p = some (st', e) →
          ∃ m', st'.at? pre = some (.map m')
            ∧ ∀ k', k' ≠ k → GoMap.find? m' k' = GoMap.find? m k')
        ∧ (p.Range = none → ∃ st', ResolveState grow state p = some (st', none))) := by
  constructor
  · intro hnm
    have habs : state.at? p.Keys = none := by
      rw [hk]
      exact at?_nonmap_below x hnm pre k rest state hx
    obtain ⟨w, hw⟩ := at?_put_pre p.Val k rest pre state x hx
    rw [rootMap_of_nonmap x hnm] at hw
    refine ⟨put state p.Val p.Keys, w, resolveState_absent grow state p (Or.inl habs), ?_,
      at?_put _ _ _⟩
    rw [hk]
    exact hw
  · intro m hm
    subst hm
    constructor
    · intro st' e he
      rw [ResolveState_eq] at he
      cases hs : setval grow p (target state p.Keys) with
      | none => rw [hs] at he; simp at he
      | some v =>
        rw [hs] at he
        simp only [Option.map_some', Option.some.injEq, Prod.mk.injEq] at he
        obtain ⟨w, hw⟩ := at?_put_pre v k rest pre state (.map m) hx
        refine ⟨GoMap.assign m k w, ?_, fun k' hne => GoMap.find?_assign_ne m k k' w hne⟩
        rw [← he.1, hk]
        exact hw
    · intro hr
      exact ⟨_, ResolveState_noRange grow state p hr⟩

/-- An instance of C22: `.a.b.c = 7` on the state `{"a": 5, "z": 1}`.  The
number under `a` is replaced by a map whose only key is `b`; the root map keeps
its entry `z`. -/
theorem resolveState_nonmap_on_path_witness :
    deepPatch.Keys = ["a"] ++ "b" :: ["c"]
    ∧ blockedState.at? ["a"] = some (.num 5)
    ∧ blockedState.at? [] = some blockedState
    ∧ ResolveState exactFit blockedState deepPatch
        = some (.map [("a", .map [("b", .map [("c", .num 7)])]), ("z", .num 1)], none)
    ∧ (∃ st' w, ResolveState exactFit blockedState deepPatch = some (st', none)
        ∧ st'.at? ["a"] = some (.map [("b", w)])
        ∧ st'.at? deepPatch.Keys = some deepPatch.Val) :=
  ⟨rfl, by decide, rfl, by decide,
    (resolveState_nonmap_on_path exactFit blockedState deepPatch ["a"] "b" ["c"] (.num 5) rfl
      (by decide)).1 (fun m => nofun)⟩

/-- C23 fails on the code when the range is empty: the value is inserted
twice.  On `[1,2,3]` (capacity three) the patch `.k[1:1] = 9` leaves
`[1,9,9,3]`, not `[1,9,2,3]`: `append(s[:1], 9)` writes `9` over `s[1]` in the
array of `s` before `s[1:]` is read. -/
theorem resolveState_insert_repeats_value :
    tightState.at? insertPatch.Keys = some (.seq [.num 1, .num 2, .num 3] [])
    ∧ ResolveState exactFit tightState insertPatch
        = some (.map [("k", .seq [.num 1, .num 9, .num 9, .num 3] [])], none)
    ∧ pureSplice [.num 1, .num 2, .num 3] 1 1 [insertPatch.Val]
        = [.num 1, .num 9, .num 2, .num 3]
    ∧ ([.num 1, .num 9, .num 9, .num 3] : List Value)
        ≠ pureSplice [.num 1, .num 2, .num 3] 1 1 [insertPatch.Val] := by
  decide

/-- C24: a ranged patch on an absent target ignores the range.  When following
the keys reaches no value or reaches `nil`, the patch with any range gives
what the patch without a range gives: it returns normally and the target of
the returned state holds the value of the patch. -/
theorem ranged_patch_on_absent_target (grow : Nat → Nat → Nat) (state : Value)
    (keys : List String) (val : Value) (r : Range)
    (h : state.at? keys = none ∨ state.at? keys = some .null) :
    ResolveState grow state ⟨keys, some r, val⟩ = ResolveState grow state ⟨keys, none, val⟩
    ∧ ∃ st', ResolveState grow state ⟨keys, some r, val⟩ = some (st', none)
        ∧ st'.at? keys = some val := by
  have h1 := resolveState_absent grow state ⟨keys, some r, val⟩ h
  have h2 := resolveState_absent grow state ⟨keys, none, val⟩ h
  exact ⟨h1.trans h2.symm, _, h1, at?_put _ _ _⟩

/-- An instance of C24: `.a.b.c[2:4] = "xy"` on the state `{"a": 5, "z": 1}`,
where following `a/b/c` reaches no value. -/
theorem ranged_patch_on_absent_target_witness :
    (blockedState.at? ["a", "b", "c"] = none
      ∨ blockedState.at? ["a", "b", "c"] = some .null)
    ∧ ResolveState exactFit blockedState ⟨["a", "b", "c"], some (2, 4), .str (utf8 "xy")⟩
        = some (.map [("a", .map [("b", .map [("c", .str (utf8 "xy"))])]), ("z", .num 1)],
            none)
    ∧ ResolveState exactFit blockedState ⟨["a", "b", "c"], some (2, 4), .str (utf8 "xy")⟩
        = ResolveState exactFit blockedState ⟨["a", "b", "c"], none, .str (utf8 "xy")⟩ :=
  ⟨Or.inl (by decide), by decide,
    (ranged_patch_on_absent_target exactFit blockedState ["a", "b", "c"] (.str (utf8 "xy"))
      (2, 4) (Or.inl (by decide))).1⟩

/-- C25: two patches without a range, on key paths of which neither is a
prefix of the other (so both are non-empty), commute: applied in either order
they return normally, with a nil error, states that are the same tree.  (The
association lists of the two results may list the entries of a map in
different orders, which a Go map does not have.) -/
theorem resolveState_unrelated_commute (grow : Nat → Nat → Nat) (state : Value)
    (p1 p2 : Patch) (h1 : p1.Range = none) (h2 : p2.Range = none)
    (h12 : ¬ p1.Keys <+: p2.Keys) (h21 : ¬ p2.Keys <+: p1.Keys) :
    ∃ a b, (ResolveState grow state p1).bind (fun r => ResolveState grow r.1 p2)
          = some (a, none)
      ∧ (ResolveState grow state p2).bind (fun r => ResolveState grow r.1 p1)
          = some (b, none)
      ∧ sameTree a b := by
  refine ⟨put (put state p1.Val p1.Keys) p2.Val p2.Keys,
    put (put state p2.Val p2.Keys) p1.Val p1.Keys, ?_, ?_,
    put_comm state p1.Val p2.Val p1.Keys p2.Keys h12 h21⟩
  · rw [ResolveState_noRange grow state p1 h1]
    exact ResolveState_noRange grow _ p2 h2
  · rw [ResolveState_noRange grow state p2 h2]
    exact ResolveState_noRange grow _ p1 h1

/-- An instance of C25: `.a = 1` and `.b = 2` on the empty map.  The two orders
give the entries `a, b` and `b, a`, the same tree. -/
theorem resolveState_unrelated_commute_witness :
    patchA.Range = none ∧ patchB.Range = none
    ∧ ¬ patchA.Keys <+: patchB.Keys ∧ ¬ patchB.Keys <+: patchA.Keys
    ∧ (ResolveState exactFit (.map []) patchA).bind (fun r => ResolveState exactFit r.1 patchB)
        = some (.map [("a", .num 1), ("b", .num 2)], none)
    ∧ (ResolveState exactFit (.map []) patchB).bind (fun r => ResolveState exactFit r.1 patchA)
        = some (.map [("b", .num 2), ("a", .num 1)], none)
    ∧ sameTree (.map [("a", .num 1), ("b", .num 2)]) (.map [("b", .num 2), ("a", .num 1)]) := by
  refine ⟨rfl, rfl, by decide, by decide, by decide, by decide, ?_⟩
  obtain ⟨a, b, ha, hb, hs⟩ :=
    resolveState_unrelated_commute exactFit (.map []) patchA patchB rfl rfl (by decide)
      (by decide)
  have ea : (ResolveState exactFit (.map []) patchA).bind
      (fun r => ResolveState exactFit r.1 patchB)
        = some (.map [("a", .num 1), ("b", .num 2)], none) := by decide
  have eb : (ResolveState exactFit (.map []) patchB).bind
      (fun r => ResolveState exactFit r.1 patchA)
        = some (.map [("b", .num 2), ("a", .num 1)], none) := by decide
  rw [ea] at ha
  rw [eb] at hb
  simp only [Option.some.injEq, Prod.mk.injEq, and_true] at ha hb
  rw [← ha, ← hb] at hs
  exact hs

end Redwood
